import Mathlib

/-!
Sawmill: merging time-ordered log sources

A verification development for the three modules of the repository:

* `solution/queue.js` (the buffer of a source),
* `solution/sync-sorted-merge.js` (the blocking merge),
* `solution/async-sorted-merge.js` (the buffered merge and its slow variant).

The promise-based code is embedded as a transition system: every callback that
the JavaScript run-time executes to completion is one event, and a list of
events is a schedule chosen by the environment (the order in which fetches
settle and continuations run).
-/

set_option autoImplicit false

namespace Sawmill

/-! ## Records, sources and the printer -/

/-- A log record: `date` is the timestamp the merge orders by, `msg` stands for
the payload, which the merge never inspects. -/
structure Log where
  date : Int
  msg : Nat
deriving DecidableEq, Repr

/-- The reason a promise is rejected with (an `Error` object in JavaScript). -/
abbrev Err := Nat

/-- What one call of `popAsync` settles with: a record, the marker `false` of a
drained source, or a rejection. -/
inductive Outcome where
  | log (l : Log)
  | empty
  | fail (e : Err)
deriving DecidableEq, Repr

/-- Modelled from the spec: the log source is a collaborator that is not part
of the sources. It yields its records one at a time; once they are used up it
answers every further call with the empty marker and sets `drained`, or, when
`fault` holds an error, its next fetch fails with that error. -/
structure LogSource where
  logs : List Log
  fault : Option Err := none
  drained : Bool := false
deriving DecidableEq, Repr

/-- Modelled from the spec: `popAsync()` of the log source; the result is fixed
when the call is made and delivered when the returned promise settles. -/
def LogSource.popAsync (s : LogSource) : Outcome × LogSource :=
  match s.logs with
  | l :: rest => (Outcome.log l, { s with logs := rest })
  | [] =>
    match s.fault with
    | some e => (Outcome.fail e, s)
    | none => (Outcome.empty, { s with drained := true })

/-- Modelled from the spec: the blocking `pop()` of the log source, `none`
standing for the marker `false`. -/
def LogSource.pop (s : LogSource) : Option Log × LogSource :=
  match s.logs with
  | l :: rest => (some l, { s with logs := rest })
  | [] => (none, { s with drained := true })

/-- One call made on the printer. -/
inductive PrinterCall where
  | print (l : Log)
  | done
deriving DecidableEq, Repr

/-- Modelled from the spec: the printer is a collaborator that is not part of
the sources; it is represented by the sequence of calls made on it. -/
abbrev Printer := List PrinterCall

/-- The records passed to `printer.print`, in call order. -/
def printed : Printer → List Log
  | [] => []
  | PrinterCall.print l :: rest => l :: printed rest
  | PrinterCall.done :: rest => printed rest

/-- The number of calls of `printer.done`. -/
def doneCalls (p : Printer) : Nat := p.count PrinterCall.done

/-! ## The `heap` package -/

namespace Heap

variable {α : Type}

/-- Modelled from the spec: the loop of `_siftdown` of the `heap` package (not
part of the sources; a binary min-heap stored in an array, after Python's
`heapq`). The item `newitem` travels from `pos` towards `startpos` while it
compares strictly less than its parent. -/
def siftdownLoop (cmp : α → α → Int) (startpos : Nat) (newitem : α) :
    Nat → List α → Nat → List α
  | 0, array, pos => array.set pos newitem
  | fuel + 1, array, pos =>
    if startpos < pos then
      match array[(pos - 1) / 2]? with
      | some parent =>
        if cmp newitem parent < 0 then
          siftdownLoop cmp startpos newitem fuel (array.set pos parent) ((pos - 1) / 2)
        else array.set pos newitem
      | none => array.set pos newitem
    else array.set pos newitem

/-- Modelled from the spec: `_siftdown(array, startpos, pos, cmp)` of the
`heap` package. -/
def siftdown (cmp : α → α → Int) (array : List α) (startpos pos : Nat) : List α :=
  match array[pos]? with
  | some newitem => siftdownLoop cmp startpos newitem pos array pos
  | none => array

/-- Modelled from the spec: the loop of `_siftup` of the `heap` package: the
smaller child is moved up until `pos` is a leaf; returns the array and the
final `pos`. -/
def siftupLoop (cmp : α → α → Int) : Nat → List α → Nat → List α × Nat
  | 0, array, pos => (array, pos)
  | fuel + 1, array, pos =>
    match array[2 * pos + 1]? with
    | none => (array, pos)
    | some left =>
      match array[2 * pos + 2]? with
      | none => siftupLoop cmp fuel (array.set pos left) (2 * pos + 1)
      | some right =>
        if ¬ (cmp left right < 0) then
          siftupLoop cmp fuel (array.set pos right) (2 * pos + 2)
        else siftupLoop cmp fuel (array.set pos left) (2 * pos + 1)

/-- Modelled from the spec: `_siftup(array, pos, cmp)` of the `heap` package. -/
def siftup (cmp : α → α → Int) (array : List α) (pos : Nat) : List α :=
  match array[pos]? with
  | some newitem =>
    let r := siftupLoop cmp array.length array pos
    siftdown cmp (r.1.set r.2 newitem) pos r.2
  | none => array

/-- Modelled from the spec: `heap.push(item)`. -/
def push (cmp : α → α → Int) (nodes : List α) (item : α) : List α :=
  siftdown cmp (nodes ++ [item]) 0 nodes.length

/-- Modelled from the spec: `heap.pop()`: the returned item and the array
left. -/
def pop (cmp : α → α → Int) (nodes : List α) : Option α × List α :=
  match nodes.getLast? with
  | none => (none, nodes)
  | some lastelt =>
    match nodes.dropLast with
    | [] => (some lastelt, [])
    | returnitem :: rest => (some returnitem, siftup cmp (lastelt :: rest) 0)

/-- Modelled from the spec: `heap.peek()`. -/
def peek (nodes : List α) : Option α := nodes.head?

/-- Modelled from the spec: `heap.pushpop(item)`: unless the top compares
strictly less than `item`, the array is left as it is and `item` is returned. -/
def pushpop (cmp : α → α → Int) (nodes : List α) (item : α) : α × List α :=
  match nodes with
  | top :: rest =>
    if cmp top item < 0 then (top, siftup cmp (item :: rest) 0) else (item, nodes)
  | [] => (item, nodes)

/-- Modelled from the spec: `heap.empty()`. -/
def empty (nodes : List α) : Bool := nodes.isEmpty

end Heap

/-- An entry of the log heap: a record with a reference to where it came from
(`source` in the buffered merge, `index` in the other two). -/
structure Entry where
  source : Nat
  log : Log
deriving DecidableEq, Repr

/-- The comparison given to `new Heap`: `(a, b) => a.log.date - b.log.date`. -/
def cmpDate (a b : Entry) : Int := a.log.date - b.log.date

/-! ## `sync-sorted-merge.js` -/

namespace Sync

/-- The state of the blocking merge. -/
structure State where
  logSources : List LogSource
  logheap : List Entry
  printer : Printer
deriving DecidableEq, Repr

/-- The body of `logSources.forEach((source, index) => ...)` for one index. -/
def primeOne (s : State) (index : Nat) : State :=
  match s.logSources[index]? with
  | none => s
  | some src =>
    let r := src.pop
    let s1 := { s with logSources := s.logSources.set index r.2 }
    match r.1 with
    | some log => { s1 with logheap := Heap.push cmpDate s1.logheap ⟨index, log⟩ }
    | none => s1

/-- The initialisation of the heap: one `pop()` per source, in index order. -/
def prime (logSources : List LogSource) : State :=
  (List.range logSources.length).foldl primeOne ⟨logSources, [], []⟩

/-- One iteration of the `while (!logheap.empty())` loop. -/
def iteration (s : State) (oldest : Entry) : State :=
  let s1 := { s with printer := s.printer ++ [PrinterCall.print oldest.log] }
  match s1.logSources[oldest.source]? with
  | none => { s1 with logheap := (Heap.pop cmpDate s1.logheap).2 }
  | some src =>
    let r := src.pop
    let s2 := { s1 with logSources := s1.logSources.set oldest.source r.2 }
    match r.1 with
    | some log => { s2 with logheap := (Heap.pushpop cmpDate s2.logheap ⟨oldest.source, log⟩).2 }
    | none => { s2 with logheap := (Heap.pop cmpDate s2.logheap).2 }

/-- The `while` loop; `fuel` bounds the number of iterations. -/
def loop : Nat → State → State
  | 0, s => s
  | fuel + 1, s =>
    match Heap.peek s.logheap with
    | none => s
    | some oldest => loop fuel (iteration s oldest)

/-- Every iteration takes a record out of a source or an entry out of the heap,
so this many iterations are enough. -/
def fuelFor (s : State) : Nat :=
  (s.logSources.map (fun src => src.logs.length)).sum + s.logheap.length

/-- The export of `sync-sorted-merge.js`: the calls made on the printer. -/
def syncSortedMerge (logSources : List LogSource) : Printer :=
  let s := prime logSources
  (loop (fuelFor s) s).printer ++ [PrinterCall.done]

end Sync

/-! ## `queue.js` -/

/-- A node object `{ data, next }` of the linked queue; `next` is the address
of the following node, `none` while the field is not set. -/
structure Node (α : Type) where
  data : α
  next : Option Nat
deriving DecidableEq, Repr

/-- The closure state of `queue()`: the node objects allocated so far (a node
is addressed by its position in `nodes`) and the variables `first`, `last` and
`size`; `none` stands for `undefined` and `null`. -/
structure Queue (α : Type) where
  nodes : List (Node α) := []
  first : Option Nat := none
  last : Option Nat := none
  size : Int := 0
deriving DecidableEq, Repr

namespace Queue

variable {α : Type}

/-- The state after `queue()`. -/
def new : Queue α := {}

/-- The assignment `last.next = node`. -/
def setNext (nodes : List (Node α)) (last node : Nat) : List (Node α) :=
  match nodes[last]? with
  | some n => nodes.set last { n with next := some node }
  | none => nodes

/-- The method `enq(data)`. -/
def enq (q : Queue α) (data : α) : Queue α :=
  let node := q.nodes.length
  let nodes := q.nodes ++ [{ data := data, next := none }]
  match q.first with
  | none => { nodes := nodes, first := some node, last := some node, size := q.size + 1 }
  | some f =>
    match q.last with
    | some l =>
      { nodes := setNext nodes l node, first := some f, last := some node, size := q.size + 1 }
    | none => { nodes := nodes, first := some f, last := some node, size := q.size + 1 }

/-- The method `deq()`: the returned value (`none` for `null`) and the state
left. -/
def deq (q : Queue α) : Option α × Queue α :=
  match q.first with
  | none => (none, q)
  | some f =>
    match q.nodes[f]? with
    | none => (none, q)
    | some n =>
      (some n.data,
        { q with
          first := n.next
          last := if q.first = q.last then none else q.last
          size := q.size - 1 })

/-- The method `peek()`. -/
def peek (q : Queue α) : Option α :=
  match q.first with
  | none => none
  | some f => (q.nodes[f]?).map (fun n => n.data)

/-- The method `isEmpty()`: `!first`. -/
def isEmpty (q : Queue α) : Bool := q.first.isNone

/-- The data reached from address `a` by following `next`, at most `fuel`
nodes. -/
def walk (nodes : List (Node α)) : Nat → Option Nat → List α
  | 0, _ => []
  | _ + 1, none => []
  | fuel + 1, some a =>
    match nodes[a]? with
    | none => []
    | some n => n.data :: walk nodes fuel n.next

/-- The contents of the queue, front first: the data of the nodes reached from
`first`. -/
def toList (q : Queue α) : List α := walk q.nodes q.nodes.length q.first

end Queue

/-! ## `async-sorted-merge.js`: the buffered merge -/

/-- The constant `MAX_PREFETCH_DEPTH`. -/
def MAX_PREFETCH_DEPTH : Nat := 100

/-- The constant `MAX_PREFETCH_SPACE`. -/
def MAX_PREFETCH_SPACE : Nat := 1000000

/-- The constant `SLOW_ALGO_THRESHOLD`. -/
def SLOW_ALGO_THRESHOLD : Nat := 1000000

/-- The function `bufferMaxSize`, as a function of the variable it reads:
`Math.ceil(Math.min(MAX_PREFETCH_SPACE / liveSourceCount, MAX_PREFETCH_DEPTH))`
in exact arithmetic. A division by zero gives `Infinity` in JavaScript, so the
minimum is then `MAX_PREFETCH_DEPTH`. -/
def bufferMaxSize (liveSourceCount : Nat) : Int :=
  if liveSourceCount = 0 then Int.ceil (MAX_PREFETCH_DEPTH : ℚ)
  else Int.ceil (min ((MAX_PREFETCH_SPACE : ℚ) / (liveSourceCount : ℚ)) (MAX_PREFETCH_DEPTH : ℚ))

/-- A log wrapper `{ source, log }` as it is put into a buffer: `source` is the
index of the buffered source that made it, `log` is `none` when the fetch
returned the marker `false`. -/
structure Wrapper where
  source : Nat
  log : Option Log
deriving DecidableEq, Repr

/-- The variable `worker` of a buffered source: `null`, a promise that has not
settled yet (with what its `popAsync` call will deliver, and whether the
detached `.catch` of the read-ahead is attached to it), or a rejected promise
(which is never reset). -/
inductive Worker where
  | idle
  | pending (o : Outcome) (detached : Bool)
  | rejected (e : Err)
deriving DecidableEq, Repr

/-- The continuation `.then(buffer.deq)` of the outstanding call of `next()`:
none, waiting for the worker, free to run, or rejected. -/
inductive Caller where
  | idle
  | waiting
  | ready
  | failed (e : Err)
deriving DecidableEq, Repr

/-- The closure state of `BufferedSource(logSource)`; `calls` counts the calls
of `logSource.popAsync()` made so far (bookkeeping only). -/
structure BufferedSource where
  logSource : LogSource
  buffer : Queue Wrapper := {}
  worker : Worker := Worker.idle
  caller : Caller := Caller.idle
  calls : Nat := 0
deriving DecidableEq, Repr

/-- Where the promise chain of the export stands: `P.map` not yet fulfilled,
inside the `lumbermill` recursion, fulfilled after `printer.done()`, or
rejected. -/
inductive Phase where
  | priming
  | draining
  | finished
  | rejected (e : Err)
deriving DecidableEq, Repr

/-- The chain of the export has settled neither way. -/
def Phase.active : Phase → Bool
  | Phase.priming => true
  | Phase.draining => true
  | _ => false

namespace Buffered

/-- The state of one call of the export on the buffered path; `assigned` lists
the values assigned to `error` so far (bookkeeping only). -/
structure State where
  sources : List BufferedSource
  logheap : List Entry := []
  error : Option Err := none
  liveSourceCount : Nat
  phase : Phase := Phase.priming
  printer : Printer := []
  assigned : List Err := []
deriving DecidableEq, Repr

/-- The function `pushToHeap`: `wrapper && wrapper.log ? logheap.push(wrapper) : null`. -/
def pushToHeap (logheap : List Entry) (wrapper : Option Wrapper) : List Entry :=
  match wrapper with
  | some ⟨source, some log⟩ => Heap.push cmpDate logheap ⟨source, log⟩
  | _ => logheap

/-- The function `prefetch` called while `worker` is `null`: `popAsync` is
called and its promise becomes the worker. `detached` tells whether the caller
attaches the `.catch` of the read-ahead. -/
def startFetch (b : BufferedSource) (detached : Bool) : BufferedSource :=
  let r := b.logSource.popAsync
  { b with logSource := r.2, worker := Worker.pending r.1 detached, calls := b.calls + 1 }

/-- The function `prefetch` as `next` calls it: an existing worker is returned
as it is (`if (worker) return worker`), otherwise a fetch is started. -/
def prefetch (b : BufferedSource) : BufferedSource :=
  match b.worker with
  | Worker.idle => startFetch b false
  | _ => b

/-- The function `next` up to its `.then(buffer.deq)`: with a value in the
buffer the continuation is free to run, otherwise it waits for the worker (or
is rejected with a worker that was rejected before). -/
def next (b : BufferedSource) : BufferedSource :=
  if b.buffer.isEmpty then
    let b1 := prefetch b
    match b1.worker with
    | Worker.rejected e => { b1 with caller := Caller.failed e }
    | _ => { b1 with caller := Caller.waiting }
  else { b with caller := Caller.ready }

/-- The first two statements of the callback given to `popAsync().then` in
`prefetch`, run for source `index` with the fetched `log`: `worker = null` and
`buffer.enq({ source, log })`. -/
def received (index : Nat) (b : BufferedSource) (log : Option Log) : BufferedSource :=
  { b with worker := Worker.idle, buffer := b.buffer.enq ⟨index, log⟩ }

/-- The callback given to `popAsync().then` in `prefetch`, run for source
`index` with the fetched `log`: after the two assignments the read-ahead goes
on if `!error && bufferMaxSize() - buffer.size() > 0`. -/
def onFetched (error : Option Err) (liveSourceCount : Nat) (index : Nat)
    (b : BufferedSource) (log : Option Log) : BufferedSource :=
  if error.isNone ∧ bufferMaxSize liveSourceCount - (received index b log).buffer.size > 0 then
    startFetch (received index b log) true
  else received index b log

/-- The continuation of `next` wakes up when the worker it waits for settles. -/
def wake (c : Caller) (o : Outcome) : Caller :=
  match c, o with
  | Caller.waiting, Outcome.fail e => Caller.failed e
  | Caller.waiting, _ => Caller.ready
  | c, _ => c

/-- The events of a run: the fetch of a source settles, the continuation of a
call of `next` runs, the function `lumbermill` runs. -/
inductive Event where
  | settle (index : Nat)
  | resume (index : Nat)
  | lumbermill
deriving DecidableEq, Repr

/-- The assignment `error = err`. -/
def setError (s : State) (e : Err) : State :=
  { s with error := some e, assigned := s.assigned ++ [e] }

/-- The `.catch` at the end of the chain of the export: it runs once, when the
chain is rejected with `e`. -/
def reject (s : State) (e : Err) : State :=
  match s.phase with
  | Phase.priming => { setError s e with phase := Phase.rejected e }
  | Phase.draining => { setError s e with phase := Phase.rejected e }
  | _ => s

/-- The caller of `next` on a source learns that the worker settled with `o`. -/
def notify (b : BufferedSource) (o : Outcome) : BufferedSource :=
  { b with caller := wake b.caller o }

/-- The fetch of source `index` settles: a rejection stays in `worker` and is
recorded by the detached `.catch` if there is one; a value is handed to the
callback of `prefetch`. -/
def settle (s : State) (index : Nat) : Option State :=
  match s.sources[index]? with
  | none => none
  | some b =>
    match b.worker with
    | Worker.pending (Outcome.fail e) detached =>
      let b1 := { b with worker := Worker.rejected e, caller := wake b.caller (Outcome.fail e) }
      let s1 := { s with sources := s.sources.set index b1 }
      some (if detached then setError s1 e else s1)
    | Worker.pending (Outcome.log l) _ =>
      some { s with
        sources := s.sources.set index
          (onFetched s.error s.liveSourceCount index (notify b (Outcome.log l)) (some l)) }
    | Worker.pending Outcome.empty _ =>
      some { s with
        sources := s.sources.set index
          (onFetched s.error s.liveSourceCount index (notify b Outcome.empty) none) }
    | _ => none

/-- The continuation of the call of `next` on source `index` runs:
`buffer.deq`, then `pushToHeap`; a rejection travels down the chain to the
`.catch` of the export. -/
def resume (s : State) (index : Nat) : Option State :=
  match s.sources[index]? with
  | none => none
  | some b =>
    match b.caller with
    | Caller.ready =>
      let r := b.buffer.deq
      some { s with
        sources := s.sources.set index { b with buffer := r.2, caller := Caller.idle }
        logheap := pushToHeap s.logheap r.1 }
    | Caller.failed e =>
      some (reject { s with sources := s.sources.set index { b with caller := Caller.idle } } e)
    | _ => none

/-- No call of `next` is outstanding. -/
def quiet (s : State) : Bool := s.sources.all (fun b => b.caller = Caller.idle)

/-- The body of `lumbermill`, followed by `printer.done()` when it returns
without a promise. -/
def lumbermillBody (s : State) : State :=
  match s.error with
  | some e => reject s e
  | none =>
    match Heap.pop cmpDate s.logheap with
    | (none, _) => { s with printer := s.printer ++ [PrinterCall.done], phase := Phase.finished }
    | (some oldest, rest) =>
      let s1 := { s with
        logheap := rest
        printer := s.printer ++ [PrinterCall.print oldest.log]
        phase := Phase.draining }
      match s1.sources[oldest.source]? with
      | none => s1
      | some b => { s1 with sources := s1.sources.set oldest.source (next b) }

/-- The function `lumbermill` runs when the promise before it in the chain is
fulfilled: `P.map` when priming, `next().then(pushToHeap)` when draining. -/
def lumbermill (s : State) : Option State :=
  match s.phase with
  | Phase.priming => if quiet s then some (lumbermillBody s) else none
  | Phase.draining => if quiet s then some (lumbermillBody s) else none
  | _ => none

/-- One event; `none` when the event cannot happen in the state. -/
def step (s : State) : Event → Option State
  | Event.settle i => settle s i
  | Event.resume i => resume s i
  | Event.lumbermill => lumbermill s

/-- The events of a schedule, one after the other. -/
def run (s : State) : List Event → Option State
  | [] => some s
  | e :: rest =>
    match step s e with
    | none => none
    | some t => run t rest

/-- The state after the synchronous part of the export: `P.map` has called
`BufferedSource(logSource).next()` for every source. -/
def init (logSources : List LogSource) : State :=
  { sources := logSources.map (fun ls => next { logSource := ls })
    liveSourceCount := logSources.length }

end Buffered

/-! ## `async-sorted-merge.js`: `memoryEfficientSlowImplementation` -/

namespace Slow

/-- A log source with the promise of `popLogSource(index)` that has not settled
yet, if there is one, and what its `popAsync` call will deliver. -/
structure Source where
  logSource : LogSource
  fetch : Option Outcome := none
deriving DecidableEq, Repr

/-- The state of one call of `memoryEfficientSlowImplementation`. -/
structure State where
  sources : List Source
  logheap : List Entry := []
  phase : Phase := Phase.priming
  printer : Printer := []
deriving DecidableEq, Repr

/-- The events of a run: the promise of `popLogSource(index)` settles, the
function `printOldestLog` runs. -/
inductive Event where
  | settle (index : Nat)
  | printOldestLog
deriving DecidableEq, Repr

/-- The function `popLogSource` up to its `.then`: `popAsync` is called. -/
def popLogSource (b : Source) : Source :=
  { logSource := b.logSource.popAsync.2, fetch := some b.logSource.popAsync.1 }

/-- The chain is rejected with `e`; there is no `.catch`. -/
def reject (s : State) (e : Err) : State :=
  match s.phase with
  | Phase.priming => { s with phase := Phase.rejected e }
  | Phase.draining => { s with phase := Phase.rejected e }
  | _ => s

/-- The promise of `popLogSource(index)` settles: the callback
`log => log ? logheap.push({ log, index }) : null` runs, or the rejection
travels down the chain. -/
def settle (s : State) (index : Nat) : Option State :=
  match s.sources[index]? with
  | none => none
  | some b =>
    match b.fetch with
    | none => none
    | some (Outcome.log l) =>
      some { s with
        sources := s.sources.set index { b with fetch := none }
        logheap := Heap.push cmpDate s.logheap ⟨index, l⟩ }
    | some Outcome.empty =>
      some { s with sources := s.sources.set index { b with fetch := none } }
    | some (Outcome.fail e) =>
      some (reject { s with sources := s.sources.set index { b with fetch := none } } e)

/-- No promise of `popLogSource` is outstanding. -/
def quiet (s : State) : Bool := s.sources.all (fun b => b.fetch = none)

/-- The body of `printOldestLog`, followed by `printer.done()` when it returns
without a promise. -/
def printOldestLogBody (s : State) : State :=
  match Heap.pop cmpDate s.logheap with
  | (none, _) => { s with printer := s.printer ++ [PrinterCall.done], phase := Phase.finished }
  | (some oldest, rest) =>
    let s1 := { s with
      logheap := rest
      printer := s.printer ++ [PrinterCall.print oldest.log]
      phase := Phase.draining }
    match s1.sources[oldest.source]? with
    | none => s1
    | some b => { s1 with sources := s1.sources.set oldest.source (popLogSource b) }

/-- The function `printOldestLog` runs when the promise before it in the chain
is fulfilled: `P.map` when priming, `popLogSource(oldest.index)` afterwards. -/
def printOldestLog (s : State) : Option State :=
  match s.phase with
  | Phase.priming => if quiet s then some (printOldestLogBody s) else none
  | Phase.draining => if quiet s then some (printOldestLogBody s) else none
  | _ => none

/-- One event; `none` when the event cannot happen in the state. -/
def step (s : State) : Event → Option State
  | Event.settle i => settle s i
  | Event.printOldestLog => printOldestLog s

/-- The events of a schedule, one after the other. -/
def run (s : State) : List Event → Option State
  | [] => some s
  | e :: rest =>
    match step s e with
    | none => none
    | some t => run t rest

/-- The state after the synchronous part of the function: `P.map` has called
`popLogSource(index)` for every source. -/
def init (logSources : List LogSource) : State :=
  { sources := logSources.map (fun ls => popLogSource { logSource := ls }) }

end Slow


/-! ## Specification vocabulary -/

namespace Queue

variable {α : Type}

/-- The `next` field a node at address `i` has in a well-formed queue with
`len` nodes: the nodes of the queue are linked in allocation order. -/
def link (len i : Nat) : Option Nat := if i + 1 < len then some (i + 1) else none

/-- The nodes from address `f` on are linked in allocation order. -/
def Linked (nodes : List (Node α)) (f : Nat) : Prop :=
  ∀ i n, f ≤ i → nodes[i]? = some n → n.next = link nodes.length i

/-- The representation invariant of the queue: either it is empty, with
`first` and `last` unset, or `first` is the address of a node, the nodes from
there on are linked in allocation order and `last` is the newest node; `size`
is the number of nodes from `first` on. -/
def WF (q : Queue α) : Prop :=
  (q.first = none ∧ q.last = none ∧ q.size = 0) ∨
  (∃ f, q.first = some f ∧ f < q.nodes.length ∧ q.last = some (q.nodes.length - 1) ∧
    Linked q.nodes f ∧ q.size = (q.nodes.length : Int) - f)

end Queue

namespace Heap

variable {α : Type}

/-- The comparison `cmp` orders by the integer `key`. -/
def Keyed (cmp : α → α → Int) (key : α → Int) : Prop :=
  ∀ a b, cmp a b < 0 ↔ key a < key b

/-- The heap property of the array: no node is smaller than its parent. -/
def IsHeap (key : α → Int) (a : List α) : Prop :=
  ∀ i x p, 0 < i → a[i]? = some x → a[(i - 1) / 2]? = some p → key p ≤ key x

/-- The loop invariant of `_siftdown`: the array is a heap once `newitem` is
written at `pos`, except that `newitem` may be smaller than its ancestors. -/
def UpInv (key : α → Int) (a : List α) (pos : Nat) (newitem : α) : Prop :=
  (∀ i x p, 0 < i → i ≠ pos → a[i]? = some x → a[(i - 1) / 2]? = some p → key p ≤ key x) ∧
  (∀ c x, 0 < c → (c - 1) / 2 = pos → a[c]? = some x → key newitem ≤ key x) ∧
  (∀ c x g, 0 < c → (c - 1) / 2 = pos → 0 < pos → a[c]? = some x →
    a[(pos - 1) / 2]? = some g → key g ≤ key x)

/-- The loop invariant of `_siftup`: the heap property holds between all
nodes other than the hole at `pos`, and across the hole. -/
def DownInv (key : α → Int) (a : List α) (pos : Nat) : Prop :=
  (∀ i x p, 0 < i → i ≠ pos → (i - 1) / 2 ≠ pos → a[i]? = some x →
    a[(i - 1) / 2]? = some p → key p ≤ key x) ∧
  (∀ c x g, 0 < c → (c - 1) / 2 = pos → 0 < pos → a[c]? = some x →
    a[(pos - 1) / 2]? = some g → key g ≤ key x)

/-- What the loop of `_siftup` returns: the hole has reached a leaf. -/
def SiftupPost (key : α → Int) (a : List α) (pos : Nat) (r : List α × Nat) : Prop :=
  r.2 < r.1.length ∧ DownInv key r.1 r.2 ∧ r.1[2 * r.2 + 1]? = none ∧
    ∀ n, List.Perm (r.1.set r.2 n) (a.set pos n)

end Heap

namespace Buffered

/-- What a worker that has not settled will put into the buffer. -/
def Worker.items : Worker → List (Option Log)
  | Worker.pending (Outcome.log l) _ => [some l]
  | Worker.pending Outcome.empty _ => [none]
  | _ => []

/-- The values a buffered source will still hand out, in order: the buffered
ones, the one in flight, then the records not fetched yet. -/
def pipe (b : BufferedSource) : List (Option Log) :=
  b.buffer.toList.map (fun w => w.log) ++ (Worker.items b.worker ++ b.logSource.logs.map some)

/-- The records a buffered source will still hand out. -/
def upcoming (b : BufferedSource) : List Log := (pipe b).filterMap id

/-- What holds of every source in every run: the buffer is a well-formed
queue and a continuation that waits does so for a worker that has not
settled. -/
def SaneSource (b : BufferedSource) : Prop :=
  b.buffer.WF ∧ (b.caller = Caller.waiting → ∃ o d, b.worker = Worker.pending o d)

/-- What holds of every state of every run. -/
def Sane (s : State) : Prop := ∀ b ∈ s.sources, SaneSource b

/-- One for a worker that has not settled. -/
def busy : Worker → Nat
  | Worker.pending _ _ => 1
  | _ => 0

/-- One for an outstanding call of `next`. -/
def engaged : Caller → Nat
  | Caller.idle => 0
  | _ => 1

/-- The share of one source in the termination measure. -/
def load (cap : Int) (b : BufferedSource) : Nat :=
  5 * (upcoming b).length + 3 * engaged b.caller + 2 * (cap - b.buffer.size).toNat + busy b.worker

/-- The termination measure: every event makes it smaller. -/
def potential (s : State) : Nat :=
  5 * s.logheap.length + (s.sources.map (load (bufferMaxSize s.liveSourceCount))).sum
    + (if Phase.active s.phase then 1 else 0)

/-- The value an outcome puts into the buffer. -/
def Outcome.value : Outcome → Option (Option Log)
  | Outcome.log l => some (some l)
  | Outcome.empty => some none
  | Outcome.fail _ => none

end Buffered

/-- Non-decreasing by timestamp. -/
def Ordered (l : List Log) : Prop := l.Pairwise (fun a b => a.date ≤ b.date)

/-- All the records of the sources. -/
def allLogs : List LogSource → List Log
  | [] => []
  | ls :: rest => ls.logs ++ allLogs rest

/-- The timestamp an entry of the heap is ordered by. -/
def Entry.date (e : Entry) : Int := e.log.date

namespace Buffered

/-- No record comes after a marker. -/
def MarkersLast (l : List (Option Log)) : Prop := l.Pairwise (fun x y => x = none → y = none)

/-- What holds of source `i` in a run without a failing fetch, `H` being the
heap; the parts about the order of timestamps hold if the sources are ordered
(`srt`). -/
structure SourceInv (srt : Prop) (H : List Entry) (i : Nat) (b : BufferedSource) : Prop where
  wf : b.buffer.WF
  tagged : ∀ w ∈ b.buffer.toList, w.source = i
  markers : MarkersLast (pipe b)
  ordered : srt → Ordered (upcoming b)
  waiting : b.caller = Caller.waiting → ∃ o d, b.worker = Worker.pending o d
  ready : b.caller = Caller.ready → b.buffer.toList ≠ []
  noFault : b.logSource.fault = none
  noFailed : ∀ e, b.caller ≠ Caller.failed e
  noRejected : ∀ e, b.worker ≠ Worker.rejected e
  noFailing : ∀ e d, b.worker ≠ Worker.pending (Outcome.fail e) d
  absent : b.caller ≠ Caller.idle → ∀ e ∈ H, e.source ≠ i
  retired : b.caller = Caller.idle → (∀ e ∈ H, e.source ≠ i) → upcoming b = []
  ahead : srt → ∀ e ∈ H, e.source = i → ∀ l ∈ upcoming b, e.log.date ≤ l.date

/-- What holds of every state of a run without a failing fetch, `all` being
the records of the sources; the parts about the order of timestamps hold if the
sources are ordered (`srt`). -/
structure Inv (srt : Prop) (all : List Log) (s : State) : Prop where
  sources : ∀ i b, s.sources[i]? = some b → SourceInv srt s.logheap i b
  heap : Heap.IsHeap Entry.date s.logheap
  nodup : (s.logheap.map (fun e => e.source)).Nodup
  inRange : ∀ e ∈ s.logheap, e.source < s.sources.length
  noError : s.error = none
  noReject : ∀ e, s.phase ≠ Phase.rejected e
  sorted : srt → Ordered (printed s.printer)
  belowHeap : srt → ∀ l ∈ printed s.printer, ∀ e ∈ s.logheap, l.date ≤ e.log.date
  belowSources : srt → ∀ l ∈ printed s.printer, ∀ b ∈ s.sources, ∀ l2 ∈ upcoming b,
    l.date ≤ l2.date
  count : ∀ r, (printed s.printer).count r + (s.logheap.map (fun e => e.log)).count r
    + (s.sources.map (fun b => (upcoming b).count r)).sum = all.count r
  calls : s.printer = (printed s.printer).map PrinterCall.print
    ++ (if s.phase = Phase.finished then [PrinterCall.done] else [])

end Buffered

namespace Slow

/-- The record a promise of `popLogSource` will push, if any. -/
def inFlight : Option Outcome → List Log
  | some (Outcome.log l) => [l]
  | _ => []

/-- The records a source will still hand out. -/
def upcoming (b : Source) : List Log := inFlight b.fetch ++ b.logSource.logs

/-- One for a promise of `popLogSource` that has not settled. -/
def busy : Option Outcome → Nat
  | some _ => 1
  | none => 0

/-- The share of one source in the termination measure. -/
def load (b : Source) : Nat := 2 * (upcoming b).length + busy b.fetch

/-- The termination measure: every event makes it smaller. -/
def potential (s : State) : Nat :=
  2 * s.logheap.length + (s.sources.map load).sum + (if Phase.active s.phase then 1 else 0)

/-- What holds of source `i` in a run without a failing fetch, `H` being the
heap; the parts about the order of timestamps hold if the sources are ordered
(`srt`). -/
structure SourceInv (srt : Prop) (H : List Entry) (i : Nat) (b : Source) : Prop where
  ordered : srt → Ordered (upcoming b)
  noFault : b.logSource.fault = none
  noFailing : ∀ e, b.fetch ≠ some (Outcome.fail e)
  drained : b.fetch = some Outcome.empty → b.logSource.logs = []
  absent : b.fetch ≠ none → ∀ e ∈ H, e.source ≠ i
  retired : b.fetch = none → (∀ e ∈ H, e.source ≠ i) → upcoming b = []
  ahead : srt → ∀ e ∈ H, e.source = i → ∀ l ∈ upcoming b, e.log.date ≤ l.date

/-- What holds of every state of a run without a failing fetch, `all` being
the records of the sources; the parts about the order of timestamps hold if the
sources are ordered (`srt`). -/
structure Inv (srt : Prop) (all : List Log) (s : State) : Prop where
  sources : ∀ i b, s.sources[i]? = some b → SourceInv srt s.logheap i b
  heap : Heap.IsHeap Entry.date s.logheap
  nodup : (s.logheap.map (fun e => e.source)).Nodup
  inRange : ∀ e ∈ s.logheap, e.source < s.sources.length
  noReject : ∀ e, s.phase ≠ Phase.rejected e
  sorted : srt → Ordered (printed s.printer)
  belowHeap : srt → ∀ l ∈ printed s.printer, ∀ e ∈ s.logheap, l.date ≤ e.log.date
  belowSources : srt → ∀ l ∈ printed s.printer, ∀ b ∈ s.sources, ∀ l2 ∈ upcoming b,
    l.date ≤ l2.date
  count : ∀ r, (printed s.printer).count r + (s.logheap.map (fun e => e.log)).count r
    + (s.sources.map (fun b => (upcoming b).count r)).sum = all.count r
  calls : s.printer = (printed s.printer).map PrinterCall.print
    ++ (if s.phase = Phase.finished then [PrinterCall.done] else [])

end Slow

/-! ## Examples -/

instance Ordered.decide (l : List Log) : Decidable (Ordered l) := by
  unfold Ordered
  infer_instance

namespace Buffered

/-- The state a schedule leads to (the initial state when an event of the
schedule cannot happen). -/
def outcome (logSources : List LogSource) (evs : List Event) : State :=
  (run (init logSources) evs).getD (init logSources)

end Buffered

namespace Slow

/-- The state a schedule leads to (the initial state when an event of the
schedule cannot happen). -/
def outcome (logSources : List LogSource) (evs : List Event) : State :=
  (run (init logSources) evs).getD (init logSources)

end Slow

namespace Example

/-- Three sources with the timestamps 1, 4, 7 and 2, 5, 8 and 3, 6, 9. -/
def three : List LogSource :=
  [{ logs := [⟨1, 0⟩, ⟨4, 0⟩, ⟨7, 0⟩] }, { logs := [⟨2, 0⟩, ⟨5, 0⟩, ⟨8, 0⟩] },
    { logs := [⟨3, 0⟩, ⟨6, 0⟩, ⟨9, 0⟩] }]

/-- A schedule of the buffered merge for `three`: every fetch settles when the
merge waits for it. -/
def threeSchedule : List Buffered.Event :=
  [Buffered.Event.settle 0, Buffered.Event.resume 0, Buffered.Event.settle 1,
    Buffered.Event.resume 1, Buffered.Event.settle 2, Buffered.Event.resume 2,
    Buffered.Event.lumbermill, Buffered.Event.settle 0, Buffered.Event.resume 0,
    Buffered.Event.lumbermill, Buffered.Event.settle 1, Buffered.Event.resume 1,
    Buffered.Event.lumbermill, Buffered.Event.settle 2, Buffered.Event.resume 2,
    Buffered.Event.lumbermill, Buffered.Event.settle 0, Buffered.Event.resume 0,
    Buffered.Event.lumbermill, Buffered.Event.settle 1, Buffered.Event.resume 1,
    Buffered.Event.lumbermill, Buffered.Event.settle 2, Buffered.Event.resume 2,
    Buffered.Event.lumbermill, Buffered.Event.settle 0, Buffered.Event.resume 0,
    Buffered.Event.lumbermill, Buffered.Event.settle 1, Buffered.Event.resume 1,
    Buffered.Event.lumbermill, Buffered.Event.settle 2, Buffered.Event.resume 2,
    Buffered.Event.lumbermill]

/-- A source without records and a source with the timestamps 10 and 20. -/
def withEmpty : List LogSource := [{ logs := [] }, { logs := [⟨10, 0⟩, ⟨20, 0⟩] }]

/-- A schedule of the buffered merge for `withEmpty`. -/
def withEmptySchedule : List Buffered.Event :=
  [Buffered.Event.settle 0, Buffered.Event.resume 0, Buffered.Event.settle 1,
    Buffered.Event.resume 1, Buffered.Event.lumbermill, Buffered.Event.settle 1,
    Buffered.Event.resume 1, Buffered.Event.lumbermill, Buffered.Event.settle 1,
    Buffered.Event.resume 1, Buffered.Event.lumbermill]

/-- A schedule of the slow implementation for `withEmpty`. -/
def withEmptySlow : List Slow.Event :=
  [Slow.Event.settle 0, Slow.Event.settle 1, Slow.Event.printOldestLog, Slow.Event.settle 1,
    Slow.Event.printOldestLog, Slow.Event.settle 1, Slow.Event.printOldestLog]

/-- Two sources holding one record each, with the same timestamp. -/
def tie : List LogSource := [{ logs := [⟨1, 0⟩] }, { logs := [⟨1, 1⟩] }]

/-- A schedule of the buffered merge for `tie`: the first fetch of source 0
settles before the first fetch of source 1. -/
def tieBuffered : List Buffered.Event :=
  [Buffered.Event.settle 0, Buffered.Event.resume 0, Buffered.Event.settle 1,
    Buffered.Event.resume 1, Buffered.Event.lumbermill, Buffered.Event.settle 0,
    Buffered.Event.resume 0, Buffered.Event.lumbermill, Buffered.Event.settle 1,
    Buffered.Event.resume 1, Buffered.Event.lumbermill]

/-- A schedule of the slow implementation for `tie`: the first fetch of source
1 settles before the first fetch of source 0. -/
def tieSlow : List Slow.Event :=
  [Slow.Event.settle 1, Slow.Event.settle 0, Slow.Event.printOldestLog, Slow.Event.settle 1,
    Slow.Event.printOldestLog, Slow.Event.settle 0, Slow.Event.printOldestLog]

/-- One source with two records of the same timestamp. -/
def twins : List LogSource := [{ logs := [⟨1, 0⟩, ⟨1, 1⟩] }]

end Example


namespace Buffered

/-- After `printer.done()` nothing is left: the heap is empty, no call of
`next` is outstanding and no source has a record to hand out. -/
def Emptied (s : State) : Prop :=
  s.phase = Phase.finished →
    s.logheap = [] ∧ ∀ b ∈ s.sources, upcoming b = [] ∧ b.caller = Caller.idle

end Buffered

namespace Slow

/-- After `printer.done()` nothing is left: the heap is empty, no fetch is
outstanding and no source has a record to hand out. -/
def Emptied (s : State) : Prop :=
  s.phase = Phase.finished →
    s.logheap = [] ∧ ∀ b ∈ s.sources, upcoming b = [] ∧ b.fetch = none

end Slow

namespace Example

/-- Two sources whose second fetch fails, with the errors 7 and 8. -/
def twoFaults : List LogSource :=
  [{ logs := [⟨1, 0⟩], fault := some 7 }, { logs := [⟨2, 0⟩], fault := some 8 }]

/-- A schedule of the buffered merge for `twoFaults`: the read-ahead of source
1 fails first, then the fetch of source 0 the merge is waiting for. -/
def twoFaultsSchedule : List Buffered.Event :=
  [Buffered.Event.settle 0, Buffered.Event.resume 0, Buffered.Event.settle 1,
    Buffered.Event.resume 1, Buffered.Event.lumbermill, Buffered.Event.settle 1,
    Buffered.Event.settle 0, Buffered.Event.resume 0]

/-- A source whose second fetch fails and a source with the timestamps 2, 3. -/
def faultAndLate : List LogSource :=
  [{ logs := [⟨1, 0⟩], fault := some 7 }, { logs := [⟨2, 0⟩, ⟨3, 0⟩] }]

/-- A schedule of the buffered merge for `faultAndLate`: the read-ahead of
source 0 fails while the read-ahead of source 1 is in flight. -/
def faultAndLateSchedule : List Buffered.Event :=
  [Buffered.Event.settle 0, Buffered.Event.resume 0, Buffered.Event.settle 1,
    Buffered.Event.resume 1, Buffered.Event.settle 0, Buffered.Event.settle 1]

/-- One source without records. -/
def drained : List LogSource := [{ logs := [] }]

end Example


namespace Buffered

/-- The number of sources that have not returned the empty marker. -/
def live (s : State) : Nat := (s.sources.filter (fun b => !b.logSource.drained)).length

end Buffered

namespace Buffered

/-- No record can be printed any more: an error is recorded, the continuation
of a call of `next` is rejected, or the chain of the export has settled. -/
def Blocked (s : State) : Prop :=
  s.error ≠ none ∨ (∃ b ∈ s.sources, ∃ e, b.caller = Caller.failed e) ∨
    Phase.active s.phase = false

/-- What holds of source `i` in every run, `H` being the heap and `ph` the
phase. -/
structure SourceFacts (H : List Entry) (ph : Phase) (i : Nat) (b : BufferedSource) : Prop where
  wf : b.buffer.WF
  tagged : ∀ w ∈ b.buffer.toList, w.source = i
  waiting : b.caller = Caller.waiting → ∃ o d, b.worker = Worker.pending o d
  attended : ∀ o, b.worker = Worker.pending o false → b.caller = Caller.waiting
  ready : b.caller = Caller.ready → b.buffer.toList ≠ []
  rejected : ∀ e, b.worker = Worker.rejected e → b.logSource.fault ≠ none
  failing : ∀ e d, b.worker = Worker.pending (Outcome.fail e) d → b.logSource.fault ≠ none
  noMarker : b.logSource.fault ≠ none →
    (∀ w ∈ b.buffer.toList, w.log ≠ none) ∧ ∀ d, b.worker ≠ Worker.pending Outcome.empty d
  held : b.logSource.fault ≠ none → Phase.active ph = true →
    b.caller ≠ Caller.idle ∨ ∃ e ∈ H, e.source = i
  unfinished : b.logSource.fault ≠ none → ph ≠ Phase.finished

/-- What holds of every state of every run, with or without failing fetches. -/
structure Facts (s : State) : Prop where
  sources : ∀ i b, s.sources[i]? = some b → SourceFacts s.logheap s.phase i b
  heap : Heap.IsHeap Entry.date s.logheap
  blocked : (∃ b ∈ s.sources, ∃ e, b.worker = Worker.rejected e) → Blocked s
  calls : s.printer = (printed s.printer).map PrinterCall.print
    ++ (if s.phase = Phase.finished then [PrinterCall.done] else [])

end Buffered

namespace Buffered

/-- The log source that ends where the given one fails: after its records it
answers with the empty marker. -/
def withoutFault (ls : LogSource) : LogSource := { ls with fault := none }

/-- The buffered source as it stands in the run over the sources without
their faults: a fetch that is going to fail is going to deliver the empty
marker instead. -/
def cleanSource (b : BufferedSource) : BufferedSource :=
  match b.worker with
  | Worker.pending (Outcome.fail _) d =>
    { b with
      logSource := ⟨b.logSource.logs, none, true⟩
      worker := Worker.pending Outcome.empty d }
  | _ => { b with logSource := withoutFault b.logSource }

/-- The state as it stands in the run over the sources without their faults. -/
def clean (s : State) : State := { s with sources := s.sources.map cleanSource }

/-- No fetch has failed yet. -/
structure Healthy (s : State) : Prop where
  noError : s.error = none
  workers : ∀ b ∈ s.sources, ∀ e, b.worker ≠ Worker.rejected e
  callers : ∀ b ∈ s.sources, ∀ e, b.caller ≠ Caller.failed e

end Buffered

namespace Buffered

/-- The worker is a rejected promise: the fetch it stands for has failed. -/
def isRejected : Worker → Bool
  | Worker.rejected _ => true
  | _ => false

/-- The fetch of some source has failed. -/
def failed (s : State) : Bool := s.sources.any (fun b => isRejected b.worker)

end Buffered

/-- The expression of `bufferMaxSize` (and of `prefetchMaxSize` in `test.js`)
with its constants as parameters:
`Math.ceil(Math.min(space / liveSourceCount, depth))` in exact arithmetic. -/
def capacity (space depth liveSourceCount : Nat) : Int :=
  if liveSourceCount = 0 then Int.ceil (depth : ℚ)
  else Int.ceil (min ((space : ℚ) / (liveSourceCount : ℚ)) (depth : ℚ))

namespace Queue

variable {α : Type}

/-- A call of a method of the queue. -/
inductive Call (α : Type) where
  | enq (data : α)
  | deq
  | peek
deriving DecidableEq, Repr

/-- One call on the queue of `queue.js`: the value returned (`none` for `null`
and for the `undefined` that `enq` returns) and the state left. -/
def call (q : Queue α) : Call α → Option α × Queue α
  | Call.enq data => (none, q.enq data)
  | Call.deq => q.deq
  | Call.peek => (q.peek, q)

/-- A sequence of calls on the queue: the values returned, in call order, and
the state left. -/
def calls (q : Queue α) : List (Call α) → List (Option α) × Queue α
  | [] => ([], q)
  | c :: rest => ((q.call c).1 :: ((q.call c).2.calls rest).1, ((q.call c).2.calls rest).2)

/-- The list model of a queue, in the words of the specification: `enq`
appends at the back, `deq` removes and returns the front element (it returns
`null` and changes nothing when the list is empty), `peek` returns the front
element (`null` when empty) and changes nothing. -/
def listCall (l : List α) : Call α → Option α × List α
  | Call.enq data => (none, l ++ [data])
  | Call.deq =>
    match l with
    | [] => (none, [])
    | x :: rest => (some x, rest)
  | Call.peek =>
    match l with
    | [] => (none, [])
    | x :: rest => (some x, x :: rest)

/-- A sequence of calls on the list model. -/
def listCalls (l : List α) : List (Call α) → List (Option α) × List α
  | [] => ([], l)
  | c :: rest =>
    ((listCall l c).1 :: (listCalls (listCall l c).2 rest).1, (listCalls (listCall l c).2 rest).2)

/-- The values given to `enq`, in call order. -/
def enqueued : List (Call α) → List α
  | [] => []
  | Call.enq data :: rest => data :: enqueued rest
  | _ :: rest => enqueued rest

/-- The values returned by the calls of `deq` that returned an element, in call
order; `results` are the values returned by the calls. -/
def dequeued : List (Call α) → List (Option α) → List α
  | Call.deq :: rest, some x :: results => x :: dequeued rest results
  | _ :: rest, _ :: results => dequeued rest results
  | _, _ => []

end Queue

namespace Sync

/-- What holds at the start of every iteration of the loop of the blocking
merge when the sources are ordered by timestamp. -/
structure Inv (s : State) : Prop where
  heap : Heap.IsHeap Entry.date s.logheap
  ordered : ∀ src ∈ s.logSources, Ordered src.logs
  ahead : ∀ e ∈ s.logheap, ∀ src, s.logSources[e.source]? = some src →
    ∀ l ∈ src.logs, e.log.date ≤ l.date
  sorted : Ordered (printed s.printer)
  below : ∀ p ∈ printed s.printer, ∀ e ∈ s.logheap, p.date ≤ e.log.date
  calls : s.printer = (printed s.printer).map PrinterCall.print

end Sync

namespace Buffered

/-- The buffer of the source holds at most `cap` entries, and at most
`cap - 1` while a fetch is in flight. -/
def Within (cap : Int) (b : BufferedSource) : Prop :=
  b.buffer.size ≤ cap ∧ ∀ o d, b.worker = Worker.pending o d → b.buffer.size + 1 ≤ cap

end Buffered

namespace Buffered

/-- The number of fetches of source `index` that have completed in a
schedule: every event `settle index` is the completion of one fetch. -/
def completed (evs : List Event) (index : Nat) : Nat := evs.count (Event.settle index)

end Buffered

namespace Buffered

/-- What can happen to one buffered source: the merge calls `next()` on it
(when no call of `next` on it is outstanding), its fetch settles (while the
variable `error` holds `error` and `liveSourceCount` holds `liveSourceCount`),
or the continuation of the outstanding call of `next` runs. -/
inductive Act where
  | call
  | settle (error : Option Err) (liveSourceCount : Nat)
  | resume
deriving DecidableEq, Repr

/-- One act on the buffered source of index `index`: the state left and the
value the call of `next` resolves to, if it resolves now (a list of at most one
value; `none` is the `null` of `buffer.deq`). `none` when the act cannot happen
in the state. -/
def act (index : Nat) (b : BufferedSource) : Act → Option (BufferedSource × List (Option Wrapper))
  | Act.call => if b.caller = Caller.idle then some (next b, []) else none
  | Act.settle error liveSourceCount =>
    match b.worker with
    | Worker.pending (Outcome.fail e) _ =>
      some ({ b with worker := Worker.rejected e, caller := wake b.caller (Outcome.fail e) }, [])
    | Worker.pending (Outcome.log l) _ =>
      some (onFetched error liveSourceCount index (notify b (Outcome.log l)) (some l), [])
    | Worker.pending Outcome.empty _ =>
      some (onFetched error liveSourceCount index (notify b Outcome.empty) none, [])
    | _ => none
  | Act.resume =>
    match b.caller with
    | Caller.ready => some ({ b with buffer := b.buffer.deq.2, caller := Caller.idle }, [b.buffer.deq.1])
    | _ => none

/-- A sequence of acts on one buffered source: the state left and the values
the calls of `next` have resolved to, in order. -/
def acts (index : Nat) (b : BufferedSource) : List Act → Option (BufferedSource × List (Option Wrapper))
  | [] => some (b, [])
  | a :: rest =>
    match act index b a with
    | none => none
    | some r =>
      match acts index r.1 rest with
      | none => none
      | some r2 => some (r2.1, r.2 ++ r2.2)

/-- What holds of the buffered source of a log source `ls` without a failing
fetch after `n` calls of `next` have resolved: the buffer holds the wrappers of
the next records of `ls` (or markers, past its end), a fetch in flight brings
the one after them, and the log source stands behind that. -/
structure Feeds (ls : LogSource) (index n : Nat) (b : BufferedSource) : Prop where
  wf : b.buffer.WF
  noFault : b.logSource.fault = none
  buffered : ∀ (j : Nat) (w : Wrapper), b.buffer.toList[j]? = some w →
    w = ⟨index, ls.logs[n + j]?⟩
  rest : b.logSource.logs = ls.logs.drop (n + b.buffer.toList.length + busy b.worker)
  inFlight : ∀ o d, b.worker = Worker.pending o d →
    Outcome.value o = some (ls.logs[n + b.buffer.toList.length]?)
  noRejected : ∀ e, b.worker ≠ Worker.rejected e
  waiting : b.caller = Caller.waiting → ∃ o d, b.worker = Worker.pending o d
  ready : b.caller = Caller.ready → b.buffer.toList ≠ []
  noFailed : ∀ e, b.caller ≠ Caller.failed e

end Buffered

namespace Example

/-- A source with the timestamps 1 and 4. -/
def pair : LogSource := { logs := [⟨1, 0⟩, ⟨4, 0⟩] }

/-- Three calls of `next` on the buffered source of `pair`: the second fetch
and the read-ahead after it settle before the second call resolves, and the
third call finds the marker in the buffer. -/
def pairActs : List Buffered.Act :=
  [Buffered.Act.call, Buffered.Act.settle none 1, Buffered.Act.resume, Buffered.Act.call,
    Buffered.Act.settle none 1, Buffered.Act.settle none 1, Buffered.Act.resume,
    Buffered.Act.call, Buffered.Act.resume]

end Example

/-! ## The queue is a list -/

namespace Queue

variable {α : Type}

theorem walk_none (nodes : List (Node α)) (fuel : Nat) : walk nodes fuel none = [] := by
  cases fuel <;> rfl

theorem walk_linked (nodes : List (Node α)) :
    ∀ (fuel f : Nat), Linked nodes f → f < nodes.length →
      walk nodes fuel (some f) = ((nodes.map (fun n => n.data)).drop f).take fuel := by
  intro fuel
  induction fuel with
  | zero => intro f _ _; simp [walk]
  | succ k ih =>
    intro f hl hf
    have hn : nodes[f]? = some nodes[f] := List.getElem?_eq_getElem hf
    have hnext := hl f nodes[f] (le_refl _) hn
    simp only [walk, hn]
    have hd : (nodes.map (fun n => n.data)).drop f
        = nodes[f].data :: (nodes.map (fun n => n.data)).drop (f + 1) := by
      rw [List.drop_eq_getElem_cons (by simpa using hf)]
      simp
    rw [hd, List.take_succ_cons, hnext]
    congr 1
    unfold link
    split
    · rename_i h
      exact ih (f + 1) (fun i n hi hin => hl i n (by omega) hin) h
    · rename_i h
      rw [walk_none, List.drop_eq_nil_of_le (by simp; omega)]
      simp

theorem toList_of_first_none (q : Queue α) (h : q.first = none) : q.toList = [] := by
  simp [toList, h, walk_none]

theorem toList_of_linked (q : Queue α) (f : Nat) (h : q.first = some f)
    (hl : Linked q.nodes f) (hf : f < q.nodes.length) :
    q.toList = (q.nodes.map (fun n => n.data)).drop f := by
  simp only [toList, h]
  rw [walk_linked _ _ _ hl hf]
  apply List.take_of_length_le
  simp

theorem wf_new : (new : Queue α).WF := Or.inl ⟨rfl, rfl, rfl⟩

theorem toList_new : (new : Queue α).toList = [] := rfl

theorem isEmpty_iff (q : Queue α) (h : q.WF) : q.isEmpty = true ↔ q.toList = [] := by
  rcases h with ⟨h1, _, _⟩ | ⟨f, h1, hf, _, hl, _⟩
  · simp [isEmpty, h1, toList_of_first_none q h1]
  · rw [toList_of_linked q f h1 hl hf]
    simp [isEmpty, h1]
    omega

theorem size_eq (q : Queue α) (h : q.WF) : q.size = (q.toList.length : Int) := by
  rcases h with ⟨h1, _, h3⟩ | ⟨f, h1, hf, _, hl, hs⟩
  · simp [h3, toList_of_first_none q h1]
  · rw [toList_of_linked q f h1 hl hf, hs]
    simp
    omega

theorem map_data_setNext (nodes : List (Node α)) (l k : Nat) :
    (setNext nodes l k).map (fun n => n.data) = nodes.map (fun n => n.data) := by
  unfold setNext
  split
  · rename_i n hn
    apply List.ext_getElem?
    intro i
    simp only [List.getElem?_map, List.getElem?_set]
    split
    · rename_i h
      split
      · subst h; simp [hn]
      · rename_i h2
        subst h
        have := List.getElem?_eq_none (Nat.le_of_not_lt h2)
        simp [this]
    · rfl
  · rfl

theorem length_setNext (nodes : List (Node α)) (l k : Nat) :
    (setNext nodes l k).length = nodes.length := by
  unfold setNext; split <;> simp

theorem getElem?_setNext (nodes : List (Node α)) (l k i : Nat) (n : Node α)
    (h : (setNext nodes l k)[i]? = some n) :
    ∃ m, nodes[i]? = some m ∧ n.data = m.data ∧ n.next = if i = l then some k else m.next := by
  unfold setNext at h
  split at h
  · rename_i m hm
    rw [List.getElem?_set] at h
    split at h
    · rename_i hil
      subst hil
      split at h
      · simp at h; subst h; exact ⟨m, hm, rfl, by simp⟩
      · simp at h
    · rename_i hil
      exact ⟨n, h, rfl, by simp [Ne.symm hil]⟩
  · rename_i hm
    refine ⟨n, h, rfl, ?_⟩
    split
    · rename_i hil; subst hil; rw [hm] at h; simp at h
    · rfl

theorem enq_spec (q : Queue α) (h : q.WF) (x : α) :
    (q.enq x).WF ∧ (q.enq x).toList = q.toList ++ [x] := by
  rcases h with ⟨h1, h2, h3⟩ | ⟨f, h1, hf, h2, hl, hs⟩
  · have hl : Linked (q.nodes ++ [({ data := x, next := none } : Node α)]) q.nodes.length := by
      intro i n hi hin
      have hlt : i < (q.nodes ++ [({ data := x, next := none } : Node α)]).length := by
        by_contra hc
        rw [List.getElem?_eq_none (Nat.le_of_not_lt hc)] at hin
        simp at hin
      simp at hlt
      have : i = q.nodes.length := by omega
      subst this
      simp at hin
      subst hin
      simp [link]
    have he : q.enq x =
        { nodes := q.nodes ++ [{ data := x, next := none }]
          first := some q.nodes.length
          last := some q.nodes.length
          size := q.size + 1 } := by
      simp [enq, h1]
    rw [he]
    constructor
    · right
      exact ⟨q.nodes.length, rfl, by simp, by simp, hl, by simp [h3]⟩
    · rw [toList_of_linked _ q.nodes.length rfl hl (by simp), toList_of_first_none q h1]
      simp
  · have he : q.enq x =
        { nodes := setNext (q.nodes ++ [{ data := x, next := none }]) (q.nodes.length - 1) q.nodes.length
          first := some f
          last := some q.nodes.length
          size := q.size + 1 } := by
      simp [enq, h1, h2]
    have hl2 : Linked (setNext (q.nodes ++ [({ data := x, next := none } : Node α)])
        (q.nodes.length - 1) q.nodes.length) f := by
      intro i n hi hin
      obtain ⟨m, hm, _, hnext⟩ := getElem?_setNext _ _ _ _ _ hin
      rw [hnext, length_setNext]
      simp only [List.length_append, List.length_singleton, link]
      by_cases hil : i = q.nodes.length - 1
      · simp [hil]; omega
      · simp only [hil, if_false]
        by_cases hlt : i < q.nodes.length
        · have hm2 : q.nodes[i]? = some m := by
            simpa [List.getElem?_append_left hlt] using hm
          rw [hl i m hi hm2]
          simp only [link]
          have : i + 1 < q.nodes.length := by omega
          simp [this, hlt]
        · have hlt2 : i < (q.nodes ++ [({ data := x, next := none } : Node α)]).length := by
            by_contra hc
            rw [List.getElem?_eq_none (Nat.le_of_not_lt hc)] at hm
            simp at hm
          simp at hlt2
          have : i = q.nodes.length := by omega
          subst this
          simp at hm
          subst hm
          simp
    rw [he]
    constructor
    · right
      refine ⟨f, rfl, ?_, ?_, hl2, ?_⟩
      · simp [length_setNext]; omega
      · simp [length_setNext]
      · simp [length_setNext, hs]; omega
    · rw [toList_of_linked _ f rfl hl2 (by simp [length_setNext]; omega),
        toList_of_linked q f h1 hl hf, map_data_setNext]
      simp only [List.map_append, List.map_cons, List.map_nil]
      rw [List.drop_append_of_le_length (by simp; omega)]

theorem deq_spec (q : Queue α) (h : q.WF) :
    q.deq.2.WF ∧ q.deq.1 = q.toList.head? ∧ q.deq.2.toList = q.toList.tail := by
  rcases h with ⟨h1, h2, h3⟩ | ⟨f, h1, hf, h2, hl, hs⟩
  · have he : q.deq = (none, q) := by simp [deq, h1]
    rw [he]
    refine ⟨Or.inl ⟨h1, h2, h3⟩, ?_, ?_⟩ <;> simp [toList_of_first_none q h1]
  · have hn : q.nodes[f]? = some q.nodes[f] := List.getElem?_eq_getElem hf
    have hnext := hl f _ (le_refl _) hn
    have hd : (q.nodes.map (fun n => n.data)).drop f
        = q.nodes[f].data :: (q.nodes.map (fun n => n.data)).drop (f + 1) := by
      rw [List.drop_eq_getElem_cons (by simpa using hf)]
      simp
    by_cases hlast : f + 1 < q.nodes.length
    · have hlink : link q.nodes.length f = some (f + 1) := by simp [link, hlast]
      have hne : ¬ (some f = some (q.nodes.length - 1)) := by simp; omega
      have he : q.deq = (some q.nodes[f].data,
          { nodes := q.nodes
            first := some (f + 1)
            last := some (q.nodes.length - 1)
            size := q.size - 1 }) := by
        simp only [deq, h1, hn, hnext, h2, hlink, hne, if_false]
      have hl2 : Linked q.nodes (f + 1) := fun i n hi hin => hl i n (by omega) hin
      rw [he, toList_of_linked q f h1 hl hf, hd]
      refine ⟨Or.inr ⟨f + 1, rfl, hlast, rfl, hl2, ?_⟩, by simp, ?_⟩
      · simp [hs]; omega
      · dsimp only
        rw [toList_of_linked ⟨q.nodes, some (f + 1), some (q.nodes.length - 1), q.size - 1⟩
          (f + 1) rfl hl2 hlast]
        simp
    · have hlink : link q.nodes.length f = none := by simp [link, hlast]
      have heq : some f = some (q.nodes.length - 1) := by simp; omega
      have he : q.deq = (some q.nodes[f].data,
          { nodes := q.nodes
            first := none
            last := none
            size := q.size - 1 }) := by
        simp only [deq, h1, hn, hnext, h2, hlink]
        rw [if_pos heq]
      rw [he, toList_of_linked q f h1 hl hf, hd]
      refine ⟨Or.inl ⟨rfl, rfl, ?_⟩, by simp, ?_⟩
      · simp [hs]; omega
      · dsimp only
        rw [toList_of_first_none ⟨q.nodes, none, none, q.size - 1⟩ rfl,
          List.drop_eq_nil_of_le (by simp; omega)]
        simp

end Queue

/-! ## The heap package keeps a heap -/

namespace Heap

variable {α : Type}

theorem get_set_cases (a : List α) (i j : Nat) (v x : α) (h : (a.set i v)[j]? = some x) :
    (j = i ∧ x = v) ∨ (j ≠ i ∧ a[j]? = some x) := by
  rw [List.getElem?_set] at h
  split at h
  · rename_i hij
    split at h
    · left; exact ⟨hij.symm, by simpa using h.symm⟩
    · simp at h
  · rename_i hij
    right; exact ⟨fun hc => hij hc.symm, h⟩

theorem lt_length_of_get {a : List α} {i : Nat} {x : α} (h : a[i]? = some x) : i < a.length := by
  by_contra hc
  rw [List.getElem?_eq_none (Nat.le_of_not_lt hc)] at h
  simp at h

theorem count_set_add [DecidableEq α] (l : List α) (i : Nat) (v a b : α) (h : l[i]? = some v) :
    (l.set i a).count b + (if v = b then 1 else 0) = l.count b + (if a = b then 1 else 0) := by
  have hi : i < l.length := lt_length_of_get h
  have hv : l[i] = v := (List.getElem?_eq_some_iff.mp h).2
  have h1 := List.count_set a b l i hi
  have h2 := List.boole_getElem_le_count b l i hi
  simp only [beq_iff_eq, hv] at h1 h2
  omega

theorem set_set_perm [DecidableEq α] (a : List α) (i j : Nat) (x p : α)
    (hi : i < a.length) (hij : i ≠ j) (hp : a[j]? = some p) :
    List.Perm ((a.set i p).set j x) (a.set i x) := by
  rw [List.perm_iff_count]
  intro b
  have hq : (a.set i p)[j]? = some p := by rw [List.getElem?_set_ne hij]; exact hp
  have e1 := count_set_add (a.set i p) j p x b hq
  have e2 := count_set_add a i a[i] p b (List.getElem?_eq_getElem hi)
  have e3 := count_set_add a i a[i] x b (List.getElem?_eq_getElem hi)
  omega

theorem siftdownLoop_perm [DecidableEq α] (cmp : α → α → Int) (newitem : α) :
    ∀ (fuel : Nat) (a : List α) (pos : Nat), pos < a.length →
      List.Perm (siftdownLoop cmp 0 newitem fuel a pos) (a.set pos newitem) := by
  intro fuel
  induction fuel with
  | zero => intro a pos _; exact List.Perm.refl _
  | succ k ih =>
    intro a pos hpos
    simp only [siftdownLoop]
    split
    · split
      · rename_i parent hpar
        split
        · have hlt : (pos - 1) / 2 < pos := by omega
          refine (ih (a.set pos parent) ((pos - 1) / 2) (by simp; omega)).trans ?_
          exact set_set_perm a pos ((pos - 1) / 2) newitem parent hpos (by omega) hpar
        · exact List.Perm.refl _
      · exact List.Perm.refl _
    · exact List.Perm.refl _

theorem isHeap_of_upInv (key : α → Int) (a : List α) (pos : Nat) (newitem : α)
    (h : UpInv key a pos newitem)
    (hp : ∀ p, 0 < pos → a[(pos - 1) / 2]? = some p → key p ≤ key newitem) :
    IsHeap key (a.set pos newitem) := by
  obtain ⟨hA, hB, _⟩ := h
  intro i x p hi hx hpar
  rcases get_set_cases _ _ _ _ _ hx with ⟨e1, e2⟩ | ⟨e1, e2⟩
  · subst e1; subst e2
    rcases get_set_cases _ _ _ _ _ hpar with ⟨e3, _⟩ | ⟨_, e4⟩
    · omega
    · exact hp p hi e4
  · rcases get_set_cases _ _ _ _ _ hpar with ⟨e3, e4⟩ | ⟨_, e4⟩
    · subst e4; exact hB i x hi e3 e2
    · exact hA i x p hi e1 e2 e4

theorem upInv_step (key : α → Int) (a : List α) (pos : Nat) (newitem parent : α)
    (h : UpInv key a pos newitem) (hpos : 0 < pos)
    (hpar : a[(pos - 1) / 2]? = some parent) (hlt : key newitem < key parent) :
    UpInv key (a.set pos parent) ((pos - 1) / 2) newitem := by
  obtain ⟨hA, hB, hC⟩ := h
  have hpp : (pos - 1) / 2 < pos := by omega
  refine ⟨?_, ?_, ?_⟩
  · intro i x p hi hne hx hp
    rcases get_set_cases _ _ _ _ _ hx with ⟨e1, e2⟩ | ⟨e1, e2⟩
    · subst e1; subst e2
      rcases get_set_cases _ _ _ _ _ hp with ⟨e3, _⟩ | ⟨_, e4⟩
      · omega
      · rw [hpar] at e4; simp at e4; subst e4; exact le_refl _
    · rcases get_set_cases _ _ _ _ _ hp with ⟨e3, e4⟩ | ⟨_, e4⟩
      · subst e4; exact hC i x p hi e3 hpos e2 hpar
      · exact hA i x p hi e1 e2 e4
  · intro c x hc hcp hx
    rcases get_set_cases _ _ _ _ _ hx with ⟨_, e2⟩ | ⟨e1, e2⟩
    · subst e2; exact le_of_lt hlt
    · have := hA c x parent hc e1 e2 (by rw [hcp]; exact hpar)
      omega
  · intro c x g hc hcp hpp0 hx hg
    have hg2 : a[((pos - 1) / 2 - 1) / 2]? = some g := by
      rcases get_set_cases _ _ _ _ _ hg with ⟨e3, _⟩ | ⟨_, e4⟩
      · omega
      · exact e4
    have h1 := hA ((pos - 1) / 2) parent g hpp0 (by omega) hpar hg2
    rcases get_set_cases _ _ _ _ _ hx with ⟨_, e2⟩ | ⟨e1, e2⟩
    · subst e2; exact h1
    · have := hA c x parent hc e1 e2 (by rw [hcp]; exact hpar)
      omega

theorem siftdownLoop_isHeap (cmp : α → α → Int) (key : α → Int) (hk : Keyed cmp key)
    (newitem : α) :
    ∀ (fuel : Nat) (a : List α) (pos : Nat), pos ≤ fuel → pos < a.length →
      UpInv key a pos newitem → IsHeap key (siftdownLoop cmp 0 newitem fuel a pos) := by
  intro fuel
  induction fuel with
  | zero =>
    intro a pos hf _ h
    exact isHeap_of_upInv key a pos newitem h (fun p hp _ => by omega)
  | succ k ih =>
    intro a pos hf hpos h
    simp only [siftdownLoop]
    split
    · rename_i hp0
      split
      · rename_i parent hpar
        split
        · rename_i hc
          have hlt : (pos - 1) / 2 < pos := by omega
          exact ih (a.set pos parent) ((pos - 1) / 2) (by omega) (by simp; omega)
            (upInv_step key a pos newitem parent h hp0 hpar ((hk _ _).mp hc))
        · rename_i hc
          refine isHeap_of_upInv key a pos newitem h (fun p _ hp => ?_)
          rw [hpar] at hp; simp at hp; subst hp
          have := (hk newitem parent).not.mp hc
          omega
      · rename_i hnone
        have : (pos - 1) / 2 < a.length := by omega
        rw [List.getElem?_eq_getElem this] at hnone
        simp at hnone
    · rename_i hp0
      exact isHeap_of_upInv key a pos newitem h (fun p hp _ => by omega)

theorem siftdown_spec [DecidableEq α] (cmp : α → α → Int) (key : α → Int) (hk : Keyed cmp key)
    (a : List α) (pos : Nat) (newitem : α) (hn : a[pos]? = some newitem)
    (h : UpInv key a pos newitem) :
    IsHeap key (siftdown cmp a 0 pos) ∧ List.Perm (siftdown cmp a 0 pos) a := by
  have hpos : pos < a.length := lt_length_of_get hn
  have hset : a.set pos newitem = a := by
    apply List.ext_getElem?
    intro i
    rw [List.getElem?_set]
    split
    · rename_i e; subst e; simp [hpos, hn]
    · rfl
  simp only [siftdown, hn]
  refine ⟨siftdownLoop_isHeap cmp key hk newitem pos a pos (le_refl _) hpos h, ?_⟩
  have := siftdownLoop_perm cmp newitem pos a pos hpos
  rwa [hset] at this

theorem push_spec [DecidableEq α] (cmp : α → α → Int) (key : α → Int) (hk : Keyed cmp key)
    (nodes : List α) (item : α) (h : IsHeap key nodes) :
    IsHeap key (push cmp nodes item) ∧ List.Perm (push cmp nodes item) (item :: nodes) := by
  have hn : (nodes ++ [item])[nodes.length]? = some item := by simp
  have hup : UpInv key (nodes ++ [item]) nodes.length item := by
    refine ⟨?_, ?_, ?_⟩
    · intro i x p hi hne hx hp
      have hlt : i < (nodes ++ [item]).length := lt_length_of_get hx
      simp at hlt
      have hi2 : i < nodes.length := by omega
      rw [List.getElem?_append_left hi2] at hx
      rw [List.getElem?_append_left (by omega)] at hp
      exact h i x p hi hx hp
    · intro c x hc hcp hx
      have hlt : c < (nodes ++ [item]).length := lt_length_of_get hx
      simp at hlt
      omega
    · intro c x g hc hcp _ hx _
      have hlt : c < (nodes ++ [item]).length := lt_length_of_get hx
      simp at hlt
      omega
  obtain ⟨h1, h2⟩ := siftdown_spec cmp key hk (nodes ++ [item]) nodes.length item hn hup
  refine ⟨h1, h2.trans ?_⟩
  exact List.perm_append_comm

theorem downInv_step (key : α → Int) (a : List α) (pos c : Nat) (v : α)
    (h : DownInv key a pos) (hc : (c - 1) / 2 = pos) (hc0 : 0 < c) (hv : a[c]? = some v)
    (hsib : ∀ d x, 0 < d → (d - 1) / 2 = pos → d ≠ c → a[d]? = some x → key v ≤ key x) :
    DownInv key (a.set pos v) c := by
  obtain ⟨hA, hC⟩ := h
  have hpc : pos < c := by omega
  refine ⟨?_, ?_⟩
  · intro i x p hi hne hpne hx hp
    rcases get_set_cases _ _ _ _ _ hx with ⟨e1, e2⟩ | ⟨e1, e2⟩
    · subst e1; subst e2
      rcases get_set_cases _ _ _ _ _ hp with ⟨e3, _⟩ | ⟨_, e4⟩
      · omega
      · exact hC c x p hc0 hc hi hv e4
    · rcases get_set_cases _ _ _ _ _ hp with ⟨e3, e4⟩ | ⟨e3, e4⟩
      · subst e4; exact hsib i x hi e3 hne e2
      · exact hA i x p hi e1 e3 e2 e4
  · intro d x g hd hdc _ hx hg
    have hx2 : a[d]? = some x := by
      rcases get_set_cases _ _ _ _ _ hx with ⟨e1, _⟩ | ⟨_, e2⟩
      · omega
      · exact e2
    have hg2 : g = v := by
      rw [hc] at hg
      rcases get_set_cases _ _ _ _ _ hg with ⟨_, e2⟩ | ⟨e1, _⟩
      · exact e2
      · exact absurd rfl e1
    subst hg2
    exact hA d x g hd (by omega) (by omega) hx2 (by rw [hdc]; exact hv)

theorem siftupLoop_spec [DecidableEq α] (cmp : α → α → Int) (key : α → Int) (hk : Keyed cmp key) :
    ∀ (fuel : Nat) (a : List α) (pos : Nat), a.length - pos ≤ fuel → pos < a.length →
      DownInv key a pos → SiftupPost key a pos (siftupLoop cmp fuel a pos) := by
  intro fuel
  induction fuel with
  | zero => intro a pos hf hpos _; omega
  | succ k ih =>
    intro a pos hf hpos h
    simp only [siftupLoop]
    split
    · rename_i hleft
      exact ⟨hpos, h, hleft, fun n => List.Perm.refl _⟩
    · rename_i left hleft
      have hl : 2 * pos + 1 < a.length := lt_length_of_get hleft
      split
      · rename_i hright
        have hstep : DownInv key (a.set pos left) (2 * pos + 1) := by
          refine downInv_step key a pos (2 * pos + 1) left h (by omega) (by omega) hleft ?_
          intro d x hd hdp hne hx
          have : d = 2 * pos + 2 := by omega
          subst this
          rw [hright] at hx; simp at hx
        obtain ⟨p1, p2, p3, p4⟩ := ih (a.set pos left) (2 * pos + 1) (by simp; omega)
          (by simp; omega) hstep
        refine ⟨p1, p2, p3, fun n => (p4 n).trans ?_⟩
        exact set_set_perm a pos (2 * pos + 1) n left hpos (by omega) hleft
      · rename_i right hright
        have hr : 2 * pos + 2 < a.length := lt_length_of_get hright
        split
        · rename_i hc
          have hle : key right ≤ key left := by
            have := (hk left right).not.mp hc
            omega
          have hstep : DownInv key (a.set pos right) (2 * pos + 2) := by
            refine downInv_step key a pos (2 * pos + 2) right h (by omega) (by omega) hright ?_
            intro d x hd hdp hne hx
            have : d = 2 * pos + 1 := by omega
            subst this
            rw [hleft] at hx; simp at hx; subst hx; exact hle
          obtain ⟨p1, p2, p3, p4⟩ := ih (a.set pos right) (2 * pos + 2) (by simp; omega)
            (by simp; omega) hstep
          refine ⟨p1, p2, p3, fun n => (p4 n).trans ?_⟩
          exact set_set_perm a pos (2 * pos + 2) n right hpos (by omega) hright
        · rename_i hc
          have hlt : key left < key right := by
            have := (hk left right).mp (by simpa using hc)
            exact this
          have hstep : DownInv key (a.set pos left) (2 * pos + 1) := by
            refine downInv_step key a pos (2 * pos + 1) left h (by omega) (by omega) hleft ?_
            intro d x hd hdp hne hx
            have : d = 2 * pos + 2 := by omega
            subst this
            rw [hright] at hx; simp at hx; subst hx; exact le_of_lt hlt
          obtain ⟨p1, p2, p3, p4⟩ := ih (a.set pos left) (2 * pos + 1) (by simp; omega)
            (by simp; omega) hstep
          refine ⟨p1, p2, p3, fun n => (p4 n).trans ?_⟩
          exact set_set_perm a pos (2 * pos + 1) n left hpos (by omega) hleft

theorem siftup_spec [DecidableEq α] (cmp : α → α → Int) (key : α → Int) (hk : Keyed cmp key)
    (a : List α) (h : DownInv key a 0) (hne : a ≠ []) :
    IsHeap key (siftup cmp a 0) ∧ List.Perm (siftup cmp a 0) a := by
  have hpos : 0 < a.length := List.length_pos.mpr hne
  have hn : a[0]? = some a[0] := List.getElem?_eq_getElem hpos
  obtain ⟨p1, p2, p3, p4⟩ := siftupLoop_spec cmp key hk a.length a 0 (by omega) hpos h
  have hset : a.set 0 a[0] = a := by
    apply List.ext_getElem?
    intro i
    rw [List.getElem?_set]
    split
    · rename_i e; subst e; simp [hpos]
    · rfl
  have hleaf : ∀ c x, 0 < c → (c - 1) / 2 = (siftupLoop cmp a.length a 0).2 →
      (siftupLoop cmp a.length a 0).1[c]? = some x → False := by
    intro c x hc hcp hx
    have h1 := lt_length_of_get hx
    have h2 : (siftupLoop cmp a.length a 0).1.length ≤ 2 * (siftupLoop cmp a.length a 0).2 + 1 := by
      by_contra hcon
      rw [List.getElem?_eq_getElem (Nat.lt_of_not_le hcon)] at p3
      simp at p3
    omega
  have hup : UpInv key ((siftupLoop cmp a.length a 0).1.set (siftupLoop cmp a.length a 0).2 a[0])
      (siftupLoop cmp a.length a 0).2 a[0] := by
    refine ⟨?_, ?_, ?_⟩
    · intro i x p hi hne2 hx hp
      rcases get_set_cases _ _ _ _ _ hx with ⟨e1, _⟩ | ⟨_, e2⟩
      · exact absurd e1 hne2
      · rcases get_set_cases _ _ _ _ _ hp with ⟨e3, _⟩ | ⟨e3, e4⟩
        · exact (hleaf i x hi e3 e2).elim
        · exact p2.1 i x p hi hne2 e3 e2 e4
    · intro c x hc hcp hx
      rcases get_set_cases _ _ _ _ _ hx with ⟨e1, _⟩ | ⟨_, e2⟩
      · omega
      · exact (hleaf c x hc hcp e2).elim
    · intro c x g hc hcp _ hx _
      rcases get_set_cases _ _ _ _ _ hx with ⟨e1, _⟩ | ⟨_, e2⟩
      · omega
      · exact (hleaf c x hc hcp e2).elim
  have hget : ((siftupLoop cmp a.length a 0).1.set (siftupLoop cmp a.length a 0).2 a[0])[
      (siftupLoop cmp a.length a 0).2]? = some a[0] := by
    rw [List.getElem?_set_self p1]
  obtain ⟨q1, q2⟩ := siftdown_spec cmp key hk _ _ a[0] hget hup
  simp only [siftup, hn]
  refine ⟨q1, q2.trans ?_⟩
  have := p4 a[0]
  rwa [hset] at this

theorem root_le (key : α → Int) (a : List α) (h : IsHeap key a) (r : α) (hr : a[0]? = some r) :
    ∀ (i : Nat) (x : α), a[i]? = some x → key r ≤ key x := by
  intro i
  induction i using Nat.strong_induction_on with
  | _ i ih =>
    intro x hx
    by_cases hi : i = 0
    · subst hi; rw [hr] at hx; simp at hx; subst hx; exact le_refl _
    · have hlt : i < a.length := lt_length_of_get hx
      have hp : (i - 1) / 2 < a.length := by omega
      have h1 := ih ((i - 1) / 2) (by omega) _ (List.getElem?_eq_getElem hp)
      have h2 := h i x _ (by omega) hx (List.getElem?_eq_getElem hp)
      omega

theorem pop_eq_none (cmp : α → α → Int) (nodes : List α) :
    (pop cmp nodes).1 = none ↔ nodes = [] := by
  unfold pop
  constructor
  · intro h
    split at h
    · rename_i hl; exact List.getLast?_eq_none_iff.mp hl
    · split at h <;> simp at h
  · intro h; subst h; rfl

theorem pop_spec [DecidableEq α] (cmp : α → α → Int) (key : α → Int) (hk : Keyed cmp key)
    (nodes : List α) (h : IsHeap key nodes) (m : α) (hm : (pop cmp nodes).1 = some m) :
    List.Perm nodes (m :: (pop cmp nodes).2) ∧ IsHeap key (pop cmp nodes).2 ∧
      ∀ x ∈ nodes, key m ≤ key x := by
  cases hlast : nodes.getLast? with
  | none => simp [pop, hlast] at hm
  | some lastelt =>
    have hsplit : nodes.dropLast ++ [lastelt] = nodes :=
      List.dropLast_append_getLast? lastelt (by simp [hlast])
    cases hdl : nodes.dropLast with
    | nil =>
      simp only [pop, hlast, hdl] at hm ⊢
      simp at hm; subst hm
      rw [hdl] at hsplit
      simp at hsplit
      subst hsplit
      refine ⟨List.Perm.refl _, ?_, by simp⟩
      intro i x p _ hx; simp at hx
    | cons returnitem rest =>
      simp only [pop, hlast, hdl] at hm ⊢
      simp at hm; subst hm
      rw [hdl] at hsplit
      have hroot : nodes[0]? = some returnitem := by rw [← hsplit]; simp
      have hmin : ∀ x ∈ nodes, key returnitem ≤ key x := by
        intro x hx
        obtain ⟨i, hi⟩ := List.getElem?_of_mem hx
        exact root_le key nodes h returnitem hroot i x hi
      have hdown : DownInv key (lastelt :: rest) 0 := by
        refine ⟨?_, ?_⟩
        · intro i x p hi _ hpi hx hp
          have hil : i < (lastelt :: rest).length := lt_length_of_get hx
          simp at hil
          have e1 : nodes[i]? = some x := by
            rw [← hsplit]
            rw [List.getElem?_append_left (by simp; omega)]
            obtain ⟨j, rfl⟩ : ∃ j, i = j + 1 := ⟨i - 1, by omega⟩
            simpa using hx
          have e2 : nodes[(i - 1) / 2]? = some p := by
            rw [← hsplit]
            rw [List.getElem?_append_left (by simp; omega)]
            obtain ⟨j, hj⟩ : ∃ j, (i - 1) / 2 = j + 1 := ⟨(i - 1) / 2 - 1, by omega⟩
            rw [hj] at hp ⊢
            simpa using hp
          exact h i x p hi e1 e2
        · intro c x g _ _ h0; omega
      obtain ⟨s1, s2⟩ := siftup_spec cmp key hk (lastelt :: rest) hdown (by simp)
      refine ⟨?_, s1, hmin⟩
      rw [← hsplit]
      refine List.Perm.trans ?_ (List.Perm.cons _ s2.symm)
      simp only [List.cons_append]
      refine List.Perm.cons _ ?_
      exact List.perm_append_comm

end Heap

/-! ## The buffered merge: what holds in every run, and termination -/

namespace Buffered

theorem sum_map_set {β : Type} (f : β → Nat) :
    ∀ (l : List β) (i : Nat) (b c : β), l[i]? = some b →
      ((l.set i c).map f).sum + f b = (l.map f).sum + f c := by
  intro l
  induction l with
  | nil => intro i b c h; simp at h
  | cons x xs ih =>
    intro i b c h
    cases i with
    | zero => simp at h; subst h; simp; omega
    | succ j =>
      simp at h
      have := ih j b c h
      simp only [List.set_cons_succ, List.map_cons, List.sum_cons]
      omega

theorem mem_of_get {β : Type} {l : List β} {i : Nat} {b : β} (h : l[i]? = some b) : b ∈ l :=
  by
  obtain ⟨hi, rfl⟩ := List.getElem?_eq_some_iff.mp h
  exact List.getElem_mem hi

theorem mem_set_cases {β : Type} (l : List β) (i : Nat) (c x : β) (h : x ∈ l.set i c) :
    x = c ∨ x ∈ l := by
  rcases List.mem_or_eq_of_mem_set h with h1 | h1
  · exact Or.inr h1
  · exact Or.inl h1

theorem upcoming_eq (b : BufferedSource) :
    upcoming b = b.buffer.toList.filterMap (fun w => w.log)
      ++ ((Worker.items b.worker).filterMap id ++ b.logSource.logs) := by
  simp [upcoming, pipe, List.filterMap_append, List.filterMap_map]

theorem pipe_startFetch (b : BufferedSource) (d : Bool) (h : b.worker = Worker.idle) :
    pipe (startFetch b d) = pipe b ∨
      (pipe (startFetch b d) = pipe b ++ [none] ∧ b.logSource.logs = []) := by
  unfold startFetch LogSource.popAsync
  cases hl : b.logSource.logs with
  | cons l rest => left; simp [pipe, h, hl, Worker.items]
  | nil =>
    cases hf : b.logSource.fault with
    | some e => left; simp [pipe, h, hl, hf, Worker.items]
    | none => right; simp [pipe, h, hl, hf, Worker.items]

theorem upcoming_startFetch (b : BufferedSource) (d : Bool) (h : b.worker = Worker.idle) :
    upcoming (startFetch b d) = upcoming b := by
  rcases pipe_startFetch b d h with h1 | ⟨h1, _⟩
  · simp [upcoming, h1]
  · simp [upcoming, h1, List.filterMap_append]

theorem startFetch_fields (b : BufferedSource) (d : Bool) :
    (startFetch b d).buffer = b.buffer ∧ (startFetch b d).caller = b.caller ∧
      ∃ o, (startFetch b d).worker = Worker.pending o d := by
  unfold startFetch
  exact ⟨rfl, rfl, _, rfl⟩

theorem length_siftdownLoop {α : Type} (cmp : α → α → Int) (startpos : Nat) (newitem : α) :
    ∀ (fuel : Nat) (a : List α) (pos : Nat),
      (Heap.siftdownLoop cmp startpos newitem fuel a pos).length = a.length := by
  intro fuel
  induction fuel with
  | zero => intro a pos; simp [Heap.siftdownLoop]
  | succ k ih =>
    intro a pos
    simp only [Heap.siftdownLoop]
    split
    · split
      · split
        · rw [ih]; simp
        · simp
      · simp
    · simp

theorem length_siftdown {α : Type} (cmp : α → α → Int) (a : List α) (startpos pos : Nat) :
    (Heap.siftdown cmp a startpos pos).length = a.length := by
  unfold Heap.siftdown
  split
  · exact length_siftdownLoop cmp startpos _ _ _ _
  · rfl

theorem length_siftupLoop {α : Type} (cmp : α → α → Int) :
    ∀ (fuel : Nat) (a : List α) (pos : Nat),
      (Heap.siftupLoop cmp fuel a pos).1.length = a.length := by
  intro fuel
  induction fuel with
  | zero => intro a pos; simp [Heap.siftupLoop]
  | succ k ih =>
    intro a pos
    simp only [Heap.siftupLoop]
    split
    · rfl
    · split
      · rw [ih]; simp
      · split
        · rw [ih]; simp
        · rw [ih]; simp

theorem length_siftup {α : Type} (cmp : α → α → Int) (a : List α) (pos : Nat) :
    (Heap.siftup cmp a pos).length = a.length := by
  unfold Heap.siftup
  split
  · simp only [length_siftdown, List.length_set, length_siftupLoop]
  · rfl

theorem length_push {α : Type} (cmp : α → α → Int) (nodes : List α) (item : α) :
    (Heap.push cmp nodes item).length = nodes.length + 1 := by
  simp [Heap.push, length_siftdown]

theorem length_pop {α : Type} (cmp : α → α → Int) (nodes : List α) (m : α)
    (h : (Heap.pop cmp nodes).1 = some m) :
    (Heap.pop cmp nodes).2.length + 1 = nodes.length := by
  cases hlast : nodes.getLast? with
  | none => simp [Heap.pop, hlast] at h
  | some lastelt =>
    have hsplit : nodes.dropLast ++ [lastelt] = nodes :=
      List.dropLast_append_getLast? lastelt (by simp [hlast])
    have hlen := congrArg List.length hsplit
    cases hdl : nodes.dropLast with
    | nil =>
      rw [hdl] at hlen
      simp only [Heap.pop, hlast, hdl]
      simpa using hlen
    | cons returnitem rest =>
      rw [hdl] at hlen
      simp only [Heap.pop, hlast, hdl, length_siftup]
      simpa using hlen

theorem wake_eq_idle (c : Caller) (o : Outcome) : wake c o = Caller.idle ↔ c = Caller.idle := by
  cases c <;> cases o <;> simp [wake]

theorem wake_ne_waiting (c : Caller) (o : Outcome) : wake c o ≠ Caller.waiting := by
  cases c <;> cases o <;> simp [wake]

theorem size_enq {α : Type} (q : Queue α) (x : α) : (q.enq x).size = q.size + 1 := by
  unfold Queue.enq
  split
  · rfl
  · split <;> rfl

theorem next_cases (b : BufferedSource) :
    (b.buffer.isEmpty = false ∧ next b = { b with caller := Caller.ready }) ∨
    (b.buffer.isEmpty = true ∧ b.worker = Worker.idle ∧
      next b = { startFetch b false with caller := Caller.waiting }) ∨
    (b.buffer.isEmpty = true ∧ (∃ o d, b.worker = Worker.pending o d) ∧
      next b = { b with caller := Caller.waiting }) ∨
    (b.buffer.isEmpty = true ∧ ∃ e, b.worker = Worker.rejected e ∧
      next b = { b with caller := Caller.failed e }) := by
  cases he : b.buffer.isEmpty with
  | false => left; simp [next, he]
  | true =>
    right
    cases hw : b.worker with
    | idle =>
      left
      obtain ⟨_, _, o, e3⟩ := startFetch_fields b false
      simp [next, he, prefetch, hw, e3]
    | pending o d => right; left; simp [next, he, prefetch, hw]
    | rejected e => right; right; simp [next, he, prefetch, hw]

theorem sane_next (b : BufferedSource) (h : SaneSource b) : SaneSource (next b) := by
  obtain ⟨h1, h2⟩ := h
  rcases next_cases b with ⟨_, e⟩ | ⟨_, _, e⟩ | ⟨_, ⟨o, d, hw⟩, e⟩ | ⟨_, er, _, e⟩
  · rw [e]; exact ⟨h1, fun hc => by simp at hc⟩
  · rw [e]
    obtain ⟨e1, _, o, e3⟩ := startFetch_fields b false
    exact ⟨by show (startFetch b false).buffer.WF; rw [e1]; exact h1, fun _ => ⟨o, false, e3⟩⟩
  · rw [e]; exact ⟨h1, fun _ => ⟨o, d, hw⟩⟩
  · rw [e]; exact ⟨h1, fun hc => by simp at hc⟩

theorem sane_onFetched (error : Option Err) (n index : Nat) (b : BufferedSource) (log : Option Log)
    (o : Outcome) (h : SaneSource b) :
    SaneSource (onFetched error n index (notify b o) log) := by
  have hwf := (Queue.enq_spec b.buffer h.1 ⟨index, log⟩).1
  have hr : SaneSource (received index (notify b o) log) :=
    ⟨hwf, fun h2 => absurd h2 (wake_ne_waiting _ _)⟩
  unfold onFetched
  split
  · obtain ⟨e1, e2, o2, e3⟩ := startFetch_fields (received index (notify b o) log) true
    exact ⟨by rw [e1]; exact hwf, fun _ => ⟨o2, true, e3⟩⟩
  · exact hr

theorem sane_set (s : State) (i : Nat) (c : BufferedSource) (h : Sane s) (hc : SaneSource c) :
    ∀ b ∈ s.sources.set i c, SaneSource b := by
  intro b hb
  rcases mem_set_cases _ _ _ _ hb with h1 | h1
  · subst h1; exact hc
  · exact h b h1

theorem sane_reject (s : State) (e : Err) (h : Sane s) : Sane (reject s e) := by
  unfold reject setError
  split <;> exact h

theorem sane_step (s t : State) (e : Event) (h : Sane s) (hst : step s e = some t) : Sane t := by
  cases e with
  | settle i =>
    simp only [step, settle] at hst
    split at hst
    · simp at hst
    · rename_i b hb
      have hsb := h b (mem_of_get hb)
      split at hst
      · rename_i e d hw
        simp only [Option.some.injEq] at hst
        subst hst
        have := sane_set s i { b with worker := Worker.rejected e, caller := wake b.caller (Outcome.fail e) }
          h ⟨hsb.1, fun h2 => absurd h2 (wake_ne_waiting _ _)⟩
        split
        · exact this
        · exact this
      · simp only [Option.some.injEq] at hst
        subst hst
        exact sane_set s i _ h (sane_onFetched _ _ _ _ _ _ hsb)
      · simp only [Option.some.injEq] at hst
        subst hst
        exact sane_set s i _ h (sane_onFetched _ _ _ _ _ _ hsb)
      · simp at hst
  | resume i =>
    simp only [step, resume] at hst
    split at hst
    · simp at hst
    · rename_i b hb
      have hsb := h b (mem_of_get hb)
      split at hst
      · simp only [Option.some.injEq] at hst
        subst hst
        exact sane_set s i _ h ⟨(Queue.deq_spec b.buffer hsb.1).1, fun h2 => by simp at h2⟩
      · simp only [Option.some.injEq] at hst
        subst hst
        apply sane_reject
        exact sane_set s i _ h ⟨hsb.1, fun h2 => by simp at h2⟩
      · simp at hst
  | lumbermill =>
    have hbody : Sane (lumbermillBody s) := by
      unfold lumbermillBody
      split
      · exact sane_reject s _ h
      · split
        · exact h
        · rename_i oldest rest hpop
          dsimp only
          split
          · exact h
          · rename_i b hb
            exact sane_set s _ _ h (sane_next b (h b (mem_of_get hb)))
    simp only [step, lumbermill] at hst
    split at hst
    · split at hst
      · simp only [Option.some.injEq] at hst; subst hst; exact hbody
      · simp at hst
    · split at hst
      · simp only [Option.some.injEq] at hst; subst hst; exact hbody
      · simp at hst
    · simp at hst

theorem engaged_wake (c : Caller) (o : Outcome) : engaged (wake c o) = engaged c := by
  cases c <;> cases o <;> rfl

theorem size_deq {α : Type} (q : Queue α) :
    q.deq.2.size = q.size ∨ q.deq.2.size = q.size - 1 := by
  unfold Queue.deq
  split
  · left; rfl
  · split
    · left; rfl
    · right; rfl

theorem upcoming_received (index : Nat) (b : BufferedSource) (o : Outcome) (d : Bool)
    (v : Option Log) (c : Caller) (hwf : b.buffer.WF) (hw : b.worker = Worker.pending o d)
    (hv : Outcome.value o = some v) :
    upcoming (received index { b with caller := c } v) = upcoming b := by
  have he := (Queue.enq_spec b.buffer hwf ⟨index, v⟩).2
  rw [upcoming_eq, upcoming_eq]
  simp only [received, he, hw]
  cases o with
  | log l =>
    simp [Outcome.value] at hv; subst hv
    simp [Worker.items, List.filterMap_append]
  | empty =>
    simp [Outcome.value] at hv; subst hv
    simp [Worker.items, List.filterMap_append]
  | fail e => simp [Outcome.value] at hv

theorem upcoming_onFetched (error : Option Err) (n index : Nat) (b : BufferedSource)
    (o : Outcome) (d : Bool) (v : Option Log) (hwf : b.buffer.WF)
    (hw : b.worker = Worker.pending o d) (hv : Outcome.value o = some v) :
    upcoming (onFetched error n index (notify b o) v) = upcoming b := by
  have h1 := upcoming_received index b o d v (wake b.caller o) hwf hw hv
  unfold onFetched
  split
  · rw [upcoming_startFetch _ _ rfl]; exact h1
  · exact h1

theorem load_onFetched (error : Option Err) (n index : Nat) (b : BufferedSource)
    (o : Outcome) (d : Bool) (v : Option Log) (hwf : b.buffer.WF)
    (hw : b.worker = Worker.pending o d) (hv : Outcome.value o = some v) :
    load (bufferMaxSize n) (onFetched error n index (notify b o) v) + 1
      ≤ load (bufferMaxSize n) b := by
  have hu := upcoming_onFetched error n index b o d v hwf hw hv
  unfold load
  rw [hu, hw]
  unfold onFetched
  split
  · rename_i hc
    obtain ⟨e1, e2, o2, e3⟩ := startFetch_fields (received index (notify b o) v) true
    rw [e1, e2, e3]
    have hs : (received index (notify b o) v).buffer.size = b.buffer.size + 1 := size_enq _ _
    rw [hs] at hc
    simp only [received, notify, engaged_wake, size_enq, busy]
    omega
  · simp only [received, notify, engaged_wake, size_enq, busy]
    omega

theorem load_rejected (cap : Int) (b : BufferedSource) (o : Outcome) (d : Bool) (e : Err)
    (hw : b.worker = Worker.pending (Outcome.fail e) d) :
    load cap { b with worker := Worker.rejected e, caller := wake b.caller o } + 1 ≤ load cap b := by
  unfold load
  rw [upcoming_eq, upcoming_eq]
  simp only [hw, engaged_wake, busy, Worker.items]
  omega

theorem load_deq (cap : Int) (b : BufferedSource) (H : List Entry) (hwf : b.buffer.WF)
    (hc : b.caller = Caller.ready) :
    5 * (pushToHeap H b.buffer.deq.1).length
        + load cap { b with buffer := b.buffer.deq.2, caller := Caller.idle } + 1
      ≤ 5 * H.length + load cap b := by
  obtain ⟨_, h1, h2⟩ := Queue.deq_spec b.buffer hwf
  have hs := size_deq b.buffer
  unfold load
  rw [upcoming_eq, upcoming_eq]
  simp only [h1, h2, hc, engaged]
  cases hl : b.buffer.toList with
  | nil =>
    simp only [pushToHeap, List.head?_nil, List.tail_nil, List.filterMap_nil, List.nil_append]
    omega
  | cons w rest =>
    cases w with
    | mk src lg =>
      cases lg with
      | none =>
        simp only [pushToHeap, List.head?_cons, List.tail_cons, List.filterMap_cons,
          List.length_append]
        omega
      | some l =>
        simp only [pushToHeap, List.head?_cons, List.tail_cons, List.filterMap_cons,
          List.length_append, length_push, List.length_cons]
        omega

theorem load_next (cap : Int) (b : BufferedSource) : load cap (next b) ≤ load cap b + 4 := by
  have hen : ∀ c : Caller, engaged c ≤ 1 := fun c => by cases c <;> simp [engaged]
  have h1 := hen b.caller
  rcases next_cases b with ⟨_, e⟩ | ⟨_, hw, e⟩ | ⟨_, _, e⟩ | ⟨_, er, _, e⟩
  · rw [e]; unfold load; rw [upcoming_eq, upcoming_eq]; simp only [engaged]; omega
  · rw [e]
    have hu := upcoming_startFetch b false hw
    obtain ⟨e1, e2, o, e3⟩ := startFetch_fields b false
    unfold load
    have hu2 : upcoming { startFetch b false with caller := Caller.waiting } = upcoming b := by
      rw [← hu, upcoming_eq, upcoming_eq]
    rw [hu2]
    simp only [e1, e3, engaged, busy, hw]
    omega
  · rw [e]; unfold load; rw [upcoming_eq, upcoming_eq]; simp only [engaged]; omega
  · rw [e]; unfold load; rw [upcoming_eq, upcoming_eq]; simp only [engaged]; omega

theorem potential_reject (s : State) (e : Err) :
    potential (reject s e) + (if Phase.active s.phase then 1 else 0) ≤ potential s := by
  unfold reject setError potential
  split <;> simp [Phase.active]

theorem potential_reject_le (s : State) (e : Err) : potential (reject s e) ≤ potential s := by
  have := potential_reject s e
  omega

theorem liveSourceCount_reject (s : State) (e : Err) :
    (reject s e).liveSourceCount = s.liveSourceCount := by
  unfold reject setError
  split <;> rfl

theorem potential_set (s : State) (i : Nat) (b c : BufferedSource) (H : List Entry)
    (err : Option Err) (asg : List Err) (hb : s.sources[i]? = some b) (k : Nat)
    (h : 5 * H.length + load (bufferMaxSize s.liveSourceCount) c + k
      ≤ 5 * s.logheap.length + load (bufferMaxSize s.liveSourceCount) b) :
    potential { s with sources := s.sources.set i c, logheap := H, error := err, assigned := asg } + k
      ≤ potential s := by
  have := sum_map_set (load (bufferMaxSize s.liveSourceCount)) s.sources i b c hb
  unfold potential
  simp only
  omega

theorem potential_step (s t : State) (e : Event) (h : Sane s) (hst : step s e = some t) :
    potential t < potential s ∧ t.liveSourceCount = s.liveSourceCount := by
  cases e with
  | settle i =>
    simp only [step, settle] at hst
    split at hst
    · simp at hst
    · rename_i b hb
      have hsb := h b (mem_of_get hb)
      split at hst
      · rename_i e d hw
        simp only [Option.some.injEq] at hst
        subst hst
        have hl := load_rejected (bufferMaxSize s.liveSourceCount) b (Outcome.fail e) d e hw
        split
        · have := potential_set s i b
            { b with worker := Worker.rejected e, caller := wake b.caller (Outcome.fail e) }
            s.logheap (some e) (s.assigned ++ [e]) hb 1 (by omega)
          exact ⟨by simpa [setError] using this, rfl⟩
        · have := potential_set s i b
            { b with worker := Worker.rejected e, caller := wake b.caller (Outcome.fail e) }
            s.logheap s.error s.assigned hb 1 (by omega)
          exact ⟨by simpa using this, rfl⟩
      · rename_i l d hw
        simp only [Option.some.injEq] at hst
        subst hst
        have hl := load_onFetched s.error s.liveSourceCount i b (Outcome.log l) d (some l)
          hsb.1 hw rfl
        have := potential_set s i b
          (onFetched s.error s.liveSourceCount i (notify b (Outcome.log l)) (some l))
          s.logheap s.error s.assigned hb 1 (by omega)
        exact ⟨by simpa using this, rfl⟩
      · rename_i d hw
        simp only [Option.some.injEq] at hst
        subst hst
        have hl := load_onFetched s.error s.liveSourceCount i b Outcome.empty d none
          hsb.1 hw rfl
        have := potential_set s i b
          (onFetched s.error s.liveSourceCount i (notify b Outcome.empty) none)
          s.logheap s.error s.assigned hb 1 (by omega)
        exact ⟨by simpa using this, rfl⟩
      · simp at hst
  | resume i =>
    simp only [step, resume] at hst
    split at hst
    · simp at hst
    · rename_i b hb
      have hsb := h b (mem_of_get hb)
      split at hst
      · rename_i hc
        simp only [Option.some.injEq] at hst
        subst hst
        have hl := load_deq (bufferMaxSize s.liveSourceCount) b s.logheap hsb.1 hc
        have := potential_set s i b { b with buffer := b.buffer.deq.2, caller := Caller.idle }
          (pushToHeap s.logheap b.buffer.deq.1) s.error s.assigned hb 1 (by omega)
        exact ⟨by simpa using this, rfl⟩
      · rename_i e hc
        simp only [Option.some.injEq] at hst
        subst hst
        have hl : load (bufferMaxSize s.liveSourceCount) { b with caller := Caller.idle } + 1
            ≤ load (bufferMaxSize s.liveSourceCount) b := by
          unfold load
          rw [upcoming_eq, upcoming_eq]
          simp only [hc, engaged]
          omega
        have := potential_set s i b { b with caller := Caller.idle }
          s.logheap s.error s.assigned hb 1 (by omega)
        have h2 := potential_reject_le
          { s with sources := s.sources.set i { b with caller := Caller.idle } } e
        refine ⟨?_, by rw [liveSourceCount_reject]⟩
        have h3 : potential { s with sources := s.sources.set i { b with caller := Caller.idle } } + 1
            ≤ potential s := by simpa using this
        omega
      · simp at hst
  | lumbermill =>
    have hbody : Phase.active s.phase = true →
        potential (lumbermillBody s) < potential s
          ∧ (lumbermillBody s).liveSourceCount = s.liveSourceCount := by
      intro hact
      unfold lumbermillBody
      split
      · rename_i e he
        have := potential_reject s e
        rw [hact] at this
        exact ⟨by simp at this; omega, liveSourceCount_reject s e⟩
      · split
        · refine ⟨?_, rfl⟩
          unfold potential
          dsimp only
          rw [hact]
          simp [Phase.active]
        · rename_i oldest rest hpop
          have hlen := length_pop cmpDate s.logheap oldest (by rw [hpop])
          rw [hpop] at hlen
          simp only at hlen
          dsimp only
          split
          · refine ⟨?_, rfl⟩
            unfold potential
            dsimp only
            rw [hact]
            simp only [Phase.active]
            omega
          · rename_i b hb
            have hl := load_next (bufferMaxSize s.liveSourceCount) b
            have := sum_map_set (load (bufferMaxSize s.liveSourceCount)) s.sources oldest.source
              b (next b) hb
            refine ⟨?_, rfl⟩
            unfold potential
            dsimp only
            rw [hact]
            simp only [Phase.active]
            omega
    simp only [step, lumbermill] at hst
    split at hst
    · rename_i hp
      split at hst
      · simp only [Option.some.injEq] at hst; subst hst; exact hbody (by rw [hp]; rfl)
      · simp at hst
    · rename_i hp
      split at hst
      · simp only [Option.some.injEq] at hst; subst hst; exact hbody (by rw [hp]; rfl)
      · simp at hst
    · simp at hst

theorem progress (s : State) (h : Sane s) (hact : Phase.active s.phase = true) :
    ∃ e t, step s e = some t := by
  by_cases hq : quiet s = true
  · refine ⟨Event.lumbermill, lumbermillBody s, ?_⟩
    simp only [step, lumbermill]
    cases hp : s.phase <;> simp [hp, Phase.active, hq] at hact ⊢
  · simp only [quiet, List.all_eq_true, decide_eq_true_eq, not_forall] at hq
    obtain ⟨b, hb, hc⟩ := hq
    obtain ⟨i, hi⟩ := List.getElem?_of_mem hb
    have hsb := h b hb
    cases hcal : b.caller with
    | idle => exact absurd hcal hc
    | waiting =>
      obtain ⟨o, d, hw⟩ := hsb.2 hcal
      refine ⟨Event.settle i, ?_⟩
      simp only [step, settle, hi, hw]
      cases o <;> simp
    | ready =>
      refine ⟨Event.resume i, ?_⟩
      simp only [step, resume, hi, hcal]
      simp
    | failed e =>
      refine ⟨Event.resume i, ?_⟩
      simp only [step, resume, hi, hcal]
      simp

end Buffered

/-! ## The buffered merge: runs without a failing fetch -/

namespace Buffered

theorem keyed_cmpDate : Heap.Keyed cmpDate Entry.date := by
  intro a b
  simp only [cmpDate, Entry.date]
  omega

theorem printed_append (p q : Printer) : printed (p ++ q) = printed p ++ printed q := by
  induction p with
  | nil => rfl
  | cons c rest ih => cases c <;> simp [printed, ih]

theorem printed_map_print (l : List Log) : printed (l.map PrinterCall.print) = l := by
  induction l with
  | nil => rfl
  | cons c rest ih => simp [printed, ih]

theorem markersLast_append_none (l : List (Option Log)) (h : MarkersLast l) :
    MarkersLast (l ++ [none]) := by
  unfold MarkersLast at h ⊢
  rw [List.pairwise_append]
  refine ⟨h, List.pairwise_singleton _ _, ?_⟩
  intro a _ b hb _
  simpa using hb

theorem markersLast_tail (x : Option Log) (l : List (Option Log)) (h : MarkersLast (x :: l)) :
    MarkersLast l := by
  unfold MarkersLast at h ⊢
  exact (List.pairwise_cons.mp h).2

theorem filterMap_of_marker (l : List (Option Log)) (h : MarkersLast (none :: l)) :
    l.filterMap id = [] := by
  unfold MarkersLast at h
  have h1 := (List.pairwise_cons.mp h).1
  rw [List.filterMap_eq_nil_iff]
  intro a ha
  simp [h1 a ha rfl]

theorem pipe_received (index : Nat) (b : BufferedSource) (o : Outcome) (d : Bool)
    (v : Option Log) (c : Caller) (hwf : b.buffer.WF) (hw : b.worker = Worker.pending o d)
    (hv : Outcome.value o = some v) :
    pipe (received index { b with caller := c } v) = pipe b := by
  have he := (Queue.enq_spec b.buffer hwf ⟨index, v⟩).2
  simp only [pipe, received, he, hw]
  cases o with
  | log l => simp [Outcome.value] at hv; subst hv; simp [Worker.items]
  | empty => simp [Outcome.value] at hv; subst hv; simp [Worker.items]
  | fail e => simp [Outcome.value] at hv

theorem pipe_onFetched (error : Option Err) (n index : Nat) (b : BufferedSource)
    (o : Outcome) (d : Bool) (v : Option Log) (hwf : b.buffer.WF)
    (hw : b.worker = Worker.pending o d) (hv : Outcome.value o = some v) :
    pipe (onFetched error n index (notify b o) v) = pipe b ∨
      pipe (onFetched error n index (notify b o) v) = pipe b ++ [none] := by
  have h1 := pipe_received index b o d v (wake b.caller o) hwf hw hv
  unfold onFetched
  split
  · rcases pipe_startFetch (received index (notify b o) v) true rfl with h2 | ⟨h2, _⟩
    · left; rw [h2]; exact h1
    · right; rw [h2]; exact congrArg (fun l => l ++ [none]) h1
  · left; exact h1

theorem startFetch_sound (b : BufferedSource) (d : Bool) (hf : b.logSource.fault = none) :
    (startFetch b d).logSource.fault = none ∧
      ∀ e, (startFetch b d).worker ≠ Worker.pending (Outcome.fail e) d := by
  unfold startFetch LogSource.popAsync
  cases hl : b.logSource.logs with
  | cons l rest => simp [hf]
  | nil => simp [hf]

theorem onFetched_fields (error : Option Err) (n index : Nat) (b : BufferedSource)
    (v : Option Log) (hwf : b.buffer.WF) (hf : b.logSource.fault = none) :
    (onFetched error n index b v).buffer.toList = b.buffer.toList ++ [⟨index, v⟩] ∧
    (onFetched error n index b v).buffer.WF ∧
    (onFetched error n index b v).caller = b.caller ∧
    (onFetched error n index b v).logSource.fault = none ∧
    (∀ e, (onFetched error n index b v).worker ≠ Worker.rejected e) ∧
    (∀ e d, (onFetched error n index b v).worker ≠ Worker.pending (Outcome.fail e) d) := by
  obtain ⟨w1, w2⟩ := Queue.enq_spec b.buffer hwf ⟨index, v⟩
  unfold onFetched
  split
  · obtain ⟨e1, e2, o, e3⟩ := startFetch_fields (received index b v) true
    obtain ⟨s1, s2⟩ := startFetch_sound (received index b v) true hf
    refine ⟨by rw [e1]; exact w2, by rw [e1]; exact w1, by rw [e2]; rfl, s1, ?_, ?_⟩
    · intro e; rw [e3]; simp
    · intro e d2 hc
      rw [e3] at hc
      simp only [Worker.pending.injEq] at hc
      exact s2 e (by rw [e3, hc.1])
  · exact ⟨w2, w1, rfl, hf, fun e => by simp [received], fun e d => by simp [received]⟩

end Buffered

/-! ## The buffered merge: the settling of a fetch keeps the invariant -/

namespace Buffered

theorem sourceInv_onFetched {srt : Prop} (H : List Entry) (i : Nat) (b : BufferedSource) (o : Outcome)
    (d : Bool) (v : Option Log) (error : Option Err) (n : Nat) (h : SourceInv srt H i b)
    (hw : b.worker = Worker.pending o d) (hv : Outcome.value o = some v) :
    SourceInv srt H i (onFetched error n i (notify b o) v) := by
  have hu := upcoming_onFetched error n i b o d v h.wf hw hv
  obtain ⟨f1, f2, f3, f4, f5, f6⟩ := onFetched_fields error n i (notify b o) v h.wf h.noFault
  have hcal : (onFetched error n i (notify b o) v).caller = wake b.caller o := f3
  have hidle : (onFetched error n i (notify b o) v).caller = Caller.idle ↔ b.caller = Caller.idle := by
    rw [hcal]; exact wake_eq_idle _ _
  refine
    { wf := f2
      tagged := ?_
      markers := ?_
      ordered := by rw [hu]; exact h.ordered
      waiting := fun hc => absurd (hcal ▸ hc) (wake_ne_waiting _ _)
      ready := fun _ => by rw [f1]; simp
      noFault := f4
      noFailed := ?_
      noRejected := f5
      noFailing := f6
      absent := fun hc => h.absent (fun hc2 => hc (hidle.mpr hc2))
      retired := fun hc hne => by rw [hu]; exact h.retired (hidle.mp hc) hne
      ahead := by rw [hu]; exact h.ahead }
  · intro w hwm
    rw [f1] at hwm
    rcases List.mem_append.mp hwm with h1 | h1
    · exact h.tagged w h1
    · simp at h1; subst h1; rfl
  · rcases pipe_onFetched error n i b o d v h.wf hw hv with h1 | h1
    · rw [h1]; exact h.markers
    · rw [h1]; exact markersLast_append_none _ h.markers
  · intro e hc
    rw [hcal] at hc
    cases hb : b.caller with
    | idle => rw [hb] at hc; cases o <;> simp [wake] at hc
    | waiting =>
      rw [hb] at hc
      cases o with
      | log l => simp [wake] at hc
      | empty => simp [wake] at hc
      | fail e2 => simp [Outcome.value] at hv
    | ready => rw [hb] at hc; cases o <;> simp [wake] at hc
    | failed e2 => exact h.noFailed e2 hb

theorem inv_replace {srt : Prop} (all : List Log) (s : State) (i : Nat) (b c : BufferedSource)
    (h : Inv srt all s) (hb : s.sources[i]? = some b) (hc : SourceInv srt s.logheap i c)
    (hu : upcoming c = upcoming b) :
    Inv srt all { s with sources := s.sources.set i c } := by
  refine
    { sources := ?_
      heap := h.heap
      nodup := h.nodup
      inRange := fun e he => by simpa using h.inRange e he
      noError := h.noError
      noReject := h.noReject
      sorted := h.sorted
      belowHeap := h.belowHeap
      belowSources := ?_
      count := ?_
      calls := h.calls }
  · intro k bk hk
    rcases Heap.get_set_cases _ _ _ _ _ hk with ⟨e1, e2⟩ | ⟨_, e2⟩
    · subst e1; subst e2; exact hc
    · exact h.sources k bk e2
  · intro hsrt l hl b2 hb2 l2 hl2
    rcases mem_set_cases _ _ _ _ hb2 with e1 | e1
    · subst e1; rw [hu] at hl2; exact h.belowSources hsrt l hl b (mem_of_get hb) l2 hl2
    · exact h.belowSources hsrt l hl b2 e1 l2 hl2
  · intro r
    have h1 := sum_map_set (fun b => (upcoming b).count r) s.sources i b c hb
    have h2 := h.count r
    simp only [hu] at h1
    simp only
    omega

theorem inv_settle {srt : Prop} (all : List Log) (s t : State) (i : Nat) (h : Inv srt all s)
    (hst : settle s i = some t) : Inv srt all t := by
  simp only [settle] at hst
  split at hst
  · simp at hst
  · rename_i b hb
    have hsb := h.sources i b hb
    split at hst
    · rename_i e d hw
      exact absurd hw (hsb.noFailing e d)
    · rename_i l d hw
      simp only [Option.some.injEq] at hst
      subst hst
      exact inv_replace all s i b _ h hb
        (sourceInv_onFetched s.logheap i b (Outcome.log l) d (some l) s.error s.liveSourceCount
          hsb hw rfl)
        (upcoming_onFetched s.error s.liveSourceCount i b (Outcome.log l) d (some l) hsb.wf hw rfl)
    · rename_i d hw
      simp only [Option.some.injEq] at hst
      subst hst
      exact inv_replace all s i b _ h hb
        (sourceInv_onFetched s.logheap i b Outcome.empty d none s.error s.liveSourceCount
          hsb hw rfl)
        (upcoming_onFetched s.error s.liveSourceCount i b Outcome.empty d none hsb.wf hw rfl)
    · simp at hst

end Buffered

/-! ## The buffered merge: the continuation of next keeps the invariant -/

namespace Buffered

theorem deq_ready {srt : Prop} (i : Nat) (b : BufferedSource) (H : List Entry) (h : SourceInv srt H i b)
    (hc : b.caller = Caller.ready) :
    ∃ lg, b.buffer.deq.1 = some ⟨i, lg⟩ ∧
      pipe b = lg :: pipe { b with buffer := b.buffer.deq.2, caller := Caller.idle } ∧
      b.buffer.deq.2.WF ∧ (∀ w ∈ b.buffer.deq.2.toList, w.source = i) := by
  obtain ⟨d1, d2, d3⟩ := Queue.deq_spec b.buffer h.wf
  have hne := h.ready hc
  cases hl : b.buffer.toList with
  | nil => exact absurd hl hne
  | cons w rest =>
    have hw : w.source = i := h.tagged w (by rw [hl]; simp)
    cases w with
    | mk src lg =>
      simp only at hw
      subst hw
      refine ⟨lg, by rw [d2, hl]; rfl, ?_, d1, ?_⟩
      · simp only [pipe, d3, hl]
        simp
      · intro w hwm
        rw [d3, hl] at hwm
        exact h.tagged w (by rw [hl]; exact List.mem_cons_of_mem _ hwm)

theorem sourceInv_other {srt : Prop} (H H2 : List Entry) (i k : Nat) (b : BufferedSource)
    (h : SourceInv srt H k b) (hsub : ∀ e ∈ H2, e ∈ H ∨ e.source = i) (hki : k ≠ i)
    (hsup : ∀ e ∈ H, e.source = k → e ∈ H2) : SourceInv srt H2 k b := by
  refine
    { wf := h.wf
      tagged := h.tagged
      markers := h.markers
      ordered := h.ordered
      waiting := h.waiting
      ready := h.ready
      noFault := h.noFault
      noFailed := h.noFailed
      noRejected := h.noRejected
      noFailing := h.noFailing
      absent := ?_
      retired := ?_
      ahead := ?_ }
  · intro hc e he hek
    rcases hsub e he with h1 | h1
    · exact h.absent hc e h1 hek
    · exact hki (hek ▸ h1)
  · intro hc hne
    refine h.retired hc (fun e he hek => hne e (hsup e he hek) hek)
  · intro hsrt e he hek l hl
    rcases hsub e he with h1 | h1
    · exact h.ahead hsrt e h1 hek l hl
    · exact absurd (hek ▸ h1) hki

theorem inv_resume {srt : Prop} (all : List Log) (s t : State) (i : Nat) (h : Inv srt all s)
    (hst : resume s i = some t) : Inv srt all t := by
  simp only [resume] at hst
  split at hst
  · simp at hst
  · rename_i b hb
    have hsb := h.sources i b hb
    have hilt : i < s.sources.length := Heap.lt_length_of_get hb
    split at hst
    · rename_i hc
      simp only [Option.some.injEq] at hst
      subst hst
      obtain ⟨lg, d1, d2, d3, d4⟩ := deq_ready i b s.logheap hsb hc
      have hnotin : ∀ e ∈ s.logheap, e.source ≠ i := hsb.absent (by rw [hc]; simp)
      have hup : upcoming b
          = (lg :: pipe { b with buffer := b.buffer.deq.2, caller := Caller.idle }).filterMap id := by
        rw [upcoming, d2]
      have hmk : MarkersLast (pipe { b with buffer := b.buffer.deq.2, caller := Caller.idle }) :=
        markersLast_tail lg _ (d2 ▸ hsb.markers)
      rw [d1]
      cases lg with
      | none =>
        have hnil : upcoming { b with buffer := b.buffer.deq.2, caller := Caller.idle } = [] :=
          filterMap_of_marker _ (d2 ▸ hsb.markers)
        have hnil2 : upcoming b = [] := by
          rw [hup, List.filterMap_cons_none rfl]; exact hnil
        have hsi : SourceInv srt s.logheap i
            { b with buffer := b.buffer.deq.2, caller := Caller.idle } :=
          { wf := d3
            tagged := d4
            markers := hmk
            ordered := fun _ => by rw [hnil]; exact List.Pairwise.nil
            waiting := fun hc2 => by simp at hc2
            ready := fun hc2 => by simp at hc2
            noFault := hsb.noFault
            noFailed := fun e => by simp
            noRejected := hsb.noRejected
            noFailing := hsb.noFailing
            absent := fun hc2 => absurd rfl hc2
            retired := fun _ _ => hnil
            ahead := fun _ e _ _ l hl => by rw [hnil] at hl; simp at hl }
        exact inv_replace all s i b _ h hb hsi (by rw [hnil, hnil2])
      | some l =>
        have hup2 : upcoming b
            = l :: upcoming { b with buffer := b.buffer.deq.2, caller := Caller.idle } := by
          rw [hup]; simp [upcoming]
        obtain ⟨p1, p2⟩ := Heap.push_spec cmpDate Entry.date keyed_cmpDate s.logheap ⟨i, l⟩ h.heap
        have hord : srt → Ordered
            (l :: upcoming { b with buffer := b.buffer.deq.2, caller := Caller.idle }) := by
          intro hsrt
          have := hsb.ordered hsrt
          rwa [hup2] at this
        have hmem : ∀ e, e ∈ Heap.push cmpDate s.logheap ⟨i, l⟩ ↔ e = ⟨i, l⟩ ∨ e ∈ s.logheap := by
          intro e; rw [p2.mem_iff]; simp
        refine
          { sources := ?_
            heap := p1
            nodup := ?_
            inRange := ?_
            noError := h.noError
            noReject := h.noReject
            sorted := h.sorted
            belowHeap := ?_
            belowSources := ?_
            count := ?_
            calls := h.calls }
        · intro k bk hk
          rcases Heap.get_set_cases _ _ _ _ _ hk with ⟨e1, e2⟩ | ⟨e1, e2⟩
          · subst e1; subst e2
            refine
              { wf := d3
                tagged := d4
                markers := hmk
                ordered := fun hsrt => (List.pairwise_cons.mp (hord hsrt)).2
                waiting := fun hc2 => by simp at hc2
                ready := fun hc2 => by simp at hc2
                noFault := hsb.noFault
                noFailed := fun e => by simp
                noRejected := hsb.noRejected
                noFailing := hsb.noFailing
                absent := fun hc2 => absurd rfl hc2
                retired := ?_
                ahead := ?_ }
            · intro _ hne
              exact absurd rfl (hne ⟨k, l⟩ ((hmem _).mpr (Or.inl rfl)))
            · intro hsrt e he hek l2 hl2
              rcases (hmem e).mp he with h1 | h1
              · subst h1
                exact (List.pairwise_cons.mp (hord hsrt)).1 l2 hl2
              · exact absurd hek (hnotin e h1)
          · refine sourceInv_other s.logheap _ i k bk (h.sources k bk e2) ?_ e1 ?_
            · intro e he
              rcases (hmem e).mp he with h1 | h1
              · right; subst h1; rfl
              · left; exact h1
            · intro e he _
              exact (hmem e).mpr (Or.inr he)
        · have := (p2.map (fun e => e.source)).nodup_iff.mpr
          apply this
          simp only [List.map_cons, List.nodup_cons]
          refine ⟨?_, h.nodup⟩
          intro hin
          obtain ⟨e, he, hes⟩ := List.mem_map.mp hin
          exact hnotin e he hes
        · intro e he
          simp only [List.length_set]
          rcases (hmem e).mp he with h1 | h1
          · subst h1; exact hilt
          · exact h.inRange e h1
        · intro hsrt l0 hl0 e he
          rcases (hmem e).mp he with h1 | h1
          · subst h1
            exact h.belowSources hsrt l0 hl0 b (mem_of_get hb) l (by rw [hup2]; simp)
          · exact h.belowHeap hsrt l0 hl0 e h1
        · intro hsrt l0 hl0 b2 hb2 l2 hl2
          rcases mem_set_cases _ _ _ _ hb2 with e1 | e1
          · subst e1
            exact h.belowSources hsrt l0 hl0 b (mem_of_get hb) l2
              (by rw [hup2]; exact List.mem_cons_of_mem _ hl2)
          · exact h.belowSources hsrt l0 hl0 b2 e1 l2 hl2
        · intro r
          have h1 := sum_map_set (fun b => (upcoming b).count r) s.sources i b
            { b with buffer := b.buffer.deq.2, caller := Caller.idle } hb
          have h2 := h.count r
          have h3 := (p2.map (fun e => e.log)).count_eq r
          simp only [hup2, List.count_cons, List.map_cons] at h1 h3
          simp only [pushToHeap]
          omega
    · rename_i e hc
      exact absurd hc (hsb.noFailed e)
    · simp at hst

end Buffered

/-! ## The buffered merge: lumbermill keeps the invariant -/

namespace Buffered

theorem sourceInv_next {srt : Prop} (H H2 : List Entry) (i : Nat) (b : BufferedSource) (h : SourceInv srt H i b)
    (hno : ∀ e ∈ H2, e.source ≠ i) :
    SourceInv srt H2 i (next b) ∧ upcoming (next b) = upcoming b := by
  have hbase : ∀ c : Caller, c ≠ Caller.idle → (c = Caller.waiting → ∃ o d, b.worker = Worker.pending o d) →
      (c = Caller.ready → b.buffer.toList ≠ []) → (∀ e, c ≠ Caller.failed e) →
      SourceInv srt H2 i { b with caller := c } := by
    intro c hc1 hc2 hc3 hc4
    exact
      { wf := h.wf
        tagged := h.tagged
        markers := h.markers
        ordered := h.ordered
        waiting := hc2
        ready := hc3
        noFault := h.noFault
        noFailed := hc4
        noRejected := h.noRejected
        noFailing := h.noFailing
        absent := fun _ => hno
        retired := fun hc => absurd hc hc1
        ahead := fun _ e he hek => absurd hek (hno e he) }
  rcases next_cases b with ⟨he, e⟩ | ⟨_, hw, e⟩ | ⟨_, ⟨o, d, hw⟩, e⟩ | ⟨_, er, hw, _⟩
  · rw [e]
    refine ⟨hbase Caller.ready (by simp) (by simp) (fun _ => ?_) (by simp), rfl⟩
    intro hnil
    have := (Queue.isEmpty_iff b.buffer h.wf).mpr hnil
    rw [he] at this
    simp at this
  · rw [e]
    obtain ⟨e1, e2, o, e3⟩ := startFetch_fields b false
    obtain ⟨s1, s2⟩ := startFetch_sound b false h.noFault
    have hu := upcoming_startFetch b false hw
    have hu2 : upcoming { startFetch b false with caller := Caller.waiting } = upcoming b := by
      rw [← hu]; rfl
    refine ⟨?_, hu2⟩
    refine
      { wf := by show (startFetch b false).buffer.WF; rw [e1]; exact h.wf
        tagged := by show ∀ w ∈ (startFetch b false).buffer.toList, _; rw [e1]; exact h.tagged
        markers := ?_
        ordered := by rw [hu2]; exact h.ordered
        waiting := fun _ => ⟨o, false, e3⟩
        ready := fun hc => by simp at hc
        noFault := s1
        noFailed := fun e => by simp
        noRejected := fun e => by show (startFetch b false).worker ≠ _; rw [e3]; simp
        noFailing := ?_
        absent := fun _ => hno
        retired := fun hc => by simp at hc
        ahead := fun _ e he hek => absurd hek (hno e he) }
    · show MarkersLast (pipe (startFetch b false))
      rcases pipe_startFetch b false hw with h1 | ⟨h1, _⟩
      · rw [h1]; exact h.markers
      · rw [h1]; exact markersLast_append_none _ h.markers
    · intro e d hc
      have hc2 : (startFetch b false).worker = Worker.pending (Outcome.fail e) d := hc
      rw [e3] at hc2
      simp only [Worker.pending.injEq] at hc2
      exact s2 e (by rw [e3, hc2.1])
  · rw [e]
    exact ⟨hbase Caller.waiting (by simp) (fun _ => ⟨o, d, hw⟩) (by simp) (by simp), rfl⟩
  · exact absurd hw (h.noRejected er)

theorem quiet_iff (s : State) : quiet s = true ↔ ∀ b ∈ s.sources, b.caller = Caller.idle := by
  simp [quiet]

theorem inv_lumbermillBody {srt : Prop} (all : List Log) (s : State) (h : Inv srt all s) (hq : quiet s = true)
    (hp : s.phase ≠ Phase.finished) : Inv srt all (lumbermillBody s) := by
  have hidle := (quiet_iff s).mp hq
  have hcalls : s.printer = (printed s.printer).map PrinterCall.print := by
    have := h.calls
    rw [if_neg hp] at this
    simpa using this
  unfold lumbermillBody
  rw [h.noError]
  dsimp only
  cases hpop : Heap.pop cmpDate s.logheap with
  | mk top rest =>
    cases top with
    | none =>
      dsimp only
      have hp1 : printed (s.printer ++ [PrinterCall.done]) = printed s.printer := by
        rw [printed_append]; simp [printed]
      refine
        { sources := h.sources
          heap := h.heap
          nodup := h.nodup
          inRange := h.inRange
          noError := rfl
          noReject := fun e => by simp
          sorted := by rw [hp1]; exact h.sorted
          belowHeap := by rw [hp1]; exact h.belowHeap
          belowSources := by rw [hp1]; exact h.belowSources
          count := by rw [hp1]; exact h.count
          calls := ?_ }
      rw [hp1]
      simp only [if_true]
      rw [← hcalls]
    | some oldest =>
      dsimp only
      have hm : (Heap.pop cmpDate s.logheap).1 = some oldest := by rw [hpop]
      obtain ⟨q1, q2, q3⟩ := Heap.pop_spec cmpDate Entry.date keyed_cmpDate s.logheap h.heap oldest hm
      rw [hpop] at q1 q2
      simp only at q1 q2
      have hmem : ∀ e, e ∈ s.logheap ↔ e = oldest ∨ e ∈ rest := by
        intro e; rw [q1.mem_iff]; simp
      have hold : oldest ∈ s.logheap := (hmem _).mpr (Or.inl rfl)
      have hnd : (oldest.source :: rest.map (fun e => e.source)).Nodup := by
        have := (q1.map (fun e => e.source)).nodup_iff.mp h.nodup
        simpa using this
      have hno : ∀ e ∈ rest, e.source ≠ oldest.source := by
        intro e he hes
        have := (List.nodup_cons.mp hnd).1
        exact this (List.mem_map.mpr ⟨e, he, hes⟩)
      have hlt := h.inRange oldest hold
      have hb : s.sources[oldest.source]? = some s.sources[oldest.source] :=
        List.getElem?_eq_getElem hlt
      rw [hb]
      dsimp only
      have hsb := h.sources _ _ hb
      obtain ⟨n1, n2⟩ := sourceInv_next s.logheap rest oldest.source _ hsb hno
      have hp1 : printed (s.printer ++ [PrinterCall.print oldest.log])
          = printed s.printer ++ [oldest.log] := by
        rw [printed_append]; simp [printed]
      refine
        { sources := ?_
          heap := q2
          nodup := (List.nodup_cons.mp hnd).2
          inRange := ?_
          noError := rfl
          noReject := fun e => by simp
          sorted := ?_
          belowHeap := ?_
          belowSources := ?_
          count := ?_
          calls := ?_ }
      · intro k bk hk
        rcases Heap.get_set_cases _ _ _ _ _ hk with ⟨e1, e2⟩ | ⟨e1, e2⟩
        · subst e1; subst e2; exact n1
        · have hk2 := h.sources k bk e2
          refine sourceInv_other s.logheap rest oldest.source k bk hk2
            (fun e he => Or.inl ((hmem e).mpr (Or.inr he))) e1 ?_
          intro e he hek
          rcases (hmem e).mp he with h1 | h1
          · subst h1; exact absurd hek.symm e1
          · exact h1
      · intro e he
        simp only [List.length_set]
        exact h.inRange e ((hmem e).mpr (Or.inr he))
      · rw [hp1]
        intro hsrt
        unfold Ordered
        rw [List.pairwise_append]
        refine ⟨h.sorted hsrt, List.pairwise_singleton _ _, ?_⟩
        intro a ha c hc
        simp at hc
        subst hc
        exact h.belowHeap hsrt a ha oldest hold
      · rw [hp1]
        intro hsrt l hl e he
        rcases List.mem_append.mp hl with h1 | h1
        · exact h.belowHeap hsrt l h1 e ((hmem e).mpr (Or.inr he))
        · simp at h1; subst h1
          exact q3 e ((hmem e).mpr (Or.inr he))
      · rw [hp1]
        intro hsrt l hl b2 hb2 l2 hl2
        have hb3 : ∃ (k : Nat) (bk : BufferedSource),
            s.sources[k]? = some bk ∧ upcoming b2 = upcoming bk := by
          rcases mem_set_cases _ _ _ _ hb2 with e1 | e1
          · exact ⟨oldest.source, s.sources[oldest.source], hb, by rw [e1, n2]⟩
          · obtain ⟨k, hk⟩ := List.getElem?_of_mem e1
            exact ⟨k, b2, hk, rfl⟩
        obtain ⟨k, bk, hk, hu⟩ := hb3
        rw [hu] at hl2
        rcases List.mem_append.mp hl with h1 | h1
        · exact h.belowSources hsrt l h1 bk (mem_of_get hk) l2 hl2
        · simp at h1; subst h1
          have hk2 := h.sources k bk hk
          by_cases hex : ∃ e ∈ s.logheap, e.source = k
          · obtain ⟨e, he, hek⟩ := hex
            have a1 := q3 e he
            have a2 := hk2.ahead hsrt e he hek l2 hl2
            simp only [Entry.date] at a1
            omega
          · have hr := hk2.retired (hidle bk (mem_of_get hk))
              (fun e he hek => hex ⟨e, he, hek⟩)
            rw [hr] at hl2
            simp at hl2
      · intro r
        have h1 := sum_map_set (fun b => (upcoming b).count r) s.sources oldest.source _
          (next s.sources[oldest.source]) hb
        have h2 := h.count r
        have h3 := (q1.map (fun e => e.log)).count_eq r
        simp only [n2] at h1
        simp only [List.map_cons, List.count_cons] at h3
        rw [hp1, List.count_append]
        simp only [List.count_cons, List.count_nil]
        omega
      · rw [hp1]
        simp only [List.map_append, List.map_cons, List.map_nil]
        rw [← hcalls]
        simp

theorem inv_step {srt : Prop} (all : List Log) (s t : State) (e : Event) (h : Inv srt all s)
    (hst : step s e = some t) : Inv srt all t := by
  cases e with
  | settle i => exact inv_settle all s t i h hst
  | resume i => exact inv_resume all s t i h hst
  | lumbermill =>
    simp only [step, lumbermill] at hst
    split at hst
    · rename_i hp
      split at hst
      · rename_i hq
        simp only [Option.some.injEq] at hst; subst hst
        exact inv_lumbermillBody all s h hq (by rw [hp]; simp)
      · simp at hst
    · rename_i hp
      split at hst
      · rename_i hq
        simp only [Option.some.injEq] at hst; subst hst
        exact inv_lumbermillBody all s h hq (by rw [hp]; simp)
      · simp at hst
    · simp at hst

end Buffered

/-! ## The buffered merge: runs -/

namespace Buffered

theorem next_fresh (ls : LogSource) :
    next { logSource := ls } = { startFetch { logSource := ls } false with caller := Caller.waiting } := by
  rcases next_cases { logSource := ls } with ⟨he, _⟩ | ⟨_, _, e⟩ | ⟨_, ⟨o, d, hw⟩, _⟩ | ⟨_, er, hw, _⟩
  · simp [Queue.isEmpty] at he
  · exact e
  · simp at hw
  · simp at hw

theorem upcoming_fresh (ls : LogSource) : upcoming (next { logSource := ls }) = ls.logs := by
  rw [next_fresh]
  have h1 := upcoming_startFetch { logSource := ls } false rfl
  have h2 : upcoming { startFetch { logSource := ls } false with caller := Caller.waiting }
      = upcoming (startFetch { logSource := ls } false) := rfl
  rw [h2, h1, upcoming_eq]
  simp [Queue.toList, Queue.walk, Worker.items]

theorem sane_fresh (ls : LogSource) : SaneSource (next { logSource := ls }) :=
  sane_next _ ⟨Queue.wf_new, fun hc => by simp at hc⟩

theorem sane_init (logSources : List LogSource) : Sane (init logSources) := by
  intro b hb
  simp only [init, List.mem_map] at hb
  obtain ⟨ls, _, e⟩ := hb
  rw [← e]
  exact sane_fresh ls

theorem sourceInv_fresh {srt : Prop} (i : Nat) (ls : LogSource) (hs : srt → Ordered ls.logs)
    (hf : ls.fault = none) : SourceInv srt [] i (next { logSource := ls }) := by
  have hu := upcoming_fresh ls
  rw [next_fresh] at hu ⊢
  obtain ⟨e1, e2, o, e3⟩ := startFetch_fields { logSource := ls } false
  obtain ⟨s1, s2⟩ := startFetch_sound { logSource := ls } false hf
  have hb : (startFetch { logSource := ls } false).buffer = Queue.new := e1
  refine
    { wf := by show (startFetch { logSource := ls } false).buffer.WF; rw [hb]; exact Queue.wf_new
      tagged := by
        show ∀ w ∈ (startFetch { logSource := ls } false).buffer.toList, _
        rw [hb]; intro w hw; simp [Queue.toList_new] at hw
      markers := ?_
      ordered := by rw [hu]; exact hs
      waiting := fun _ => ⟨o, false, e3⟩
      ready := fun hc => by simp at hc
      noFault := s1
      noFailed := fun e => by simp
      noRejected := fun e => by show (startFetch { logSource := ls } false).worker ≠ _; rw [e3]; simp
      noFailing := ?_
      absent := fun _ e he => by simp at he
      retired := fun hc => by simp at hc
      ahead := fun _ e he => by simp at he }
  · show MarkersLast (pipe (startFetch { logSource := ls } false))
    have h0 : MarkersLast (pipe { logSource := ls }) := by
      simp only [pipe, Queue.toList, Queue.walk, Worker.items, MarkersLast]
      simp only [List.map_nil, List.nil_append]
      rw [List.pairwise_map]
      exact List.pairwise_of_forall (fun _ _ h => by simp at h)
    rcases pipe_startFetch { logSource := ls } false rfl with h1 | ⟨h1, _⟩
    · rw [h1]; exact h0
    · rw [h1]; exact markersLast_append_none _ h0
  · intro e d hc
    have hc2 : (startFetch { logSource := ls } false).worker = Worker.pending (Outcome.fail e) d := hc
    rw [e3] at hc2
    simp only [Worker.pending.injEq] at hc2
    exact s2 e (by rw [e3, hc2.1])

theorem count_init (r : Log) (logSources : List LogSource) :
    ((logSources.map (fun ls => next { logSource := ls })).map
      (fun b => (upcoming b).count r)).sum = (allLogs logSources).count r := by
  induction logSources with
  | nil => rfl
  | cons ls rest ih =>
    simp only [List.map_cons, List.sum_cons, allLogs, List.count_append, upcoming_fresh]
    rw [ih]

theorem inv_init {srt : Prop} (logSources : List LogSource)
    (hs : srt → ∀ ls ∈ logSources, Ordered ls.logs)
    (hf : ∀ ls ∈ logSources, ls.fault = none) : Inv srt (allLogs logSources) (init logSources) := by
  refine
    { sources := ?_
      heap := fun i x p _ hx => by simp [init] at hx
      nodup := by simp [init]
      inRange := fun e he => by simp [init] at he
      noError := rfl
      noReject := fun e => by simp [init]
      sorted := fun _ => by simp [init, printed, Ordered]
      belowHeap := fun _ l hl => by simp [init, printed] at hl
      belowSources := fun _ l hl => by simp [init, printed] at hl
      count := ?_
      calls := by simp [init, printed] }
  · intro i b hb
    simp only [init, List.getElem?_map, Option.map_eq_some'] at hb
    obtain ⟨ls, hl, e⟩ := hb
    rw [← e]
    have hm := mem_of_get hl
    exact sourceInv_fresh i ls (fun hsrt => hs hsrt ls hm) (hf ls hm)
  · intro r
    have := count_init r logSources
    simp only [init, printed, List.count_nil, List.map_nil, zero_add]
    exact this

theorem run_append (s : State) (a b : List Event) :
    run s (a ++ b) = (run s a).bind (fun t => run t b) := by
  induction a generalizing s with
  | nil => rfl
  | cons e rest ih =>
    simp only [List.cons_append, run]
    cases step s e with
    | none => rfl
    | some t => exact ih t

theorem inv_run {srt : Prop} (all : List Log) (evs : List Event) :
    ∀ (s t : State), Inv srt all s → run s evs = some t → Inv srt all t := by
  induction evs with
  | nil => intro s t h hr; simp [run] at hr; subst hr; exact h
  | cons e rest ih =>
    intro s t h hr
    simp only [run] at hr
    cases hst : step s e with
    | none => rw [hst] at hr; simp at hr
    | some u => rw [hst] at hr; exact ih u t (inv_step all s u e h hst) hr

theorem sane_run (evs : List Event) :
    ∀ (s t : State), Sane s → run s evs = some t → Sane t := by
  induction evs with
  | nil => intro s t h hr; simp [run] at hr; subst hr; exact h
  | cons e rest ih =>
    intro s t h hr
    simp only [run] at hr
    cases hst : step s e with
    | none => rw [hst] at hr; simp at hr
    | some u => rw [hst] at hr; exact ih u t (sane_step s u e h hst) hr

theorem run_length (evs : List Event) :
    ∀ (s t : State), Sane s → run s evs = some t → evs.length + potential t ≤ potential s := by
  induction evs with
  | nil => intro s t _ hr; simp [run] at hr; subst hr; simp
  | cons e rest ih =>
    intro s t h hr
    simp only [run] at hr
    cases hst : step s e with
    | none => rw [hst] at hr; simp at hr
    | some u =>
      rw [hst] at hr
      have h1 := ih u t (sane_step s u e h hst) hr
      have h2 := (potential_step s u e h hst).1
      simp only [List.length_cons]
      omega

theorem can_settle (n : Nat) :
    ∀ (s : State), potential s ≤ n → Sane s →
      ∃ evs t, run s evs = some t ∧ Phase.active t.phase = false := by
  induction n with
  | zero =>
    intro s hn h
    cases hact : Phase.active s.phase with
    | false => exact ⟨[], s, rfl, hact⟩
    | true =>
      obtain ⟨e, t, hst⟩ := progress s h hact
      have := (potential_step s t e h hst).1
      omega
  | succ k ih =>
    intro s hn h
    cases hact : Phase.active s.phase with
    | false => exact ⟨[], s, rfl, hact⟩
    | true =>
      obtain ⟨e, t, hst⟩ := progress s h hact
      have hlt := (potential_step s t e h hst).1
      obtain ⟨evs, u, hr, hu⟩ := ih t (by omega) (sane_step s t e h hst)
      exact ⟨e :: evs, u, by simp [run, hst, hr], hu⟩

end Buffered

/-! ## The slow implementation: termination and runs without a failing fetch -/

namespace Slow

theorem upcoming_popLogSource (b : Source) (h : b.fetch = none) :
    upcoming (popLogSource b) = upcoming b := by
  unfold upcoming popLogSource LogSource.popAsync
  rw [h]
  cases hl : b.logSource.logs with
  | cons l rest => simp [inFlight]
  | nil => cases hf : b.logSource.fault <;> simp [inFlight, hl]

theorem popLogSource_sound (b : Source) (hf : b.logSource.fault = none) :
    (popLogSource b).logSource.fault = none ∧ (∀ e, (popLogSource b).fetch ≠ some (Outcome.fail e)) ∧
      ((popLogSource b).fetch = some Outcome.empty → (popLogSource b).logSource.logs = []) ∧
      (popLogSource b).fetch ≠ none := by
  unfold popLogSource LogSource.popAsync
  cases hl : b.logSource.logs with
  | cons l rest => simp [hf]
  | nil => simp [hf]

theorem slow_potential_reject (s : State) (e : Err) : potential (reject s e) ≤ potential s := by
  unfold reject potential
  split <;> simp [Phase.active]

theorem load_settled (b : Source) (o : Outcome) (hf : b.fetch = some o) :
    load { b with fetch := none } + 1 + 2 * (inFlight (some o)).length = load b := by
  unfold load upcoming
  simp only [hf, busy, List.length_append]
  cases o <;> simp [inFlight]
  all_goals omega

theorem load_popLogSource (b : Source) : load (popLogSource b) ≤ load b + 1 := by
  unfold load upcoming popLogSource LogSource.popAsync
  cases hl : b.logSource.logs with
  | cons l rest =>
    cases b.fetch <;> simp [inFlight, busy]
    all_goals omega
  | nil => cases hf : b.logSource.fault <;> simp [inFlight, busy, hl]

theorem slow_potential_step (s t : State) (e : Event) (hst : step s e = some t) :
    potential t < potential s := by
  cases e with
  | settle i =>
    simp only [step, settle] at hst
    split at hst
    · simp at hst
    · rename_i b hb
      have hsum := Buffered.sum_map_set load s.sources i b { b with fetch := none } hb
      split at hst
      · simp at hst
      · rename_i l hf
        simp only [Option.some.injEq] at hst
        subst hst
        have hl := load_settled b _ hf
        simp only [inFlight, List.length_cons, List.length_nil] at hl
        unfold potential
        simp only [Buffered.length_push]
        omega
      · rename_i hf
        simp only [Option.some.injEq] at hst
        subst hst
        have hl := load_settled b _ hf
        unfold potential
        dsimp only
        omega
      · rename_i e hf
        simp only [Option.some.injEq] at hst
        subst hst
        have hl := load_settled b _ hf
        have h1 := slow_potential_reject { s with sources := s.sources.set i { b with fetch := none } } e
        have h2 : potential { s with sources := s.sources.set i { b with fetch := none } } + 1
            ≤ potential s := by
          unfold potential
          dsimp only
          omega
        omega
  | printOldestLog =>
    have hbody : Phase.active s.phase = true → potential (printOldestLogBody s) < potential s := by
      intro hact
      unfold printOldestLogBody
      split
      · unfold potential
        dsimp only
        rw [hact]
        simp [Phase.active]
      · rename_i oldest rest hpop
        have hlen := Buffered.length_pop cmpDate s.logheap oldest (by rw [hpop])
        rw [hpop] at hlen
        simp only at hlen
        dsimp only
        split
        · unfold potential
          dsimp only
          rw [hact]
          simp only [Phase.active]
          omega
        · rename_i b hb
          have hsum := Buffered.sum_map_set load s.sources oldest.source b (popLogSource b) hb
          have hl := load_popLogSource b
          unfold potential
          dsimp only
          rw [hact]
          simp only [Phase.active]
          omega
    simp only [step, printOldestLog] at hst
    split at hst
    · rename_i hp
      split at hst
      · simp only [Option.some.injEq] at hst; subst hst; exact hbody (by rw [hp]; rfl)
      · simp at hst
    · rename_i hp
      split at hst
      · simp only [Option.some.injEq] at hst; subst hst; exact hbody (by rw [hp]; rfl)
      · simp at hst
    · simp at hst

theorem slow_progress (s : State) (hact : Phase.active s.phase = true) :
    ∃ e t, step s e = some t := by
  by_cases hq : quiet s = true
  · refine ⟨Event.printOldestLog, printOldestLogBody s, ?_⟩
    simp only [step, printOldestLog]
    cases hp : s.phase <;> simp [hp, Phase.active, hq] at hact ⊢
  · simp only [quiet, List.all_eq_true, decide_eq_true_eq, not_forall] at hq
    obtain ⟨b, hb, hc⟩ := hq
    obtain ⟨i, hi⟩ := List.getElem?_of_mem hb
    refine ⟨Event.settle i, ?_⟩
    simp only [step, settle, hi]
    cases hf : b.fetch with
    | none => exact absurd hf hc
    | some o => cases o <;> simp

theorem slow_run_length (evs : List Event) :
    ∀ (s t : State), run s evs = some t → evs.length + potential t ≤ potential s := by
  induction evs with
  | nil => intro s t hr; simp [run] at hr; subst hr; simp
  | cons e rest ih =>
    intro s t hr
    simp only [run] at hr
    cases hst : step s e with
    | none => rw [hst] at hr; simp at hr
    | some u =>
      rw [hst] at hr
      have h1 := ih u t hr
      have h2 := slow_potential_step s u e hst
      simp only [List.length_cons]
      omega

theorem slow_can_settle (n : Nat) :
    ∀ (s : State), potential s ≤ n →
      ∃ evs t, run s evs = some t ∧ Phase.active t.phase = false := by
  induction n with
  | zero =>
    intro s hn
    cases hact : Phase.active s.phase with
    | false => exact ⟨[], s, rfl, hact⟩
    | true =>
      obtain ⟨e, t, hst⟩ := slow_progress s hact
      have := slow_potential_step s t e hst
      omega
  | succ k ih =>
    intro s hn
    cases hact : Phase.active s.phase with
    | false => exact ⟨[], s, rfl, hact⟩
    | true =>
      obtain ⟨e, t, hst⟩ := slow_progress s hact
      have hlt := slow_potential_step s t e hst
      obtain ⟨evs, u, hr, hu⟩ := ih t (by omega)
      exact ⟨e :: evs, u, by simp [run, hst, hr], hu⟩

theorem slow_sourceInv_other {srt : Prop} (H H2 : List Entry) (i k : Nat) (b : Source)
    (h : SourceInv srt H k b) (hsub : ∀ e ∈ H2, e ∈ H ∨ e.source = i) (hki : k ≠ i)
    (hsup : ∀ e ∈ H, e.source = k → e ∈ H2) : SourceInv srt H2 k b := by
  refine
    { ordered := h.ordered
      noFault := h.noFault
      noFailing := h.noFailing
      drained := h.drained
      absent := ?_
      retired := ?_
      ahead := ?_ }
  · intro hc e he hek
    rcases hsub e he with h1 | h1
    · exact h.absent hc e h1 hek
    · exact hki (hek ▸ h1)
  · intro hc hne
    refine h.retired hc (fun e he hek => hne e (hsup e he hek) hek)
  · intro hsrt e he hek l hl
    rcases hsub e he with h1 | h1
    · exact h.ahead hsrt e h1 hek l hl
    · exact absurd (hek ▸ h1) hki

theorem slow_inv_settle {srt : Prop} (all : List Log) (s t : State) (i : Nat) (h : Inv srt all s)
    (hst : settle s i = some t) : Inv srt all t := by
  simp only [settle] at hst
  split at hst
  · simp at hst
  · rename_i b hb
    have hsb := h.sources i b hb
    have hilt : i < s.sources.length := Heap.lt_length_of_get hb
    split at hst
    · simp at hst
    · rename_i l hf
      simp only [Option.some.injEq] at hst
      subst hst
      have hnotin : ∀ e ∈ s.logheap, e.source ≠ i := hsb.absent (by rw [hf]; simp)
      have hup : upcoming b = l :: upcoming { b with fetch := none } := by
        simp [upcoming, hf, inFlight]
      obtain ⟨p1, p2⟩ := Heap.push_spec cmpDate Entry.date Buffered.keyed_cmpDate s.logheap ⟨i, l⟩
        h.heap
      have hord : srt → Ordered (l :: upcoming { b with fetch := none }) := by
        intro hsrt
        have := hsb.ordered hsrt
        rwa [hup] at this
      have hmem : ∀ e, e ∈ Heap.push cmpDate s.logheap ⟨i, l⟩ ↔ e = ⟨i, l⟩ ∨ e ∈ s.logheap := by
        intro e; rw [p2.mem_iff]; simp
      refine
        { sources := ?_
          heap := p1
          nodup := ?_
          inRange := ?_
          noReject := h.noReject
          sorted := h.sorted
          belowHeap := ?_
          belowSources := ?_
          count := ?_
          calls := h.calls }
      · intro k bk hk
        rcases Heap.get_set_cases _ _ _ _ _ hk with ⟨e1, e2⟩ | ⟨e1, e2⟩
        · subst e1; subst e2
          refine
            { ordered := fun hsrt => (List.pairwise_cons.mp (hord hsrt)).2
              noFault := hsb.noFault
              noFailing := fun e => by simp
              drained := fun hc => by simp at hc
              absent := fun hc => absurd rfl hc
              retired := ?_
              ahead := ?_ }
          · intro _ hne
            exact absurd rfl (hne ⟨k, l⟩ ((hmem _).mpr (Or.inl rfl)))
          · intro hsrt e he hek l2 hl2
            rcases (hmem e).mp he with h1 | h1
            · subst h1
              exact (List.pairwise_cons.mp (hord hsrt)).1 l2 hl2
            · exact absurd hek (hnotin e h1)
        · refine slow_sourceInv_other s.logheap _ i k bk (h.sources k bk e2) ?_ e1 ?_
          · intro e he
            rcases (hmem e).mp he with h1 | h1
            · right; subst h1; rfl
            · left; exact h1
          · intro e he _
            exact (hmem e).mpr (Or.inr he)
      · have := (p2.map (fun e => e.source)).nodup_iff.mpr
        apply this
        simp only [List.map_cons, List.nodup_cons]
        refine ⟨?_, h.nodup⟩
        intro hin
        obtain ⟨e, he, hes⟩ := List.mem_map.mp hin
        exact hnotin e he hes
      · intro e he
        simp only [List.length_set]
        rcases (hmem e).mp he with h1 | h1
        · subst h1; exact hilt
        · exact h.inRange e h1
      · intro hsrt l0 hl0 e he
        rcases (hmem e).mp he with h1 | h1
        · subst h1
          exact h.belowSources hsrt l0 hl0 b (Buffered.mem_of_get hb) l (by rw [hup]; simp)
        · exact h.belowHeap hsrt l0 hl0 e h1
      · intro hsrt l0 hl0 b2 hb2 l2 hl2
        rcases Buffered.mem_set_cases _ _ _ _ hb2 with e1 | e1
        · subst e1
          exact h.belowSources hsrt l0 hl0 b (Buffered.mem_of_get hb) l2
            (by rw [hup]; exact List.mem_cons_of_mem _ hl2)
        · exact h.belowSources hsrt l0 hl0 b2 e1 l2 hl2
      · intro r
        have h1 := Buffered.sum_map_set (fun b => (upcoming b).count r) s.sources i b
          { b with fetch := none } hb
        have h2 := h.count r
        have h3 := (p2.map (fun e => e.log)).count_eq r
        simp only [hup, List.count_cons, List.map_cons] at h1 h3
        dsimp only
        omega
    · rename_i hf
      simp only [Option.some.injEq] at hst
      subst hst
      have hlogs := hsb.drained hf
      have hup : upcoming b = [] := by simp [upcoming, hf, inFlight, hlogs]
      have hup2 : upcoming { b with fetch := none } = [] := by simp [upcoming, inFlight, hlogs]
      refine
        { sources := ?_
          heap := h.heap
          nodup := h.nodup
          inRange := fun e he => by simpa using h.inRange e he
          noReject := h.noReject
          sorted := h.sorted
          belowHeap := h.belowHeap
          belowSources := ?_
          count := ?_
          calls := h.calls }
      · intro k bk hk
        rcases Heap.get_set_cases _ _ _ _ _ hk with ⟨e1, e2⟩ | ⟨_, e2⟩
        · subst e1; subst e2
          exact
            { ordered := fun _ => by rw [hup2]; exact List.Pairwise.nil
              noFault := hsb.noFault
              noFailing := fun e => by simp
              drained := fun hc => by simp at hc
              absent := fun hc => absurd rfl hc
              retired := fun _ _ => hup2
              ahead := fun _ e _ _ l hl => by rw [hup2] at hl; simp at hl }
        · exact h.sources k bk e2
      · intro hsrt l hl b2 hb2 l2 hl2
        rcases Buffered.mem_set_cases _ _ _ _ hb2 with e1 | e1
        · subst e1; rw [hup2] at hl2; simp at hl2
        · exact h.belowSources hsrt l hl b2 e1 l2 hl2
      · intro r
        have h1 := Buffered.sum_map_set (fun b => (upcoming b).count r) s.sources i b
          { b with fetch := none } hb
        have h2 := h.count r
        simp only [hup, hup2] at h1
        dsimp only
        omega
    · rename_i e hf
      exact absurd hf (hsb.noFailing e)

theorem slow_quiet_iff (s : State) : quiet s = true ↔ ∀ b ∈ s.sources, b.fetch = none := by
  simp [quiet]

theorem inv_printOldestLogBody {srt : Prop} (all : List Log) (s : State) (h : Inv srt all s)
    (hq : quiet s = true) (hp : s.phase ≠ Phase.finished) : Inv srt all (printOldestLogBody s) := by
  have hidle := (slow_quiet_iff s).mp hq
  have hcalls : s.printer = (printed s.printer).map PrinterCall.print := by
    have := h.calls
    rw [if_neg hp] at this
    simpa using this
  unfold printOldestLogBody
  cases hpop : Heap.pop cmpDate s.logheap with
  | mk top rest =>
    cases top with
    | none =>
      dsimp only
      have hp1 : printed (s.printer ++ [PrinterCall.done]) = printed s.printer := by
        rw [Buffered.printed_append]; simp [printed]
      refine
        { sources := h.sources
          heap := h.heap
          nodup := h.nodup
          inRange := h.inRange
          noReject := fun e => by simp
          sorted := by rw [hp1]; exact h.sorted
          belowHeap := by rw [hp1]; exact h.belowHeap
          belowSources := by rw [hp1]; exact h.belowSources
          count := by rw [hp1]; exact h.count
          calls := ?_ }
      rw [hp1]
      simp only [if_true]
      rw [← hcalls]
    | some oldest =>
      dsimp only
      have hm : (Heap.pop cmpDate s.logheap).1 = some oldest := by rw [hpop]
      obtain ⟨q1, q2, q3⟩ := Heap.pop_spec cmpDate Entry.date Buffered.keyed_cmpDate s.logheap
        h.heap oldest hm
      rw [hpop] at q1 q2
      simp only at q1 q2
      have hmem : ∀ e, e ∈ s.logheap ↔ e = oldest ∨ e ∈ rest := by
        intro e; rw [q1.mem_iff]; simp
      have hold : oldest ∈ s.logheap := (hmem _).mpr (Or.inl rfl)
      have hnd : (oldest.source :: rest.map (fun e => e.source)).Nodup := by
        have := (q1.map (fun e => e.source)).nodup_iff.mp h.nodup
        simpa using this
      have hno : ∀ e ∈ rest, e.source ≠ oldest.source := by
        intro e he hes
        have := (List.nodup_cons.mp hnd).1
        exact this (List.mem_map.mpr ⟨e, he, hes⟩)
      have hlt := h.inRange oldest hold
      have hb : s.sources[oldest.source]? = some s.sources[oldest.source] :=
        List.getElem?_eq_getElem hlt
      rw [hb]
      dsimp only
      have hsb := h.sources _ _ hb
      have hfn : s.sources[oldest.source].fetch = none := hidle _ (Buffered.mem_of_get hb)
      have n2 := upcoming_popLogSource s.sources[oldest.source] hfn
      obtain ⟨s1, s2, s3, s4⟩ := popLogSource_sound s.sources[oldest.source] hsb.noFault
      have n1 : SourceInv srt rest oldest.source (popLogSource s.sources[oldest.source]) :=
        { ordered := by rw [n2]; exact hsb.ordered
          noFault := s1
          noFailing := s2
          drained := s3
          absent := fun _ => hno
          retired := fun hc => absurd hc s4
          ahead := fun _ e he hek => absurd hek (hno e he) }
      have hp1 : printed (s.printer ++ [PrinterCall.print oldest.log])
          = printed s.printer ++ [oldest.log] := by
        rw [Buffered.printed_append]; simp [printed]
      refine
        { sources := ?_
          heap := q2
          nodup := (List.nodup_cons.mp hnd).2
          inRange := ?_
          noReject := fun e => by simp
          sorted := ?_
          belowHeap := ?_
          belowSources := ?_
          count := ?_
          calls := ?_ }
      · intro k bk hk
        rcases Heap.get_set_cases _ _ _ _ _ hk with ⟨e1, e2⟩ | ⟨e1, e2⟩
        · subst e1; subst e2; exact n1
        · have hk2 := h.sources k bk e2
          refine slow_sourceInv_other s.logheap rest oldest.source k bk hk2
            (fun e he => Or.inl ((hmem e).mpr (Or.inr he))) e1 ?_
          intro e he hek
          rcases (hmem e).mp he with h1 | h1
          · subst h1; exact absurd hek.symm e1
          · exact h1
      · intro e he
        simp only [List.length_set]
        exact h.inRange e ((hmem e).mpr (Or.inr he))
      · rw [hp1]
        intro hsrt
        unfold Ordered
        rw [List.pairwise_append]
        refine ⟨h.sorted hsrt, List.pairwise_singleton _ _, ?_⟩
        intro a ha c hc
        simp at hc
        subst hc
        exact h.belowHeap hsrt a ha oldest hold
      · rw [hp1]
        intro hsrt l hl e he
        rcases List.mem_append.mp hl with h1 | h1
        · exact h.belowHeap hsrt l h1 e ((hmem e).mpr (Or.inr he))
        · simp at h1; subst h1
          exact q3 e ((hmem e).mpr (Or.inr he))
      · rw [hp1]
        intro hsrt l hl b2 hb2 l2 hl2
        have hb3 : ∃ (k : Nat) (bk : Source),
            s.sources[k]? = some bk ∧ upcoming b2 = upcoming bk := by
          rcases Buffered.mem_set_cases _ _ _ _ hb2 with e1 | e1
          · exact ⟨oldest.source, s.sources[oldest.source], hb, by rw [e1, n2]⟩
          · obtain ⟨k, hk⟩ := List.getElem?_of_mem e1
            exact ⟨k, b2, hk, rfl⟩
        obtain ⟨k, bk, hk, hu⟩ := hb3
        rw [hu] at hl2
        rcases List.mem_append.mp hl with h1 | h1
        · exact h.belowSources hsrt l h1 bk (Buffered.mem_of_get hk) l2 hl2
        · simp at h1; subst h1
          have hk2 := h.sources k bk hk
          by_cases hex : ∃ e ∈ s.logheap, e.source = k
          · obtain ⟨e, he, hek⟩ := hex
            have a1 := q3 e he
            have a2 := hk2.ahead hsrt e he hek l2 hl2
            simp only [Entry.date] at a1
            omega
          · have hr := hk2.retired (hidle bk (Buffered.mem_of_get hk))
              (fun e he hek => hex ⟨e, he, hek⟩)
            rw [hr] at hl2
            simp at hl2
      · intro r
        have h1 := Buffered.sum_map_set (fun b => (upcoming b).count r) s.sources oldest.source _
          (popLogSource s.sources[oldest.source]) hb
        have h2 := h.count r
        have h3 := (q1.map (fun e => e.log)).count_eq r
        simp only [n2] at h1
        simp only [List.map_cons, List.count_cons] at h3
        rw [hp1, List.count_append]
        simp only [List.count_cons, List.count_nil]
        omega
      · rw [hp1]
        simp only [List.map_append, List.map_cons, List.map_nil]
        rw [← hcalls]
        simp

theorem slow_inv_step {srt : Prop} (all : List Log) (s t : State) (e : Event) (h : Inv srt all s)
    (hst : step s e = some t) : Inv srt all t := by
  cases e with
  | settle i => exact slow_inv_settle all s t i h hst
  | printOldestLog =>
    simp only [step, printOldestLog] at hst
    split at hst
    · rename_i hp
      split at hst
      · rename_i hq
        simp only [Option.some.injEq] at hst; subst hst
        exact inv_printOldestLogBody all s h hq (by rw [hp]; simp)
      · simp at hst
    · rename_i hp
      split at hst
      · rename_i hq
        simp only [Option.some.injEq] at hst; subst hst
        exact inv_printOldestLogBody all s h hq (by rw [hp]; simp)
      · simp at hst
    · simp at hst

theorem slow_upcoming_fresh (ls : LogSource) : upcoming (popLogSource { logSource := ls }) = ls.logs := by
  rw [upcoming_popLogSource _ rfl]
  simp [upcoming, inFlight]

theorem slow_count_init (r : Log) (logSources : List LogSource) :
    ((logSources.map (fun ls => popLogSource { logSource := ls })).map
      (fun b => (upcoming b).count r)).sum = (allLogs logSources).count r := by
  induction logSources with
  | nil => rfl
  | cons ls rest ih =>
    simp only [List.map_cons, List.sum_cons, allLogs, List.count_append, slow_upcoming_fresh]
    rw [ih]

theorem slow_inv_init {srt : Prop} (logSources : List LogSource)
    (hs : srt → ∀ ls ∈ logSources, Ordered ls.logs)
    (hf : ∀ ls ∈ logSources, ls.fault = none) : Inv srt (allLogs logSources) (init logSources) := by
  refine
    { sources := ?_
      heap := fun i x p _ hx => by simp [init] at hx
      nodup := by simp [init]
      inRange := fun e he => by simp [init] at he
      noReject := fun e => by simp [init]
      sorted := fun _ => by simp [init, printed, Ordered]
      belowHeap := fun _ l hl => by simp [init, printed] at hl
      belowSources := fun _ l hl => by simp [init, printed] at hl
      count := ?_
      calls := by simp [init, printed] }
  · intro i b hb
    simp only [init, List.getElem?_map, Option.map_eq_some'] at hb
    obtain ⟨ls, hl, e⟩ := hb
    rw [← e]
    have hm := Buffered.mem_of_get hl
    obtain ⟨s1, s2, s3, s4⟩ := popLogSource_sound { logSource := ls } (hf ls hm)
    exact
      { ordered := fun hsrt => by rw [slow_upcoming_fresh]; exact hs hsrt ls hm
        noFault := s1
        noFailing := s2
        drained := s3
        absent := fun _ e he => by simp [init] at he
        retired := fun hc => absurd hc s4
        ahead := fun _ e he => by simp [init] at he }
  · intro r
    have := slow_count_init r logSources
    simp only [init, printed, List.count_nil, List.map_nil, zero_add]
    exact this

theorem slow_inv_run {srt : Prop} (all : List Log) (evs : List Event) :
    ∀ (s t : State), Inv srt all s → run s evs = some t → Inv srt all t := by
  induction evs with
  | nil => intro s t h hr; simp [run] at hr; subst hr; exact h
  | cons e rest ih =>
    intro s t h hr
    simp only [run] at hr
    cases hst : step s e with
    | none => rw [hst] at hr; simp at hr
    | some u => rw [hst] at hr; exact ih u t (slow_inv_step all s u e h hst) hr

end Slow

/-! ## The state a schedule leads to -/

namespace Buffered

theorem run_outcome (logSources : List LogSource) (evs : List Event)
    (h : (run (init logSources) evs).isSome = true) :
    run (init logSources) evs = some (outcome logSources evs) := by
  unfold outcome
  cases hr : run (init logSources) evs with
  | none => rw [hr] at h; simp at h
  | some s => rfl

end Buffered

namespace Slow

theorem slow_run_outcome (logSources : List LogSource) (evs : List Event)
    (h : (run (init logSources) evs).isSome = true) :
    run (init logSources) evs = some (outcome logSources evs) := by
  unfold outcome
  cases hr : run (init logSources) evs with
  | none => rw [hr] at h; simp at h
  | some s => rfl

end Slow


/-! ## The buffered merge: nothing is left when it finishes -/

namespace Buffered

theorem emptied_step {srt : Prop} (all : List Log) (s t : State) (e : Event)
    (h : Inv srt all s) (hfin : Emptied s) (hst : step s e = some t) : Emptied t := by
  cases e with
  | settle i =>
    simp only [step, settle] at hst
    split at hst
    · simp at hst
    · rename_i b hb
      have hsb := h.sources i b hb
      have hkey : ∀ (o : Outcome) (d : Bool) (v : Option Log), b.worker = Worker.pending o d →
          Outcome.value o = some v →
          Emptied
            { s with
              sources := s.sources.set i (onFetched s.error s.liveSourceCount i (notify b o) v) } := by
        intro o d v hw hv hp
        obtain ⟨h1, h2⟩ := hfin hp
        refine ⟨h1, ?_⟩
        intro b2 hb2
        rcases mem_set_cases _ _ _ _ hb2 with e1 | e1
        · subst e1
          obtain ⟨_, _, f3, _⟩ := onFetched_fields s.error s.liveSourceCount i (notify b o) v
            hsb.wf hsb.noFault
          rw [upcoming_onFetched s.error s.liveSourceCount i b o d v hsb.wf hw hv, f3]
          have := h2 b (mem_of_get hb)
          exact ⟨this.1, (wake_eq_idle _ _).mpr this.2⟩
        · exact h2 b2 e1
      split at hst
      · rename_i e d hw
        exact absurd hw (hsb.noFailing e d)
      · rename_i l d hw
        simp only [Option.some.injEq] at hst
        subst hst
        exact hkey (Outcome.log l) d (some l) hw rfl
      · rename_i d hw
        simp only [Option.some.injEq] at hst
        subst hst
        exact hkey Outcome.empty d none hw rfl
      · simp at hst
  | resume i =>
    simp only [step, resume] at hst
    split at hst
    · simp at hst
    · rename_i b hb
      have hsb := h.sources i b hb
      split at hst
      · rename_i hc
        simp only [Option.some.injEq] at hst
        subst hst
        intro hp
        have := ((hfin hp).2 b (mem_of_get hb)).2
        rw [hc] at this
        simp at this
      · rename_i e hc
        exact absurd hc (hsb.noFailed e)
      · simp at hst
  | lumbermill =>
    have hbody : quiet s = true → Emptied (lumbermillBody s) := by
      intro hq
      have hidle := (quiet_iff s).mp hq
      unfold lumbermillBody
      rw [h.noError]
      dsimp only
      cases hpop : Heap.pop cmpDate s.logheap with
      | mk top rest =>
        cases top with
        | none =>
          dsimp only
          intro _
          have hnil : s.logheap = [] := (Heap.pop_eq_none cmpDate s.logheap).mp (by rw [hpop])
          refine ⟨hnil, fun b hb => ?_⟩
          obtain ⟨k, hk⟩ := List.getElem?_of_mem hb
          have hc := hidle b hb
          exact ⟨(h.sources k b hk).retired hc (by rw [hnil]; simp), hc⟩
        | some oldest =>
          dsimp only
          split
          · intro hp; simp at hp
          · intro hp; simp at hp
    simp only [step, lumbermill] at hst
    split at hst
    · split at hst
      · rename_i hq
        simp only [Option.some.injEq] at hst; subst hst; exact hbody hq
      · simp at hst
    · split at hst
      · rename_i hq
        simp only [Option.some.injEq] at hst; subst hst; exact hbody hq
      · simp at hst
    · simp at hst

theorem emptied_run {srt : Prop} (all : List Log) (evs : List Event) :
    ∀ (s t : State), Inv srt all s → Emptied s → run s evs = some t → Emptied t := by
  induction evs with
  | nil => intro s t _ h hr; simp [run] at hr; subst hr; exact h
  | cons e rest ih =>
    intro s t h hfin hr
    simp only [run] at hr
    cases hst : step s e with
    | none => rw [hst] at hr; simp at hr
    | some u =>
      rw [hst] at hr
      exact ih u t (inv_step all s u e h hst) (emptied_step all s u e h hfin hst) hr

theorem printed_perm {srt : Prop} (all : List Log) (s : State) (h : Inv srt all s)
    (hfin : Emptied s) (hp : s.phase = Phase.finished) : List.Perm (printed s.printer) all := by
  obtain ⟨h1, h2⟩ := hfin hp
  rw [List.perm_iff_count]
  intro r
  have hc := h.count r
  have hz : (s.sources.map (fun b => (upcoming b).count r)).sum = 0 := by
    apply List.sum_eq_zero
    intro x hx
    obtain ⟨b, hb, e⟩ := List.mem_map.mp hx
    rw [← e, (h2 b hb).1]
    rfl
  rw [h1, hz] at hc
  simpa using hc

theorem active_of_not_finished {srt : Prop} (all : List Log) (s : State) (h : Inv srt all s)
    (hp : s.phase ≠ Phase.finished) : Phase.active s.phase = true := by
  cases hph : s.phase with
  | priming => rfl
  | draining => rfl
  | finished => exact absurd hph hp
  | rejected e => exact absurd hph (h.noReject e)

end Buffered

/-! ## The slow implementation: nothing is left when it finishes -/

namespace Slow

theorem slow_emptied_step {srt : Prop} (all : List Log) (s t : State) (e : Event)
    (h : Inv srt all s) (hfin : Emptied s) (hst : step s e = some t) : Emptied t := by
  cases e with
  | settle i =>
    simp only [step, settle] at hst
    split at hst
    · simp at hst
    · rename_i b hb
      have hcontra : ∀ o, b.fetch = some o → s.phase ≠ Phase.finished := by
        intro o ho hp
        have := ((hfin hp).2 b (Buffered.mem_of_get hb)).2
        rw [ho] at this
        simp at this
      split at hst
      · simp at hst
      · rename_i l hf
        simp only [Option.some.injEq] at hst
        subst hst
        intro hp
        exact absurd hp (hcontra _ hf)
      · rename_i hf
        simp only [Option.some.injEq] at hst
        subst hst
        intro hp
        exact absurd hp (hcontra _ hf)
      · rename_i e hf
        exact absurd hf ((h.sources i b hb).noFailing e)
  | printOldestLog =>
    have hbody : quiet s = true → Emptied (printOldestLogBody s) := by
      intro hq
      have hidle := (slow_quiet_iff s).mp hq
      unfold printOldestLogBody
      cases hpop : Heap.pop cmpDate s.logheap with
      | mk top rest =>
        cases top with
        | none =>
          dsimp only
          intro _
          have hnil : s.logheap = [] := (Heap.pop_eq_none cmpDate s.logheap).mp (by rw [hpop])
          refine ⟨hnil, fun b hb => ?_⟩
          obtain ⟨k, hk⟩ := List.getElem?_of_mem hb
          have hc := hidle b hb
          exact ⟨(h.sources k b hk).retired hc (by rw [hnil]; simp), hc⟩
        | some oldest =>
          dsimp only
          split
          · intro hp; simp at hp
          · intro hp; simp at hp
    simp only [step, printOldestLog] at hst
    split at hst
    · split at hst
      · rename_i hq
        simp only [Option.some.injEq] at hst; subst hst; exact hbody hq
      · simp at hst
    · split at hst
      · rename_i hq
        simp only [Option.some.injEq] at hst; subst hst; exact hbody hq
      · simp at hst
    · simp at hst

theorem slow_emptied_run {srt : Prop} (all : List Log) (evs : List Event) :
    ∀ (s t : State), Inv srt all s → Emptied s → run s evs = some t → Emptied t := by
  induction evs with
  | nil => intro s t _ h hr; simp [run] at hr; subst hr; exact h
  | cons e rest ih =>
    intro s t h hfin hr
    simp only [run] at hr
    cases hst : step s e with
    | none => rw [hst] at hr; simp at hr
    | some u =>
      rw [hst] at hr
      exact ih u t (slow_inv_step all s u e h hst) (slow_emptied_step all s u e h hfin hst) hr

theorem slow_printed_perm {srt : Prop} (all : List Log) (s : State) (h : Inv srt all s)
    (hfin : Emptied s) (hp : s.phase = Phase.finished) : List.Perm (printed s.printer) all := by
  obtain ⟨h1, h2⟩ := hfin hp
  rw [List.perm_iff_count]
  intro r
  have hc := h.count r
  have hz : (s.sources.map (fun b => (upcoming b).count r)).sum = 0 := by
    apply List.sum_eq_zero
    intro x hx
    obtain ⟨b, hb, e⟩ := List.mem_map.mp hx
    rw [← e, (h2 b hb).1]
    rfl
  rw [h1, hz] at hc
  simpa using hc

theorem slow_active_of_not_finished {srt : Prop} (all : List Log) (s : State) (h : Inv srt all s)
    (hp : s.phase ≠ Phase.finished) : Phase.active s.phase = true := by
  cases hph : s.phase with
  | priming => rfl
  | draining => rfl
  | finished => exact absurd hph hp
  | rejected e => exact absurd hph (h.noReject e)

end Slow

/-! ## The buffered merge: the error variable -/

namespace Buffered

theorem dates_eq_of_perm (l1 l2 : List Log) (h1 : Ordered l1) (h2 : Ordered l2)
    (hp : List.Perm l1 l2) : l1.map (fun l => l.date) = l2.map (fun l => l.date) := by
  have e1 : (l1.map (fun l => l.date)).Pairwise (fun a b => a ≤ b) := by
    rw [List.pairwise_map]; exact h1
  have e2 : (l2.map (fun l => l.date)).Pairwise (fun a b => a ≤ b) := by
    rw [List.pairwise_map]; exact h2
  exact List.eq_of_perm_of_sorted (hp.map _) e1 e2

theorem liveSourceCount_run (evs : List Event) :
    ∀ (s t : State), Sane s → run s evs = some t → t.liveSourceCount = s.liveSourceCount := by
  induction evs with
  | nil => intro s t _ hr; simp [run] at hr; subst hr; rfl
  | cons e rest ih =>
    intro s t h hr
    simp only [run] at hr
    cases hst : step s e with
    | none => rw [hst] at hr; simp at hr
    | some u =>
      rw [hst] at hr
      rw [ih u t (sane_step s u e h hst) hr, (potential_step s u e h hst).2]

theorem map_calls_set (l : List BufferedSource) (i : Nat) (b c : BufferedSource)
    (hb : l[i]? = some b) (hc : c.calls = b.calls) :
    (l.set i c).map (fun x => x.calls) = l.map (fun x => x.calls) := by
  apply List.ext_getElem?
  intro k
  simp only [List.getElem?_map, List.getElem?_set]
  split
  · rename_i hik
    subst hik
    have hlt : i < l.length := Heap.lt_length_of_get hb
    simp [hlt, hb, hc]
  · rfl

theorem error_step (s t : State) (ev : Event) (hst : step s ev = some t) :
    (s.error ≠ none → t.error ≠ none) ∧
      (∀ e, Phase.active s.phase = true → t.phase = Phase.rejected e → t.error = some e) := by
  have hrej : ∀ (u : State) (e : Err), (u.error ≠ none → (reject u e).error ≠ none) ∧
      (∀ e2, Phase.active u.phase = true → (reject u e).phase = Phase.rejected e2 →
        (reject u e).error = some e2) := by
    intro u e
    unfold reject setError
    cases hp : u.phase <;> simp [Phase.active]
  cases ev with
  | settle i =>
    simp only [step, settle] at hst
    split at hst
    · simp at hst
    · split at hst
      · simp only [Option.some.injEq] at hst
        subst hst
        split
        · refine ⟨fun _ => by simp [setError], ?_⟩
          intro e2 hact hp
          simp only [setError] at hp
          rw [hp] at hact
          simp [Phase.active] at hact
        · refine ⟨fun h => h, ?_⟩
          intro e2 hact hp
          simp only at hp
          rw [hp] at hact
          simp [Phase.active] at hact
      · simp only [Option.some.injEq] at hst
        subst hst
        refine ⟨fun h => h, ?_⟩
        intro e2 hact hp
        simp only at hp
        rw [hp] at hact
        simp [Phase.active] at hact
      · simp only [Option.some.injEq] at hst
        subst hst
        refine ⟨fun h => h, ?_⟩
        intro e2 hact hp
        simp only at hp
        rw [hp] at hact
        simp [Phase.active] at hact
      · simp at hst
  | resume i =>
    simp only [step, resume] at hst
    split at hst
    · simp at hst
    · rename_i b hb
      split at hst
      · simp only [Option.some.injEq] at hst
        subst hst
        refine ⟨fun h => h, ?_⟩
        intro e2 hact hp
        simp only at hp
        rw [hp] at hact
        simp [Phase.active] at hact
      · rename_i e hc
        simp only [Option.some.injEq] at hst
        subst hst
        exact hrej { s with sources := s.sources.set i { b with caller := Caller.idle } } e
      · simp at hst
  | lumbermill =>
    have hbody : (s.error ≠ none → (lumbermillBody s).error ≠ none) ∧
        (∀ e, Phase.active s.phase = true → (lumbermillBody s).phase = Phase.rejected e →
          (lumbermillBody s).error = some e) := by
      unfold lumbermillBody
      split
      · rename_i e he
        exact hrej s e
      · rename_i he
        refine ⟨fun h => absurd he h, ?_⟩
        intro e2 _ hp
        split at hp
        · simp at hp
        · dsimp only at hp
          split at hp <;> simp at hp
    simp only [step, lumbermill] at hst
    split at hst
    · split at hst
      · simp only [Option.some.injEq] at hst; subst hst; exact hbody
      · simp at hst
    · split at hst
      · simp only [Option.some.injEq] at hst; subst hst; exact hbody
      · simp at hst
    · simp at hst

theorem quiet_after_error (s t : State) (ev : Event) (hst : step s ev = some t)
    (herr : s.error ≠ none) :
    t.printer = s.printer ∧
      t.sources.map (fun b => b.calls) = s.sources.map (fun b => b.calls) := by
  have hrej : ∀ (u : State) (e : Err), (reject u e).printer = u.printer ∧
      (reject u e).sources = u.sources := by
    intro u e
    unfold reject setError
    split <;> exact ⟨rfl, rfl⟩
  have hnone : s.error.isNone = false := by
    cases he : s.error with
    | none => exact absurd he herr
    | some e => rfl
  cases ev with
  | settle i =>
    simp only [step, settle] at hst
    split at hst
    · simp at hst
    · rename_i b hb
      have hfetched : ∀ (o : Outcome) (v : Option Log),
          (onFetched s.error s.liveSourceCount i (notify b o) v).calls = b.calls := by
        intro o v
        simp [onFetched, hnone, received, notify]
      split at hst
      · simp only [Option.some.injEq] at hst
        subst hst
        split
        · exact ⟨rfl, map_calls_set _ _ b _ hb rfl⟩
        · exact ⟨rfl, map_calls_set _ _ b _ hb rfl⟩
      · simp only [Option.some.injEq] at hst
        subst hst
        exact ⟨rfl, map_calls_set _ _ b _ hb (hfetched _ _)⟩
      · simp only [Option.some.injEq] at hst
        subst hst
        exact ⟨rfl, map_calls_set _ _ b _ hb (hfetched _ _)⟩
      · simp at hst
  | resume i =>
    simp only [step, resume] at hst
    split at hst
    · simp at hst
    · rename_i b hb
      split at hst
      · simp only [Option.some.injEq] at hst
        subst hst
        exact ⟨rfl, map_calls_set _ _ b _ hb rfl⟩
      · rename_i e hc
        simp only [Option.some.injEq] at hst
        subst hst
        obtain ⟨r1, r2⟩ := hrej { s with sources := s.sources.set i { b with caller := Caller.idle } } e
        rw [r1, r2]
        exact ⟨rfl, map_calls_set _ _ b _ hb rfl⟩
      · simp at hst
  | lumbermill =>
    have hbody : (lumbermillBody s).printer = s.printer ∧
        (lumbermillBody s).sources.map (fun b => b.calls) = s.sources.map (fun b => b.calls) := by
      unfold lumbermillBody
      split
      · rename_i e he
        obtain ⟨r1, r2⟩ := hrej s e
        rw [r1, r2]
        exact ⟨rfl, rfl⟩
      · rename_i he
        exact absurd he herr
    simp only [step, lumbermill] at hst
    split at hst
    · split at hst
      · simp only [Option.some.injEq] at hst; subst hst; exact hbody
      · simp at hst
    · split at hst
      · simp only [Option.some.injEq] at hst; subst hst; exact hbody
      · simp at hst
    · simp at hst

end Buffered

/-! ## The buffered merge: after a failure nothing more is printed -/

namespace Buffered

theorem startFetch_origin (b : BufferedSource) (d : Bool) :
    (startFetch b d).logSource.fault = b.logSource.fault ∧
      (∀ e, (startFetch b d).worker = Worker.pending (Outcome.fail e) d →
        b.logSource.fault ≠ none) ∧
      ((startFetch b d).worker = Worker.pending Outcome.empty d → b.logSource.fault = none) ∧
      (startFetch b d).calls = b.calls + 1 := by
  unfold startFetch LogSource.popAsync
  cases hl : b.logSource.logs with
  | cons l rest => simp
  | nil => cases hf : b.logSource.fault <;> simp [hf]

theorem onFetched_facts (error : Option Err) (n index : Nat) (b : BufferedSource)
    (v : Option Log) :
    (onFetched error n index b v).buffer = b.buffer.enq ⟨index, v⟩ ∧
    (onFetched error n index b v).caller = b.caller ∧
    (onFetched error n index b v).logSource.fault = b.logSource.fault ∧
    ((onFetched error n index b v).worker = Worker.idle ∨
      ∃ o, (onFetched error n index b v).worker = Worker.pending o true ∧
        (o = Outcome.empty → b.logSource.fault = none) ∧
        (∀ e, o = Outcome.fail e → b.logSource.fault ≠ none)) := by
  unfold onFetched
  split
  · obtain ⟨e1, e2, o, e3⟩ := startFetch_fields (received index b v) true
    obtain ⟨s1, s2, s3, _⟩ := startFetch_origin (received index b v) true
    refine ⟨by rw [e1]; rfl, by rw [e2]; rfl, s1, Or.inr ⟨o, e3, ?_, ?_⟩⟩
    · intro ho; subst ho; exact s3 e3
    · intro e ho; subst ho; exact s2 e e3
  · exact ⟨rfl, rfl, rfl, Or.inl rfl⟩

theorem blocked_step (s t : State) (ev : Event) (hst : step s ev = some t) (hb : Blocked s) :
    Blocked t ∧ t.printer = s.printer := by
  have herr := (error_step s t ev hst).1
  have hrej : ∀ (u : State) (e : Err), Phase.active (reject u e).phase = false ∧
      (reject u e).printer = u.printer := by
    intro u e
    unfold reject setError
    cases hp : u.phase <;> simp [Phase.active, hp]
  cases ev with
  | settle i =>
    simp only [step, settle] at hst
    split at hst
    · simp at hst
    · rename_i b hbi
      have hkeep : ∀ (c : BufferedSource) (u : State), u.sources = s.sources.set i c →
          u.phase = s.phase → (∀ e, b.caller = Caller.failed e → c.caller = Caller.failed e) →
          (s.error ≠ none → u.error ≠ none) → Blocked u := by
        intro c u hu hp hc he
        rcases hb with h1 | ⟨b2, hb2, e, hc2⟩ | h3
        · exact Or.inl (he h1)
        · right; left
          obtain ⟨k, hk⟩ := List.getElem?_of_mem hb2
          by_cases hki : k = i
          · subst hki
            rw [hbi] at hk
            simp only [Option.some.injEq] at hk
            subst hk
            refine ⟨c, ?_, e, hc e hc2⟩
            rw [hu]
            have : (s.sources.set k c)[k]? = some c :=
              List.getElem?_set_self (Heap.lt_length_of_get hbi)
            exact mem_of_get this
          · refine ⟨b2, ?_, e, hc2⟩
            rw [hu]
            have : (s.sources.set i c)[k]? = some b2 := by
              rw [List.getElem?_set_ne (fun h => hki h.symm)]; exact hk
            exact mem_of_get this
        · exact Or.inr (Or.inr (by rw [hp]; exact h3))
      have hwake : ∀ (o : Outcome) (e : Err), b.caller = Caller.failed e →
          wake b.caller o = Caller.failed e := by
        intro o e h; rw [h]; cases o <;> rfl
      split at hst
      · rename_i e d hw
        simp only [Option.some.injEq] at hst
        subst hst
        split
        · exact ⟨Or.inl (by simp [setError]), rfl⟩
        · exact ⟨hkeep _ _ rfl rfl (fun e2 h => hwake _ e2 h) (fun h => h), rfl⟩
      · rename_i l d hw
        simp only [Option.some.injEq] at hst
        subst hst
        refine ⟨hkeep _ _ rfl rfl (fun e2 h => ?_) (fun h => h), rfl⟩
        rw [(onFetched_facts _ _ _ _ _).2.1]
        exact hwake _ e2 h
      · rename_i d hw
        simp only [Option.some.injEq] at hst
        subst hst
        refine ⟨hkeep _ _ rfl rfl (fun e2 h => ?_) (fun h => h), rfl⟩
        rw [(onFetched_facts _ _ _ _ _).2.1]
        exact hwake _ e2 h
      · simp at hst
  | resume i =>
    simp only [step, resume] at hst
    split at hst
    · simp at hst
    · rename_i b hbi
      split at hst
      · rename_i hc
        simp only [Option.some.injEq] at hst
        subst hst
        refine ⟨?_, rfl⟩
        rcases hb with h1 | ⟨b2, hb2, e, hc2⟩ | h3
        · exact Or.inl h1
        · right; left
          obtain ⟨k, hk⟩ := List.getElem?_of_mem hb2
          have hki : k ≠ i := by
            intro h
            subst h
            rw [hbi] at hk
            simp only [Option.some.injEq] at hk
            subst hk
            rw [hc] at hc2
            simp at hc2
          refine ⟨b2, ?_, e, hc2⟩
          have : (s.sources.set i { b with buffer := b.buffer.deq.2, caller := Caller.idle })[k]?
              = some b2 := by
            rw [List.getElem?_set_ne (fun h => hki h.symm)]; exact hk
          exact mem_of_get this
        · exact Or.inr (Or.inr h3)
      · rename_i e hc
        simp only [Option.some.injEq] at hst
        subst hst
        obtain ⟨r1, r2⟩ := hrej { s with sources := s.sources.set i { b with caller := Caller.idle } } e
        exact ⟨Or.inr (Or.inr r1), r2⟩
      · simp at hst
  | lumbermill =>
    have hbody : quiet s = true → Phase.active s.phase = true →
        Blocked (lumbermillBody s) ∧ (lumbermillBody s).printer = s.printer := by
      intro hq hact
      have hidle := (quiet_iff s).mp hq
      rcases hb with h1 | ⟨b2, hb2, e, hc2⟩ | h3
      · unfold lumbermillBody
        split
        · rename_i e he
          obtain ⟨r1, r2⟩ := hrej s e
          exact ⟨Or.inr (Or.inr r1), r2⟩
        · rename_i he
          exact absurd he h1
      · have := hidle b2 hb2
        rw [hc2] at this
        simp at this
      · rw [hact] at h3
        simp at h3
    simp only [step, lumbermill] at hst
    split at hst
    · rename_i hp
      split at hst
      · rename_i hq
        simp only [Option.some.injEq] at hst; subst hst; exact hbody hq (by rw [hp]; rfl)
      · simp at hst
    · rename_i hp
      split at hst
      · rename_i hq
        simp only [Option.some.injEq] at hst; subst hst; exact hbody hq (by rw [hp]; rfl)
      · simp at hst
    · simp at hst

theorem blocked_run (evs : List Event) :
    ∀ (s t : State), Blocked s → run s evs = some t → Blocked t ∧ t.printer = s.printer := by
  induction evs with
  | nil => intro s t h hr; simp [run] at hr; subst hr; exact ⟨h, rfl⟩
  | cons e rest ih =>
    intro s t h hr
    simp only [run] at hr
    cases hst : step s e with
    | none => rw [hst] at hr; simp at hr
    | some u =>
      rw [hst] at hr
      obtain ⟨h1, h2⟩ := blocked_step s u e hst h
      obtain ⟨h3, h4⟩ := ih u t h1 hr
      exact ⟨h3, by rw [h4, h2]⟩

end Buffered

/-! ## The buffered merge: what holds of a source in every run -/

namespace Buffered

theorem sourceFacts_move (H H2 : List Entry) (ph ph2 : Phase) (k : Nat) (b : BufferedSource)
    (h : SourceFacts H ph k b)
    (hheld : b.logSource.fault ≠ none → Phase.active ph2 = true →
      b.caller ≠ Caller.idle ∨ ∃ e ∈ H2, e.source = k)
    (hunf : b.logSource.fault ≠ none → ph2 ≠ Phase.finished) : SourceFacts H2 ph2 k b :=
  { wf := h.wf
    tagged := h.tagged
    waiting := h.waiting
    attended := h.attended
    ready := h.ready
    rejected := h.rejected
    failing := h.failing
    noMarker := h.noMarker
    held := hheld
    unfinished := hunf }

theorem sourceFacts_onFetched (H : List Entry) (ph : Phase) (i : Nat) (b : BufferedSource)
    (o : Outcome) (d : Bool) (v : Option Log) (error : Option Err) (n : Nat)
    (h : SourceFacts H ph i b) (hw : b.worker = Worker.pending o d)
    (hv : Outcome.value o = some v) :
    SourceFacts H ph i (onFetched error n i (notify b o) v) := by
  obtain ⟨f1, f2, f3, f4⟩ := onFetched_facts error n i (notify b o) v
  obtain ⟨w1, w2⟩ := Queue.enq_spec b.buffer h.wf ⟨i, v⟩
  have hbuf : (onFetched error n i (notify b o) v).buffer = b.buffer.enq ⟨i, v⟩ := f1
  have hcal : (onFetched error n i (notify b o) v).caller = wake b.caller o := f2
  have hflt : (onFetched error n i (notify b o) v).logSource.fault = b.logSource.fault := f3
  refine
    { wf := by rw [hbuf]; exact w1
      tagged := ?_
      waiting := fun hc => absurd (hcal ▸ hc) (wake_ne_waiting _ _)
      attended := ?_
      ready := fun _ => by rw [hbuf, w2]; simp
      rejected := ?_
      failing := ?_
      noMarker := ?_
      held := ?_
      unfinished := fun hf => h.unfinished (hflt ▸ hf) }
  · intro w hwm
    rw [hbuf, w2] at hwm
    rcases List.mem_append.mp hwm with h1 | h1
    · exact h.tagged w h1
    · simp at h1; subst h1; rfl
  · intro o2 ho2
    rcases f4 with h1 | ⟨o3, h1, _⟩
    · rw [h1] at ho2; simp at ho2
    · rw [h1] at ho2; simp at ho2
  · intro e he
    rcases f4 with h1 | ⟨o3, h1, _⟩
    · rw [h1] at he; simp at he
    · rw [h1] at he; simp at he
  · intro e d2 he
    rcases f4 with h1 | ⟨o3, h1, _, h3⟩
    · rw [h1] at he; simp at he
    · rw [h1] at he
      simp only [Worker.pending.injEq] at he
      rw [hflt]
      exact h3 e he.1
  · intro hf
    have hf2 : b.logSource.fault ≠ none := hflt ▸ hf
    obtain ⟨m1, m2⟩ := h.noMarker hf2
    constructor
    · intro w hwm
      rw [hbuf, w2] at hwm
      rcases List.mem_append.mp hwm with h1 | h1
      · exact m1 w h1
      · simp at h1
        subst h1
        cases o with
        | log l => simp [Outcome.value] at hv; subst hv; simp
        | empty => exact absurd hw (m2 d)
        | fail e => simp [Outcome.value] at hv
    · intro d2 he
      rcases f4 with h1 | ⟨o3, h1, h2, _⟩
      · rw [h1] at he; simp at he
      · rw [h1] at he
        simp only [Worker.pending.injEq] at he
        exact hf2 (h2 he.1)
  · intro hf hact
    rcases h.held (hflt ▸ hf) hact with h1 | h1
    · left
      rw [hcal]
      exact fun hc => h1 ((wake_eq_idle _ _).mp hc)
    · exact Or.inr h1

theorem sourceFacts_next (H H2 : List Entry) (ph ph2 : Phase) (i : Nat) (b : BufferedSource)
    (h : SourceFacts H ph i b) (hidle : b.caller = Caller.idle) (hp : ph2 ≠ Phase.finished) :
    SourceFacts H2 ph2 i (next b) ∧ ∀ e, (next b).worker = Worker.rejected e →
      b.worker = Worker.rejected e := by
  have hnf : ∀ o, b.worker ≠ Worker.pending o false := by
    intro o ho
    have := h.attended o ho
    rw [hidle] at this
    simp at this
  rcases next_cases b with ⟨he, e⟩ | ⟨_, hw, e⟩ | ⟨_, ⟨o, d, hw⟩, e⟩ | ⟨_, er, hw, e⟩
  · rw [e]
    refine ⟨?_, fun _ h2 => h2⟩
    exact
      { wf := h.wf
        tagged := h.tagged
        waiting := fun hc => by simp at hc
        attended := fun o ho => absurd ho (hnf o)
        ready := fun _ hnil => by
          have := (Queue.isEmpty_iff b.buffer h.wf).mpr hnil
          rw [he] at this
          simp at this
        rejected := h.rejected
        failing := h.failing
        noMarker := h.noMarker
        held := fun _ _ => Or.inl (by simp)
        unfinished := fun _ => hp }
  · rw [e]
    obtain ⟨e1, e2, o, e3⟩ := startFetch_fields b false
    obtain ⟨s1, s2, s3, _⟩ := startFetch_origin b false
    refine ⟨?_, fun er h2 => ?_⟩
    · exact
        { wf := by show (startFetch b false).buffer.WF; rw [e1]; exact h.wf
          tagged := by show ∀ w ∈ (startFetch b false).buffer.toList, _; rw [e1]; exact h.tagged
          waiting := fun _ => ⟨o, false, e3⟩
          attended := fun _ _ => rfl
          ready := fun hc => by simp at hc
          rejected := fun er her => by
            have : (startFetch b false).worker = Worker.rejected er := her
            rw [e3] at this; simp at this
          failing := fun er d her => by
            have h2 : (startFetch b false).worker = Worker.pending (Outcome.fail er) d := her
            have h3 : d = false := by rw [e3] at h2; simp at h2; exact h2.2
            subst h3
            show (startFetch b false).logSource.fault ≠ none
            rw [s1]
            exact s2 er h2
          noMarker := fun hf => by
            have hf2 : b.logSource.fault ≠ none := by
              have : (startFetch b false).logSource.fault ≠ none := hf
              rwa [s1] at this
            refine ⟨?_, fun d her => ?_⟩
            · show ∀ w ∈ (startFetch b false).buffer.toList, _
              rw [e1]; exact (h.noMarker hf2).1
            · have h2 : (startFetch b false).worker = Worker.pending Outcome.empty d := her
              have h3 : d = false := by rw [e3] at h2; simp at h2; exact h2.2
              subst h3
              exact hf2 (s3 h2)
          held := fun _ _ => Or.inl (by simp)
          unfinished := fun _ => hp }
    · have : (startFetch b false).worker = Worker.rejected er := h2
      rw [e3] at this; simp at this
  · rw [e]
    refine ⟨?_, fun _ h2 => h2⟩
    exact
      { wf := h.wf
        tagged := h.tagged
        waiting := fun _ => ⟨o, d, hw⟩
        attended := fun _ _ => rfl
        ready := fun hc => by simp at hc
        rejected := h.rejected
        failing := h.failing
        noMarker := h.noMarker
        held := fun _ _ => Or.inl (by simp)
        unfinished := fun _ => hp }
  · rw [e]
    refine ⟨?_, fun _ h2 => h2⟩
    exact
      { wf := h.wf
        tagged := h.tagged
        waiting := fun hc => by simp at hc
        attended := fun o ho => absurd ho (hnf o)
        ready := fun hc => by simp at hc
        rejected := h.rejected
        failing := h.failing
        noMarker := h.noMarker
        held := fun _ _ => Or.inl (by simp)
        unfinished := fun _ => hp }

end Buffered

/-! ## The buffered merge: the settling of a fetch keeps the facts -/

namespace Buffered

theorem not_blocked (s : State) (herr : s.error = none) (hq : quiet s = true)
    (hact : Phase.active s.phase = true) : ¬ Blocked s := by
  intro hb
  rcases hb with h1 | ⟨b, hb, e, hc⟩ | h3
  · exact h1 herr
  · have := (quiet_iff s).mp hq b hb
    rw [hc] at this
    simp at this
  · rw [hact] at h3
    simp at h3

theorem rejected_of_set (l : List BufferedSource) (i : Nat) (b c : BufferedSource)
    (hb : l[i]? = some b) (hc : ∀ e, c.worker = Worker.rejected e → b.worker = Worker.rejected e)
    (h : ∃ x ∈ l.set i c, ∃ e, x.worker = Worker.rejected e) :
    ∃ x ∈ l, ∃ e, x.worker = Worker.rejected e := by
  obtain ⟨x, hx, e, he⟩ := h
  rcases mem_set_cases _ _ _ _ hx with h1 | h1
  · subst h1; exact ⟨b, mem_of_get hb, e, hc e he⟩
  · exact ⟨x, h1, e, he⟩

theorem facts_settle (s t : State) (i : Nat) (h : Facts s) (hst : settle s i = some t) :
    Facts t := by
  have hstep : step s (Event.settle i) = some t := hst
  simp only [settle] at hst
  split at hst
  · simp at hst
  · rename_i b hb
    have hsb := h.sources i b hb
    have hvalue : ∀ (o : Outcome) (d : Bool) (v : Option Log), b.worker = Worker.pending o d →
        Outcome.value o = some v →
        t = { s with
              sources := s.sources.set i (onFetched s.error s.liveSourceCount i (notify b o) v) } →
        Facts t := by
      intro o d v hw hv ht
      have hsi := sourceFacts_onFetched s.logheap s.phase i b o d v s.error s.liveSourceCount
        hsb hw hv
      have hnr : ∀ e, (onFetched s.error s.liveSourceCount i (notify b o) v).worker
          = Worker.rejected e → b.worker = Worker.rejected e := by
        intro e he
        rcases (onFetched_facts s.error s.liveSourceCount i (notify b o) v).2.2.2 with h1 | ⟨o3, h1, _⟩
        · rw [h1] at he; simp at he
        · rw [h1] at he; simp at he
      subst ht
      refine
        { sources := ?_
          heap := h.heap
          blocked := ?_
          calls := h.calls }
      · intro k bk hk
        rcases Heap.get_set_cases _ _ _ _ _ hk with ⟨e1, e2⟩ | ⟨_, e2⟩
        · subst e1; subst e2; exact hsi
        · exact h.sources k bk e2
      · intro hex
        exact (blocked_step s _ (Event.settle i) hstep
          (h.blocked (rejected_of_set _ _ _ _ hb hnr hex))).1
    split at hst
    · rename_i e d hw
      simp only [Option.some.injEq] at hst
      have hfault := hsb.failing e d hw
      have hb1 : SourceFacts s.logheap s.phase i
          { b with worker := Worker.rejected e, caller := wake b.caller (Outcome.fail e) } :=
        { wf := hsb.wf
          tagged := hsb.tagged
          waiting := fun hc => absurd hc (wake_ne_waiting _ _)
          attended := fun o ho => by simp at ho
          ready := fun hc => by
            apply hsb.ready
            cases hcal : b.caller <;> simp [hcal, wake] at hc ⊢
          rejected := fun _ _ => hfault
          failing := fun e2 d2 he => by simp at he
          noMarker := fun hf => ⟨(hsb.noMarker hf).1, fun d2 he => by simp at he⟩
          held := fun hf hact => by
            rcases hsb.held hf hact with h1 | h1
            · exact Or.inl (fun hc => h1 ((wake_eq_idle _ _).mp hc))
            · exact Or.inr h1
          unfinished := hsb.unfinished }
      have hsrc : ∀ k bk, (s.sources.set i
          { b with worker := Worker.rejected e, caller := wake b.caller (Outcome.fail e) })[k]?
            = some bk → SourceFacts s.logheap s.phase k bk := by
        intro k bk hk
        rcases Heap.get_set_cases _ _ _ _ _ hk with ⟨e1, e2⟩ | ⟨_, e2⟩
        · subst e1; subst e2; exact hb1
        · exact h.sources k bk e2
      have hmem : ({ b with worker := Worker.rejected e, caller := wake b.caller (Outcome.fail e) }
          : BufferedSource) ∈ s.sources.set i
            { b with worker := Worker.rejected e, caller := wake b.caller (Outcome.fail e) } :=
        List.mem_set _ _ (Heap.lt_length_of_get hb) _
      cases d with
      | true =>
        simp only [if_true] at hst
        subst hst
        exact
          { sources := hsrc
            heap := h.heap
            blocked := fun _ => Or.inl (by simp [setError])
            calls := h.calls }
      | false =>
        simp only [Bool.false_eq_true, if_false] at hst
        subst hst
        have hcw := hsb.attended _ hw
        exact
          { sources := hsrc
            heap := h.heap
            blocked := fun _ => Or.inr (Or.inl ⟨_, hmem, e, by simp [hcw, wake]⟩)
            calls := h.calls }
    · rename_i l d hw
      simp only [Option.some.injEq] at hst
      exact hvalue (Outcome.log l) d (some l) hw rfl hst.symm
    · rename_i d hw
      simp only [Option.some.injEq] at hst
      exact hvalue Outcome.empty d none hw rfl hst.symm
    · simp at hst

end Buffered

/-! ## The buffered merge: the continuation of next keeps the facts -/

namespace Buffered

theorem facts_reject (s u : State) (e : Err) (h : Facts s)
    (hsrc : ∀ (k : Nat) (bk : BufferedSource), u.sources[k]? = some bk →
      ∃ H ph, SourceFacts H ph k bk)
    (hheap : u.logheap = s.logheap) (hphase : u.phase = s.phase)
    (hprinter : u.printer = s.printer)
    (hfaulty : ∀ (k : Nat) (bk : BufferedSource), u.sources[k]? = some bk →
      bk.logSource.fault ≠ none → s.phase ≠ Phase.finished) :
    Facts (reject u e) := by
  have hph : (Phase.active u.phase = false ∧ (reject u e).phase = u.phase) ∨
      (Phase.active u.phase = true ∧ (reject u e).phase = Phase.rejected e) := by
    unfold reject setError
    cases hp : u.phase <;> simp [Phase.active, hp]
  have hs2 : (reject u e).sources = u.sources := by
    unfold reject setError; split <;> rfl
  have hh2 : (reject u e).logheap = u.logheap := by
    unfold reject setError; split <;> rfl
  have hp2 : (reject u e).printer = u.printer := by
    unfold reject setError; split <;> rfl
  have hinact : Phase.active (reject u e).phase = false := by
    rcases hph with ⟨h4, h5⟩ | ⟨_, h5⟩
    · rw [h5]; exact h4
    · rw [h5]; rfl
  have hnf : s.phase ≠ Phase.finished → (reject u e).phase ≠ Phase.finished := by
    intro hne
    rcases hph with ⟨_, h5⟩ | ⟨_, h5⟩
    · rw [h5, hphase]; exact hne
    · rw [h5]; simp
  refine
    { sources := ?_
      heap := by rw [hh2, hheap]; exact h.heap
      blocked := fun _ => Or.inr (Or.inr hinact)
      calls := ?_ }
  · intro k bk hk
    rw [hs2] at hk
    obtain ⟨H, ph, hk2⟩ := hsrc k bk hk
    exact sourceFacts_move _ _ _ _ k bk hk2
      (fun _ hact => by rw [hinact] at hact; simp at hact)
      (fun hf => hnf (hfaulty k bk hk hf))
  · rw [hp2, hprinter]
    rcases hph with ⟨_, h5⟩ | ⟨h4, h5⟩
    · rw [h5, hphase]; exact h.calls
    · rw [h5]
      have hne : s.phase ≠ Phase.finished := by
        intro hc; rw [hphase, hc] at h4; simp [Phase.active] at h4
      have := h.calls
      rw [if_neg hne] at this
      simpa using this

theorem facts_resume (s t : State) (i : Nat) (h : Facts s) (hst : resume s i = some t) :
    Facts t := by
  have hstep : step s (Event.resume i) = some t := hst
  simp only [resume] at hst
  split at hst
  · simp at hst
  · rename_i b hb
    have hsb := h.sources i b hb
    split at hst
    · rename_i hc
      simp only [Option.some.injEq] at hst
      obtain ⟨d1, d2, d3⟩ := Queue.deq_spec b.buffer hsb.wf
      have hne := hsb.ready hc
      have hnf : ∀ o, b.worker ≠ Worker.pending o false := by
        intro o ho
        have := hsb.attended o ho
        rw [hc] at this
        simp at this
      cases hl : b.buffer.toList with
      | nil => exact absurd hl hne
      | cons w rest =>
        have hw : w.source = i := hsb.tagged w (by rw [hl]; simp)
        have hd2 : b.buffer.deq.1 = some w := by rw [d2, hl]; rfl
        have hd3 : b.buffer.deq.2.toList = rest := by rw [d3, hl]; rfl
        have hsub : ∀ e ∈ s.logheap, e ∈ pushToHeap s.logheap (some w) := by
          intro e he
          cases w with
          | mk src lg =>
            cases lg with
            | none => exact he
            | some l =>
              have := (Heap.push_spec cmpDate Entry.date keyed_cmpDate s.logheap ⟨src, l⟩ h.heap).2
              exact this.mem_iff.mpr (List.mem_cons_of_mem _ he)
        have hheap : Heap.IsHeap Entry.date (pushToHeap s.logheap (some w)) := by
          cases w with
          | mk src lg =>
            cases lg with
            | none => exact h.heap
            | some l =>
              exact (Heap.push_spec cmpDate Entry.date keyed_cmpDate s.logheap ⟨src, l⟩ h.heap).1
        have hb1 : SourceFacts (pushToHeap s.logheap (some w)) s.phase i
            { b with buffer := b.buffer.deq.2, caller := Caller.idle } :=
          { wf := d1
            tagged := fun x hx => hsb.tagged x (by rw [hl]; rw [hd3] at hx; exact List.mem_cons_of_mem _ hx)
            waiting := fun hc2 => by simp at hc2
            attended := fun o ho => absurd ho (hnf o)
            ready := fun hc2 => by simp at hc2
            rejected := hsb.rejected
            failing := hsb.failing
            noMarker := fun hf =>
              ⟨fun x hx => (hsb.noMarker hf).1 x
                (by rw [hl]; rw [hd3] at hx; exact List.mem_cons_of_mem _ hx),
                (hsb.noMarker hf).2⟩
            held := fun hf _ => by
              right
              have hlog := (hsb.noMarker hf).1 w (by rw [hl]; simp)
              cases w with
              | mk src lg =>
                cases lg with
                | none => exact absurd rfl hlog
                | some l =>
                  have := (Heap.push_spec cmpDate Entry.date keyed_cmpDate s.logheap ⟨src, l⟩
                    h.heap).2
                  exact ⟨⟨src, l⟩, this.mem_iff.mpr (List.mem_cons_self _ _), hw⟩
            unfinished := hsb.unfinished }
        rw [hd2] at hst
        subst hst
        refine
          { sources := ?_
            heap := hheap
            blocked := ?_
            calls := h.calls }
        · intro k bk hk
          rcases Heap.get_set_cases _ _ _ _ _ hk with ⟨e1, e2⟩ | ⟨_, e2⟩
          · subst e1; subst e2; exact hb1
          · have hk2 := h.sources k bk e2
            refine sourceFacts_move _ _ _ _ k bk hk2 (fun hf hact => ?_) hk2.unfinished
            rcases hk2.held hf hact with h1 | ⟨e, he, hes⟩
            · exact Or.inl h1
            · exact Or.inr ⟨e, hsub e he, hes⟩
        · intro hex
          have := rejected_of_set s.sources i b
            { b with buffer := b.buffer.deq.2, caller := Caller.idle } hb (fun e he => he) hex
          exact (blocked_step s _ (Event.resume i) hstep (h.blocked this)).1
    · rename_i e hc
      simp only [Option.some.injEq] at hst
      subst hst
      have hnf : ∀ o, b.worker ≠ Worker.pending o false := by
        intro o ho
        have := hsb.attended o ho
        rw [hc] at this
        simp at this
      have hb1 : SourceFacts s.logheap (Phase.rejected e) i { b with caller := Caller.idle } :=
        { wf := hsb.wf
          tagged := hsb.tagged
          waiting := fun hc2 => by simp at hc2
          attended := fun o ho => absurd ho (hnf o)
          ready := fun hc2 => by simp at hc2
          rejected := hsb.rejected
          failing := hsb.failing
          noMarker := hsb.noMarker
          held := fun _ hact => by simp [Phase.active] at hact
          unfinished := fun _ => by simp }
      refine facts_reject s { s with sources := s.sources.set i { b with caller := Caller.idle } } e h
        ?_ rfl rfl rfl ?_
      · intro k bk hk
        rcases Heap.get_set_cases _ _ _ _ _ hk with ⟨e1, e2⟩ | ⟨_, e2⟩
        · subst e1; subst e2; exact ⟨_, _, hb1⟩
        · exact ⟨_, _, h.sources k bk e2⟩
      · intro k bk hk hf
        rcases Heap.get_set_cases _ _ _ _ _ hk with ⟨e1, e2⟩ | ⟨_, e2⟩
        · subst e1; subst e2; exact hsb.unfinished hf
        · exact (h.sources k bk e2).unfinished hf
    · simp at hst

end Buffered

/-! ## The buffered merge: the facts hold along every run -/

namespace Buffered

theorem facts_lumbermillBody (s : State) (h : Facts s) (hq : quiet s = true)
    (hact : Phase.active s.phase = true) : Facts (lumbermillBody s) := by
  have hidle := (quiet_iff s).mp hq
  have hnf : s.phase ≠ Phase.finished := by
    intro hc; rw [hc] at hact; simp [Phase.active] at hact
  have hcalls : s.printer = (printed s.printer).map PrinterCall.print := by
    have := h.calls
    rw [if_neg hnf] at this
    simpa using this
  unfold lumbermillBody
  cases herr : s.error with
  | some e =>
    dsimp only
    exact facts_reject s s e h (fun k bk hk => ⟨_, _, h.sources k bk hk⟩) rfl rfl rfl
      (fun k bk hk hf => (h.sources k bk hk).unfinished hf)
  | none =>
    dsimp only
    have hnb := not_blocked s herr hq hact
    have hnorej : ¬ ∃ b ∈ s.sources, ∃ e, b.worker = Worker.rejected e :=
      fun hex => hnb (h.blocked hex)
    cases hpop : Heap.pop cmpDate s.logheap with
    | mk top rest =>
      cases top with
      | none =>
        dsimp only
        have hnil : s.logheap = [] := (Heap.pop_eq_none cmpDate s.logheap).mp (by rw [hpop])
        have hnofault : ∀ (k : Nat) (bk : BufferedSource), s.sources[k]? = some bk →
            bk.logSource.fault = none := by
          intro k bk hk
          by_contra hf
          rcases (h.sources k bk hk).held hf hact with h1 | ⟨e, he, _⟩
          · exact h1 (hidle bk (mem_of_get hk))
          · rw [hnil] at he; simp at he
        have hp1 : printed (s.printer ++ [PrinterCall.done]) = printed s.printer := by
          rw [printed_append]; simp [printed]
        refine
          { sources := ?_
            heap := h.heap
            blocked := fun hex => absurd hex hnorej
            calls := ?_ }
        · intro k bk hk
          exact sourceFacts_move _ _ _ _ k bk (h.sources k bk hk)
            (fun hf => absurd (hnofault k bk hk) hf) (fun hf => absurd (hnofault k bk hk) hf)
        · rw [hp1]
          simp only [if_true]
          rw [← hcalls]
      | some oldest =>
        dsimp only
        have hm : (Heap.pop cmpDate s.logheap).1 = some oldest := by rw [hpop]
        obtain ⟨q1, q2, _⟩ := Heap.pop_spec cmpDate Entry.date keyed_cmpDate s.logheap h.heap
          oldest hm
        rw [hpop] at q1 q2
        simp only at q1 q2
        have hmem : ∀ e, e ∈ s.logheap ↔ e = oldest ∨ e ∈ rest := by
          intro e; rw [q1.mem_iff]; simp
        have hp1 : printed (s.printer ++ [PrinterCall.print oldest.log])
            = printed s.printer ++ [oldest.log] := by
          rw [printed_append]; simp [printed]
        have hcalls2 : s.printer ++ [PrinterCall.print oldest.log]
            = (printed (s.printer ++ [PrinterCall.print oldest.log])).map PrinterCall.print
              ++ (if Phase.draining = Phase.finished then [PrinterCall.done] else []) := by
          rw [hp1]
          simp only [List.map_append, List.map_cons, List.map_nil]
          rw [← hcalls]
          simp
        have hother : ∀ (k : Nat) (bk : BufferedSource), s.sources[k]? = some bk → k ≠ oldest.source →
            SourceFacts rest Phase.draining k bk := by
          intro k bk hk hne
          have hk2 := h.sources k bk hk
          refine sourceFacts_move _ _ _ _ k bk hk2 (fun hf _ => ?_) (fun _ => by simp)
          rcases hk2.held hf hact with h1 | ⟨e, he, hes⟩
          · exact absurd (hidle bk (mem_of_get hk)) h1
          · right
            rcases (hmem e).mp he with h2 | h2
            · subst h2; exact absurd hes.symm hne
            · exact ⟨e, h2, hes⟩
        cases hb : s.sources[oldest.source]? with
        | none =>
          dsimp only
          refine
            { sources := ?_
              heap := q2
              blocked := fun hex => absurd hex hnorej
              calls := hcalls2 }
          intro k bk hk
          exact hother k bk hk (fun hc => by rw [hc, hb] at hk; simp at hk)
        | some b =>
          dsimp only
          obtain ⟨n1, n2⟩ := sourceFacts_next s.logheap rest s.phase Phase.draining oldest.source b
            (h.sources _ b hb) (hidle b (mem_of_get hb)) (by simp)
          refine
            { sources := ?_
              heap := q2
              blocked := fun hex => absurd (rejected_of_set _ _ b _ hb n2 hex) hnorej
              calls := hcalls2 }
          intro k bk hk
          rcases Heap.get_set_cases _ _ _ _ _ hk with ⟨e1, e2⟩ | ⟨e1, e2⟩
          · subst e1; subst e2; exact n1
          · exact hother k bk e2 e1

theorem facts_step (s t : State) (e : Event) (h : Facts s) (hst : step s e = some t) :
    Facts t := by
  cases e with
  | settle i => exact facts_settle s t i h hst
  | resume i => exact facts_resume s t i h hst
  | lumbermill =>
    simp only [step, lumbermill] at hst
    split at hst
    · rename_i hp
      split at hst
      · rename_i hq
        simp only [Option.some.injEq] at hst; subst hst
        exact facts_lumbermillBody s h hq (by rw [hp]; rfl)
      · simp at hst
    · rename_i hp
      split at hst
      · rename_i hq
        simp only [Option.some.injEq] at hst; subst hst
        exact facts_lumbermillBody s h hq (by rw [hp]; rfl)
      · simp at hst
    · simp at hst

theorem facts_init (logSources : List LogSource) : Facts (init logSources) := by
  refine
    { sources := ?_
      heap := fun i x p _ hx => by simp [init] at hx
      blocked := ?_
      calls := by simp [init, printed] }
  · intro i b hb
    simp only [init, List.getElem?_map, Option.map_eq_some'] at hb
    obtain ⟨ls, _, e⟩ := hb
    rw [← e, next_fresh]
    obtain ⟨e1, e2, o, e3⟩ := startFetch_fields { logSource := ls } false
    obtain ⟨s1, s2, s3, _⟩ := startFetch_origin { logSource := ls } false
    have hbuf : (startFetch { logSource := ls } false).buffer = Queue.new := e1
    exact
      { wf := by show (startFetch { logSource := ls } false).buffer.WF; rw [hbuf]; exact Queue.wf_new
        tagged := by
          show ∀ w ∈ (startFetch { logSource := ls } false).buffer.toList, _
          rw [hbuf]; intro w hw; simp [Queue.toList_new] at hw
        waiting := fun _ => ⟨o, false, e3⟩
        attended := fun _ _ => rfl
        ready := fun hc => by simp at hc
        rejected := fun er her => by
          have : (startFetch { logSource := ls } false).worker = Worker.rejected er := her
          rw [e3] at this; simp at this
        failing := fun er d her => by
          have h2 : (startFetch { logSource := ls } false).worker
              = Worker.pending (Outcome.fail er) d := her
          have h3 : d = false := by rw [e3] at h2; simp at h2; exact h2.2
          subst h3
          show (startFetch { logSource := ls } false).logSource.fault ≠ none
          rw [s1]
          exact s2 er h2
        noMarker := fun hf => by
          have hf2 : ls.fault ≠ none := by
            have : (startFetch { logSource := ls } false).logSource.fault ≠ none := hf
            rwa [s1] at this
          refine ⟨?_, fun d her => ?_⟩
          · show ∀ w ∈ (startFetch { logSource := ls } false).buffer.toList, _
            rw [hbuf]; intro w hw; simp [Queue.toList_new] at hw
          · have h2 : (startFetch { logSource := ls } false).worker
                = Worker.pending Outcome.empty d := her
            have h3 : d = false := by rw [e3] at h2; simp at h2; exact h2.2
            subst h3
            exact hf2 (s3 h2)
        held := fun _ _ => Or.inl (by simp)
        unfinished := fun _ => by simp [init] }
  · intro hex
    obtain ⟨b, hb, e, he⟩ := hex
    simp only [init, List.mem_map] at hb
    obtain ⟨ls, _, e2⟩ := hb
    rw [← e2, next_fresh] at he
    obtain ⟨_, _, o, e3⟩ := startFetch_fields { logSource := ls } false
    have : (startFetch { logSource := ls } false).worker = Worker.rejected e := he
    rw [e3] at this
    simp at this

theorem facts_run (evs : List Event) :
    ∀ (s t : State), Facts s → run s evs = some t → Facts t := by
  induction evs with
  | nil => intro s t h hr; simp [run] at hr; subst hr; exact h
  | cons e rest ih =>
    intro s t h hr
    simp only [run] at hr
    cases hst : step s e with
    | none => rw [hst] at hr; simp at hr
    | some u => rw [hst] at hr; exact ih u t (facts_step s u e h hst) hr

theorem sane_of_facts (s : State) (h : Facts s) : Sane s := by
  intro b hb
  obtain ⟨k, hk⟩ := List.getElem?_of_mem hb
  exact ⟨(h.sources k b hk).wf, (h.sources k b hk).waiting⟩

theorem unfinished_of_rejected (s : State) (h : Facts s)
    (hfail : ∃ b ∈ s.sources, ∃ e, b.worker = Worker.rejected e) :
    s.phase ≠ Phase.finished ∧ doneCalls s.printer = 0 := by
  obtain ⟨b, hb, e, he⟩ := hfail
  obtain ⟨k, hk⟩ := List.getElem?_of_mem hb
  have hsb := h.sources k b hk
  have hnf := hsb.unfinished (hsb.rejected e he)
  refine ⟨hnf, ?_⟩
  have := h.calls
  rw [if_neg hnf] at this
  rw [this]
  simp [doneCalls, List.count_eq_zero]

end Buffered

/-! ## The buffered merge: the run over the sources without their faults -/

namespace Buffered

theorem cleanSource_fields (b : BufferedSource) :
    (cleanSource b).buffer = b.buffer ∧ (cleanSource b).caller = b.caller ∧
      (cleanSource b).calls = b.calls ∧
      ((∀ e d, b.worker ≠ Worker.pending (Outcome.fail e) d) →
        (cleanSource b).worker = b.worker ∧
          (cleanSource b).logSource = withoutFault b.logSource) := by
  unfold cleanSource
  split
  · rename_i e d hw
    exact ⟨rfl, rfl, rfl, fun h => absurd hw (h e d)⟩
  · exact ⟨rfl, rfl, rfl, fun _ => ⟨rfl, rfl⟩⟩

theorem cleanSource_startFetch (b : BufferedSource) (d : Bool) (hw : b.worker = Worker.idle) :
    cleanSource (startFetch b d) = startFetch (cleanSource b) d := by
  have hc : cleanSource b = { b with logSource := withoutFault b.logSource } := by
    unfold cleanSource; rw [hw]
  rw [hc]
  unfold startFetch LogSource.popAsync withoutFault
  cases hl : b.logSource.logs with
  | cons l rest => simp [cleanSource, withoutFault]
  | nil =>
    cases hf : b.logSource.fault with
    | none => simp [cleanSource, withoutFault, hf]
    | some e => simp [cleanSource, withoutFault, hl]

theorem cleanSource_caller (b : BufferedSource) (c : Caller) :
    cleanSource { b with caller := c } = { cleanSource b with caller := c } := by
  unfold cleanSource
  cases hw : b.worker with
  | idle => rfl
  | rejected e => rfl
  | pending o d => cases o <;> rfl

theorem cleanSource_next (b : BufferedSource) (h : ∀ e, b.worker ≠ Worker.rejected e) :
    cleanSource (next b) = next (cleanSource b) := by
  obtain ⟨c1, c2, _, c4⟩ := cleanSource_fields b
  rcases next_cases b with ⟨h1, h2⟩ | ⟨h1, h2, h3⟩ | ⟨h1, ⟨o, d, h2⟩, h3⟩ | ⟨_, e, h2, _⟩
  · rw [h2, cleanSource_caller]
    have he : (cleanSource b).buffer.isEmpty = false := by rw [c1]; exact h1
    simp [next, he]
  · rw [h3, cleanSource_caller, cleanSource_startFetch b false h2]
    have hw : (cleanSource b).worker = Worker.idle := by
      rw [(c4 (by rw [h2]; simp)).1, h2]
    obtain ⟨_, _, o, e3⟩ := startFetch_fields (cleanSource b) false
    have he : (cleanSource b).buffer.isEmpty = true := by rw [c1]; exact h1
    simp only [next, prefetch, he, hw, if_true]
    rw [e3]
  · rw [h3, cleanSource_caller]
    have hw : ∃ o2, (cleanSource b).worker = Worker.pending o2 d := by
      unfold cleanSource
      rw [h2]
      cases o <;> exact ⟨_, rfl⟩
    obtain ⟨o2, hw⟩ := hw
    have he : (cleanSource b).buffer.isEmpty = true := by rw [c1]; exact h1
    simp only [next, prefetch, he, hw, if_true]
  · exact absurd h2 (h e)

theorem cleanSource_onFetched (error : Option Err) (n index : Nat) (b : BufferedSource)
    (o : Outcome) (v : Option Log) (h : ∀ e d, b.worker ≠ Worker.pending (Outcome.fail e) d) :
    cleanSource (onFetched error n index (notify b o) v)
      = onFetched error n index (notify (cleanSource b) o) v := by
  obtain ⟨c1, c2, c3, c4⟩ := cleanSource_fields b
  obtain ⟨c5, c6⟩ := c4 h
  have hr : cleanSource (received index (notify b o) v)
      = received index (notify (cleanSource b) o) v := by
    unfold received notify
    simp only [cleanSource]
  have hs : (received index (notify b o) v).buffer.size
      = (received index (notify (cleanSource b) o) v).buffer.size := by
    unfold received notify
    simp only [c1]
  unfold onFetched
  rw [hs]
  split
  · rw [cleanSource_startFetch _ true rfl, hr]
  · exact hr

theorem cleanSource_deq (b : BufferedSource) (q : Queue Wrapper) (c : Caller) :
    cleanSource { b with buffer := q, caller := c } = { cleanSource b with buffer := q, caller := c } := by
  unfold cleanSource
  cases hw : b.worker with
  | idle => rfl
  | rejected e => rfl
  | pending o d => cases o <;> rfl

theorem healthy_next (b : BufferedSource) (h : ∀ e, b.worker ≠ Worker.rejected e) :
    (∀ e, (next b).worker ≠ Worker.rejected e) ∧ ∀ e, (next b).caller ≠ Caller.failed e := by
  rcases next_cases b with ⟨_, h2⟩ | ⟨_, _, h3⟩ | ⟨_, _, h3⟩ | ⟨_, e, h2, _⟩
  · rw [h2]; exact ⟨h, fun e => by simp⟩
  · rw [h3]
    obtain ⟨_, _, o, e3⟩ := startFetch_fields b false
    refine ⟨fun e => ?_, fun e => by simp⟩
    show (startFetch b false).worker ≠ Worker.rejected e
    rw [e3]; simp
  · rw [h3]; exact ⟨h, fun e => by simp⟩
  · exact absurd h2 (h e)

theorem clean_init (logSources : List LogSource) :
    clean (init logSources) = init (logSources.map withoutFault) := by
  unfold clean init
  simp only [List.map_map, List.length_map]
  congr 1
  apply List.map_congr_left
  intro ls _
  simp only [Function.comp]
  rw [cleanSource_next _ (by simp)]
  rfl

end Buffered

/-! ## The buffered merge: until a fetch fails the run is a run over the sources without their faults -/

namespace Buffered

theorem quiet_clean (s : State) : quiet (clean s) = quiet s := by
  unfold quiet clean
  simp only [List.all_map]
  congr 1
  funext b
  simp only [Function.comp]
  rw [(cleanSource_fields b).2.1]

theorem clean_lumbermillBody (s : State) (hh : Healthy s) :
    lumbermillBody (clean s) = clean (lumbermillBody s) ∧ Healthy (lumbermillBody s) := by
  have herr : (clean s).error = none := hh.noError
  unfold lumbermillBody
  rw [herr, hh.noError]
  dsimp only
  have hheap : (clean s).logheap = s.logheap := rfl
  rw [hheap]
  cases hpop : Heap.pop cmpDate s.logheap with
  | mk top rest =>
    cases top with
    | none =>
      dsimp only
      exact ⟨rfl, ⟨rfl, hh.workers, hh.callers⟩⟩
    | some oldest =>
      dsimp only
      have hget : (clean s).sources[oldest.source]? = (s.sources[oldest.source]?).map cleanSource := by
        simp [clean]
      rw [hget]
      cases hb : s.sources[oldest.source]? with
      | none =>
        dsimp only [Option.map]
        exact ⟨rfl, ⟨rfl, hh.workers, hh.callers⟩⟩
      | some b =>
        dsimp only [Option.map]
        have hw := hh.workers b (mem_of_get hb)
        obtain ⟨n1, n2⟩ := healthy_next b hw
        refine ⟨?_, ⟨rfl, ?_, ?_⟩⟩
        · simp only [clean, List.map_set]
          rw [cleanSource_next b hw]
        · intro x hx
          rcases mem_set_cases _ _ _ _ hx with h1 | h1
          · subst h1; exact n1
          · exact hh.workers x h1
        · intro x hx
          rcases mem_set_cases _ _ _ _ hx with h1 | h1
          · subst h1; exact n2
          · exact hh.callers x h1

theorem clean_step (s t : State) (ev : Event) (hh : Healthy s) (hst : step s ev = some t) :
    (Healthy t ∧ step (clean s) ev = some (clean t)) ∨
      ((∃ b ∈ t.sources, ∃ e, b.worker = Worker.rejected e) ∧ t.printer = s.printer) := by
  cases ev with
  | settle i =>
    simp only [step, settle] at hst
    cases hb : s.sources[i]? with
    | none => rw [hb] at hst; simp at hst
    | some b =>
      rw [hb] at hst
      dsimp only at hst
      have hi : i < s.sources.length := (List.getElem?_eq_some_iff.mp hb).1
      have hcb : (clean s).sources[i]? = some (cleanSource b) := by simp [clean, hb]
      obtain ⟨c1, c2, c3, c4⟩ := cleanSource_fields b
      have good : ∀ (o : Outcome) (d : Bool) (v : Option Log), b.worker = Worker.pending o d →
          (∀ e, o ≠ Outcome.fail e) →
          t = { s with sources := s.sources.set i (onFetched s.error s.liveSourceCount i (notify b o) v) } →
          settle (clean s) i = some { s with sources := (s.sources.map cleanSource).set i (onFetched s.error s.liveSourceCount i (notify (cleanSource b) o) v) } →
          (Healthy t ∧ step (clean s) (Event.settle i) = some (clean t)) := by
        intro o d v hw ho ht hcs
        have hnf : ∀ e d2, b.worker ≠ Worker.pending (Outcome.fail e) d2 := by
          intro e d2 hc
          rw [hw] at hc
          injection hc with h1 _
          exact ho e h1
        obtain ⟨f1, f2, _, f4⟩ := onFetched_facts s.error s.liveSourceCount i (notify b o) v
        refine ⟨⟨by rw [ht]; exact hh.noError, ?_, ?_⟩, ?_⟩
        · intro x hx
          rw [ht] at hx
          rcases mem_set_cases _ _ _ _ hx with h1 | h1
          · subst h1
            intro e
            rcases f4 with h2 | ⟨o2, h2, _⟩ <;> rw [h2] <;> simp
          · exact hh.workers x h1
        · intro x hx
          rw [ht] at hx
          rcases mem_set_cases _ _ _ _ hx with h1 | h1
          · subst h1
            intro e
            rw [f2]
            have := hh.callers b (mem_of_get hb)
            show wake b.caller o ≠ Caller.failed e
            cases hc : b.caller with
            | failed e2 => exact absurd hc (this e2)
            | idle => cases o <;> simp [wake]
            | ready => cases o <;> simp [wake]
            | waiting =>
              cases o with
              | fail e2 => exact absurd rfl (ho e2)
              | log l => simp [wake]
              | empty => simp [wake]
          · exact hh.callers x h1
        · show settle (clean s) i = some (clean t)
          rw [hcs, ht]
          simp only [clean, List.map_set]
          rw [cleanSource_onFetched _ _ _ b o v hnf]
      cases hw : b.worker with
      | idle => rw [hw] at hst; simp at hst
      | rejected e => rw [hw] at hst; simp at hst
      | pending o d =>
        rw [hw] at hst
        cases o with
        | fail e =>
          right
          simp only [Option.some.injEq] at hst
          subst hst
          constructor
          · refine ⟨{ b with worker := Worker.rejected e, caller := wake b.caller (Outcome.fail e) },
              ?_, e, rfl⟩
            cases d
            · exact List.mem_set _ _ hi _
            · exact List.mem_set _ _ hi _
          · cases d <;> rfl
        | log l =>
          left
          simp only [Option.some.injEq] at hst
          refine good (Outcome.log l) d (some l) hw (by simp) hst.symm ?_
          have hcw : (cleanSource b).worker = Worker.pending (Outcome.log l) d := by
            rw [(c4 (by rw [hw]; simp)).1, hw]
          simp only [settle, hcb, hcw]
          rfl
        | empty =>
          left
          simp only [Option.some.injEq] at hst
          refine good Outcome.empty d none hw (by simp) hst.symm ?_
          have hcw : (cleanSource b).worker = Worker.pending Outcome.empty d := by
            rw [(c4 (by rw [hw]; simp)).1, hw]
          simp only [settle, hcb, hcw]
          rfl
  | resume i =>
    simp only [step, resume] at hst
    cases hb : s.sources[i]? with
    | none => rw [hb] at hst; simp at hst
    | some b =>
      rw [hb] at hst
      dsimp only at hst
      have hcb : (clean s).sources[i]? = some (cleanSource b) := by simp [clean, hb]
      obtain ⟨c1, c2, c3, c4⟩ := cleanSource_fields b
      cases hc : b.caller with
      | idle => rw [hc] at hst; simp at hst
      | waiting => rw [hc] at hst; simp at hst
      | failed e => exact absurd hc (hh.callers b (mem_of_get hb) e)
      | ready =>
        rw [hc] at hst
        simp only [Option.some.injEq] at hst
        subst hst
        left
        refine ⟨⟨hh.noError, ?_, ?_⟩, ?_⟩
        · intro x hx
          rcases mem_set_cases _ _ _ _ hx with h1 | h1
          · subst h1; exact hh.workers b (mem_of_get hb)
          · exact hh.workers x h1
        · intro x hx
          rcases mem_set_cases _ _ _ _ hx with h1 | h1
          · subst h1; intro e; simp
          · exact hh.callers x h1
        · have hcc : (cleanSource b).caller = Caller.ready := by rw [c2, hc]
          simp only [step, resume, hcb, hcc, c1]
          simp only [clean, List.map_set, cleanSource_deq]
  | lumbermill =>
    obtain ⟨l1, l2⟩ := clean_lumbermillBody s hh
    have hp : (clean s).phase = s.phase := rfl
    simp only [step, lumbermill] at hst ⊢
    rw [hp, quiet_clean]
    left
    split at hst
    · split at hst
      · simp only [Option.some.injEq] at hst; subst hst
        rename_i hq
        simp only [hq, if_true]
        exact ⟨l2, by rw [l1]⟩
      · simp at hst
    · split at hst
      · simp only [Option.some.injEq] at hst; subst hst
        rename_i hq
        simp only [hq, if_true]
        exact ⟨l2, by rw [l1]⟩
      · simp at hst
    · simp at hst

theorem healthy_init (logSources : List LogSource) : Healthy (init logSources) := by
  refine ⟨rfl, ?_, ?_⟩
  · intro b hb
    simp only [init, List.mem_map] at hb
    obtain ⟨ls, _, e⟩ := hb
    rw [← e]
    exact (healthy_next _ (by simp)).1
  · intro b hb
    simp only [init, List.mem_map] at hb
    obtain ⟨ls, _, e⟩ := hb
    rw [← e]
    exact (healthy_next _ (by simp)).2

theorem clean_run (evs : List Event) :
    ∀ (s t : State), Facts s → Healthy s → run s evs = some t →
      ∃ k c, k ≤ evs.length ∧ run (clean s) (evs.take k) = some c ∧ c.printer = t.printer := by
  induction evs with
  | nil =>
    intro s t _ _ hr
    simp only [run, Option.some.injEq] at hr
    subst hr
    exact ⟨0, clean s, Nat.le_refl _, rfl, rfl⟩
  | cons e rest ih =>
    intro s t hf hh hr
    simp only [run] at hr
    cases hst : step s e with
    | none => rw [hst] at hr; simp at hr
    | some u =>
      rw [hst] at hr
      dsimp only at hr
      have hfu := facts_step s u e hf hst
      rcases clean_step s u e hh hst with ⟨h1, h2⟩ | ⟨h1, h2⟩
      · obtain ⟨k, c, hk, hc1, hc2⟩ := ih u t hfu h1 hr
        refine ⟨k + 1, c, by simp; omega, ?_, hc2⟩
        simp only [List.take_succ_cons, run, h2]
        exact hc1
      · obtain ⟨_, b2⟩ := blocked_run rest u t (hfu.blocked h1) hr
        exact ⟨0, clean s, Nat.zero_le _, rfl, by rw [b2, h2]; rfl⟩

theorem printer_step (s t : State) (ev : Event) (hst : step s ev = some t) :
    printed s.printer <+: printed t.printer := by
  have hrej : ∀ (u : State) (e : Err), (reject u e).printer = u.printer := by
    intro u e
    unfold reject setError
    cases hp : u.phase <;> rfl
  cases ev with
  | settle i =>
    have : t.printer = s.printer := by
      simp only [step, settle] at hst
      split at hst
      · simp at hst
      · split at hst
        · simp only [Option.some.injEq] at hst; subst hst
          split <;> rfl
        · simp only [Option.some.injEq] at hst; subst hst; rfl
        · simp only [Option.some.injEq] at hst; subst hst; rfl
        · simp at hst
    rw [this]
  | resume i =>
    have : t.printer = s.printer := by
      simp only [step, resume] at hst
      split at hst
      · simp at hst
      · split at hst
        · simp only [Option.some.injEq] at hst; subst hst; rfl
        · simp only [Option.some.injEq] at hst; subst hst; rw [hrej]
        · simp at hst
    rw [this]
  | lumbermill =>
    have hbody : printed s.printer <+: printed (lumbermillBody s).printer := by
      unfold lumbermillBody
      split
      · rw [hrej]
      · split
        · dsimp only; rw [printed_append]; exact List.prefix_append _ _
        · dsimp only
          split
          · dsimp only; rw [printed_append]; exact List.prefix_append _ _
          · dsimp only; rw [printed_append]; exact List.prefix_append _ _
    simp only [step, lumbermill] at hst
    split at hst
    · split at hst
      · simp only [Option.some.injEq] at hst; subst hst; exact hbody
      · simp at hst
    · split at hst
      · simp only [Option.some.injEq] at hst; subst hst; exact hbody
      · simp at hst
    · simp at hst

theorem printer_run (evs : List Event) :
    ∀ (s t : State), run s evs = some t → printed s.printer <+: printed t.printer := by
  induction evs with
  | nil => intro s t hr; simp [run] at hr; subst hr; exact List.prefix_refl _
  | cons e rest ih =>
    intro s t hr
    simp only [run] at hr
    cases hst : step s e with
    | none => rw [hst] at hr; simp at hr
    | some u => rw [hst] at hr; exact (printer_step s u e hst).trans (ih u t hr)

end Buffered

/-! ## The buffered merge: how the chain settles -/

namespace Buffered

theorem failed_iff (s : State) :
    failed s = true ↔ ∃ b ∈ s.sources, ∃ e, b.worker = Worker.rejected e := by
  unfold failed
  rw [List.any_eq_true]
  constructor
  · rintro ⟨b, hb, h⟩
    refine ⟨b, hb, ?_⟩
    cases hw : b.worker with
    | rejected e => exact ⟨e, rfl⟩
    | idle => rw [hw] at h; simp [isRejected] at h
    | pending o d => rw [hw] at h; simp [isRejected] at h
  · rintro ⟨b, hb, e, h⟩
    exact ⟨b, hb, by rw [h]; rfl⟩

theorem finished_of_settled {srt : Prop} (all : List Log) (s : State) (h : Inv srt all s)
    (hp : Phase.active s.phase = false) :
    s.phase = Phase.finished ∧ doneCalls s.printer = 1 := by
  have hfin : s.phase = Phase.finished := by
    cases hph : s.phase with
    | priming => rw [hph] at hp; simp [Phase.active] at hp
    | draining => rw [hph] at hp; simp [Phase.active] at hp
    | finished => rfl
    | rejected e => exact absurd hph (h.noReject e)
  refine ⟨hfin, ?_⟩
  have := h.calls
  rw [if_pos hfin] at this
  rw [this]
  simp [doneCalls, List.count_append, List.count_eq_zero]

theorem rejected_of_settled (s : State) (h : Facts s) (hd : doneCalls s.printer = 0)
    (hp : Phase.active s.phase = false) : ∃ e, s.phase = Phase.rejected e := by
  cases hph : s.phase with
  | priming => rw [hph] at hp; simp [Phase.active] at hp
  | draining => rw [hph] at hp; simp [Phase.active] at hp
  | rejected e => exact ⟨e, rfl⟩
  | finished =>
    have := h.calls
    rw [if_pos hph] at this
    rw [this] at hd
    simp [doneCalls, List.count_append] at hd

end Buffered

/-! ## The capacity in whole numbers -/

theorem bufferMaxSize_eq_capacity (n : Nat) :
    bufferMaxSize n = capacity MAX_PREFETCH_SPACE MAX_PREFETCH_DEPTH n := rfl

theorem ceil_div_nat (a n : Nat) (hn : 0 < n) :
    Int.ceil ((a : ℚ) / (n : ℚ)) = (((a + n - 1) / n : Nat) : Int) := by
  rw [Int.ceil_eq_iff]
  have hn' : (0 : ℚ) < n := by exact_mod_cast hn
  have h1 := Nat.div_add_mod (a + n - 1) n
  have h2 := Nat.mod_lt (a + n - 1) hn
  set q := (a + n - 1) / n with hq
  constructor
  · rw [lt_div_iff₀ hn']
    have : (q : Int) * n - n < a := by
      have h7 : q * n = n * q := Nat.mul_comm _ _
      have : q * n < a + n := by omega
      have h3 : ((q * n : Nat) : Int) < ((a + n : Nat) : Int) := by exact_mod_cast this
      push_cast at h3
      linarith
    have h4 : ((q : Int) - 1) * (n : Int) < (a : Int) := by linarith
    have h5 : (((q : Int) - 1) * (n : Int) : ℚ) < ((a : Int) : ℚ) := by exact_mod_cast h4
    push_cast at h5 ⊢
    linarith
  · rw [div_le_iff₀ hn']
    have : a ≤ q * n := by
      have h7 : q * n = n * q := Nat.mul_comm _ _
      omega
    have h8 : ((a : Nat) : ℚ) ≤ ((q * n : Nat) : ℚ) := by exact_mod_cast this
    push_cast at h8 ⊢
    linarith

theorem capacity_eq (space depth n : Nat) (hn : 0 < n) :
    capacity space depth n = (((min ((space + n - 1) / n) depth : Nat)) : Int) := by
  unfold capacity
  rw [if_neg (by omega)]
  have hmono : Monotone (Int.ceil : ℚ → Int) := Int.ceil_mono
  rw [hmono.map_min, ceil_div_nat space n hn]
  have : Int.ceil ((depth : ℚ)) = (depth : Int) := by
    exact_mod_cast Int.ceil_natCast depth
  rw [this]
  push_cast
  rfl

/-! ## The queue refines the list model, call by call -/

namespace Queue

variable {α : Type}

theorem peek_spec (q : Queue α) (h : q.WF) : q.peek = q.toList.head? := by
  rcases h with ⟨h1, _, _⟩ | ⟨f, h1, hf, _, hl, _⟩
  · simp [peek, h1, toList_of_first_none q h1]
  · rw [toList_of_linked q f h1 hl hf]
    simp only [peek, h1]
    rw [List.getElem?_eq_getElem hf]
    simp [List.head?_drop, hf]

theorem call_refines (q : Queue α) (h : q.WF) (c : Call α) :
    (q.call c).2.WF ∧ (q.call c).1 = (listCall q.toList c).1 ∧
      (q.call c).2.toList = (listCall q.toList c).2 := by
  cases c with
  | enq data =>
    obtain ⟨h1, h2⟩ := enq_spec q h data
    exact ⟨h1, rfl, h2⟩
  | deq =>
    obtain ⟨h1, h2, h3⟩ := deq_spec q h
    refine ⟨h1, ?_, ?_⟩
    · show q.deq.1 = _
      rw [h2]
      simp only [listCall]
      cases q.toList <;> rfl
    · show q.deq.2.toList = _
      rw [h3]
      simp only [listCall]
      cases q.toList <;> rfl
  | peek =>
    refine ⟨h, ?_, ?_⟩
    · show q.peek = _
      rw [peek_spec q h]
      simp only [listCall]
      cases q.toList <;> rfl
    · show q.toList = _
      simp only [listCall]
      cases q.toList <;> rfl

theorem calls_refine (cs : List (Call α)) :
    ∀ (q : Queue α), q.WF →
      (q.calls cs).2.WF ∧ (q.calls cs).1 = (listCalls q.toList cs).1 ∧
        (q.calls cs).2.toList = (listCalls q.toList cs).2 := by
  induction cs with
  | nil => intro q h; exact ⟨h, rfl, rfl⟩
  | cons c rest ih =>
    intro q h
    obtain ⟨h1, h2, h3⟩ := call_refines q h c
    obtain ⟨i1, i2, i3⟩ := ih (q.call c).2 h1
    simp only [calls, listCalls]
    rw [h2, i2, i3, h3]
    exact ⟨i1, rfl, rfl⟩

theorem listCalls_order (cs : List (Call α)) :
    ∀ (l : List α), l ++ enqueued cs
      = dequeued cs (listCalls l cs).1 ++ (listCalls l cs).2 := by
  induction cs with
  | nil => intro l; simp [enqueued, dequeued, listCalls]
  | cons c rest ih =>
    intro l
    cases c with
    | enq data =>
      have := ih (l ++ [data])
      simp only [listCalls, listCall, enqueued, dequeued]
      rw [← this]
      simp
    | deq =>
      cases l with
      | nil =>
        have := ih []
        simp only [listCalls, listCall, enqueued, dequeued]
        exact this
      | cons x xs =>
        have := ih xs
        simp only [listCalls, listCall, enqueued, dequeued]
        rw [List.cons_append, List.cons_append, this]
    | peek =>
      cases l with
      | nil =>
        have := ih []
        simp only [listCalls, listCall, enqueued, dequeued]
        exact this
      | cons x xs =>
        have := ih (x :: xs)
        simp only [listCalls, listCall, enqueued, dequeued]
        exact this

end Queue

/-! ## The list model: runs of enq and deq -/

namespace Queue

variable {α : Type}

theorem listCalls_append (a b : List (Call α)) :
    ∀ (l : List α), listCalls l (a ++ b)
      = ((listCalls l a).1 ++ (listCalls (listCalls l a).2 b).1,
          (listCalls (listCalls l a).2 b).2) := by
  induction a with
  | nil => intro l; simp [listCalls]
  | cons c rest ih =>
    intro l
    have := ih (listCall l c).2
    simp only [List.cons_append, listCalls]
    rw [show rest.append b = rest ++ b from rfl, this]

theorem listCalls_enqs (xs : List α) :
    ∀ (l : List α), listCalls l (xs.map Call.enq) = (List.replicate xs.length none, l ++ xs) := by
  induction xs with
  | nil => intro l; simp [listCalls]
  | cons x rest ih =>
    intro l
    simp only [List.map_cons, listCalls, listCall]
    rw [ih]
    simp [List.replicate_succ]

theorem listCalls_deqs (l : List α) :
    listCalls l (List.replicate l.length Call.deq) = (l.map some, []) := by
  induction l with
  | nil => simp [listCalls]
  | cons x rest ih =>
    simp only [List.length_cons, List.replicate_succ, listCalls, listCall]
    rw [ih]
    simp

theorem deq_of_isEmpty (q : Queue α) (h : q.isEmpty = true) : q.deq = (none, q) := by
  have : q.first = none := by
    cases hf : q.first with
    | none => rfl
    | some f => simp [isEmpty, hf] at h
  simp [deq, this]

end Queue

/-! ## The heap package: pushpop -/

namespace Heap

variable {α : Type}

theorem pushpop_spec [DecidableEq α] (cmp : α → α → Int) (key : α → Int) (hk : Keyed cmp key)
    (top : α) (rest : List α) (item : α) (h : IsHeap key (top :: rest)) :
    (cmp top item < 0 →
      IsHeap key (pushpop cmp (top :: rest) item).2 ∧
        List.Perm (pushpop cmp (top :: rest) item).2 (item :: rest)) ∧
    (¬ cmp top item < 0 → (pushpop cmp (top :: rest) item).2 = top :: rest) := by
  constructor
  · intro hlt
    have hdown : DownInv key (item :: rest) 0 := by
      refine ⟨?_, ?_⟩
      · intro i x p hi _ hpi hx hp
        obtain ⟨j, rfl⟩ : ∃ j, i = j + 1 := ⟨i - 1, by omega⟩
        obtain ⟨k, hj⟩ : ∃ k, (j + 1 - 1) / 2 = k + 1 := ⟨(j + 1 - 1) / 2 - 1, by omega⟩
        rw [hj] at hp
        have e1 : (top :: rest)[j + 1]? = some x := by simpa using hx
        have e2 : (top :: rest)[(j + 1 - 1) / 2]? = some p := by
          rw [hj]; simpa using hp
        exact h (j + 1) x p hi e1 e2
      · intro c x g _ _ h0; omega
    have := siftup_spec cmp key hk (item :: rest) hdown (by simp)
    simpa [pushpop, hlt] using this
  · intro hlt
    simp [pushpop, hlt]

theorem length_pushpop (cmp : α → α → Int) (nodes : List α) (item : α) :
    (pushpop cmp nodes item).2.length = nodes.length := by
  unfold pushpop
  split
  · split
    · simp [Buffered.length_siftup]
    · rfl
  · rfl

end Heap

/-! ## The blocking merge: every iteration uses up fuel -/

namespace Sync

theorem pop_cases (src : LogSource) :
    (∃ l rest, src.logs = l :: rest ∧ src.pop.1 = some l ∧ src.pop.2.logs = rest) ∨
      (src.logs = [] ∧ src.pop.1 = none ∧ src.pop.2.logs = []) := by
  unfold LogSource.pop
  cases h : src.logs with
  | nil => right; simp [h]
  | cons l rest => left; exact ⟨l, rest, rfl, by simp⟩

theorem length_pop_heap (nodes : List Entry) (oldest : Entry)
    (hp : Heap.peek nodes = some oldest) :
    (Heap.pop cmpDate nodes).2.length + 1 = nodes.length := by
  cases hm : (Heap.pop cmpDate nodes).1 with
  | none =>
    have := (Heap.pop_eq_none cmpDate nodes).mp hm
    rw [this] at hp
    simp [Heap.peek] at hp
  | some m => exact Buffered.length_pop cmpDate nodes m hm

theorem fuelFor_iteration (s : State) (oldest : Entry)
    (hp : Heap.peek s.logheap = some oldest) :
    fuelFor (iteration s oldest) + 1 = fuelFor s := by
  have hpop := length_pop_heap s.logheap oldest hp
  unfold iteration fuelFor
  dsimp only
  cases hsrc : s.logSources[oldest.source]? with
  | none => dsimp only; omega
  | some src =>
    dsimp only
    have hsum := Buffered.sum_map_set (fun x : LogSource => x.logs.length) s.logSources
      oldest.source src src.pop.2 hsrc
    dsimp only at hsum
    rcases pop_cases src with ⟨l, rest, h1, h2, h3⟩ | ⟨h1, h2, h3⟩
    · rw [h2]
      dsimp only
      rw [Heap.length_pushpop]
      rw [h1, h3] at hsum
      simp only [List.length_cons] at hsum
      omega
    · rw [h2]
      dsimp only
      rw [h1, h3] at hsum
      omega

end Sync

/-! ## The blocking merge: priming keeps the invariant -/

namespace Sync

theorem ordered_pop (src : LogSource) (h : Ordered src.logs) : Ordered src.pop.2.logs := by
  rcases pop_cases src with ⟨l, rest, h1, _, h3⟩ | ⟨_, _, h3⟩
  · rw [h3]
    rw [h1] at h
    exact (List.pairwise_cons.mp h).2
  · rw [h3]
    exact List.Pairwise.nil

theorem ordered_set (L : List LogSource) (i : Nat) (src : LogSource)
    (hsrc : L[i]? = some src) (h : ∀ x ∈ L, Ordered x.logs) :
    ∀ x ∈ L.set i src.pop.2, Ordered x.logs := by
  intro x hx
  rcases Buffered.mem_set_cases _ _ _ _ hx with h1 | h1
  · subst h1
    exact ordered_pop src (h src (Buffered.mem_of_get hsrc))
  · exact h x h1

theorem ahead_after_pop (L : List LogSource) (i : Nat) (src : LogSource)
    (hsrc : L[i]? = some src) (H K : List Entry) (hord : Ordered src.logs)
    (hahead : ∀ e ∈ H, ∀ x, L[e.source]? = some x → ∀ l ∈ x.logs, e.log.date ≤ l.date)
    (hsub : ∀ e ∈ K, e ∈ H ∨ ∃ l, src.pop.1 = some l ∧ e = ⟨i, l⟩) :
    ∀ e ∈ K, ∀ x, (L.set i src.pop.2)[e.source]? = some x →
      ∀ l ∈ x.logs, e.log.date ≤ l.date := by
  intro e he x hx l hl
  rcases Heap.get_set_cases _ _ _ _ _ hx with ⟨e1, e2⟩ | ⟨e1, e2⟩
  · subst e2
    rcases pop_cases src with ⟨l0, rest, h1, h2, h3⟩ | ⟨_, _, h3⟩
    · rw [h3] at hl
      rcases hsub e he with h4 | ⟨l1, h4, h5⟩
      · refine hahead e h4 src (by rw [e1]; exact hsrc) l ?_
        rw [h1]
        exact List.mem_cons_of_mem _ hl
      · rw [h2] at h4
        injection h4 with h4
        subst h4
        subst h5
        rw [h1] at hord
        exact (List.pairwise_cons.mp hord).1 l hl
    · rw [h3] at hl
      simp at hl
  · rcases hsub e he with h4 | ⟨l1, _, h5⟩
    · exact hahead e h4 x e2 l hl
    · subst h5
      exact absurd rfl e1

theorem inv_primeOne (s : State) (i : Nat) (h : Inv s) (hp : s.printer = []) :
    Inv (primeOne s i) ∧ (primeOne s i).printer = [] := by
  unfold primeOne
  cases hsrc : s.logSources[i]? with
  | none => exact ⟨h, hp⟩
  | some src =>
    dsimp only
    have hord := h.ordered src (Buffered.mem_of_get hsrc)
    cases hpop : src.pop.1 with
    | none =>
      dsimp only
      refine ⟨?_, hp⟩
      exact
        { heap := h.heap
          ordered := ordered_set _ _ _ hsrc h.ordered
          ahead := ahead_after_pop _ _ _ hsrc s.logheap s.logheap hord h.ahead
            (fun e he => Or.inl he)
          sorted := h.sorted
          below := h.below
          calls := h.calls }
    | some log =>
      dsimp only
      obtain ⟨p1, p2⟩ := Heap.push_spec cmpDate Entry.date Buffered.keyed_cmpDate s.logheap
        ⟨i, log⟩ h.heap
      refine ⟨?_, hp⟩
      exact
        { heap := p1
          ordered := ordered_set _ _ _ hsrc h.ordered
          ahead := ahead_after_pop _ _ _ hsrc s.logheap _ hord h.ahead
            (fun e he => by
              rcases List.mem_cons.mp (p2.mem_iff.mp he) with h1 | h1
              · exact Or.inr ⟨log, hpop, h1⟩
              · exact Or.inl h1)
          sorted := by show Ordered (printed s.printer); rw [hp]; exact List.Pairwise.nil
          below := by
            intro p hp2
            have : p ∈ printed s.printer := hp2
            rw [hp] at this
            simp [printed] at this
          calls := h.calls }

theorem inv_prime (logSources : List LogSource) (hs : ∀ ls ∈ logSources, Ordered ls.logs) :
    Inv (prime logSources) ∧ (prime logSources).printer = [] := by
  unfold prime
  have h0 : Inv ⟨logSources, [], []⟩ ∧ (⟨logSources, [], []⟩ : State).printer = [] :=
    ⟨{ heap := fun i x p _ hx => by simp at hx
       ordered := hs
       ahead := fun e he => by simp at he
       sorted := List.Pairwise.nil
       below := fun p hp => by simp [printed] at hp
       calls := rfl }, rfl⟩
  generalize List.range logSources.length = idx
  generalize (⟨logSources, [], []⟩ : State) = s at h0
  induction idx generalizing s with
  | nil => exact h0
  | cons i rest ih =>
    simp only [List.foldl_cons]
    exact ih _ (inv_primeOne s i h0.1 h0.2)

end Sync

/-! ## The blocking merge: the loop keeps the invariant and ends -/

namespace Sync

theorem peek_root (nodes : List Entry) (oldest : Entry) (hp : Heap.peek nodes = some oldest) :
    ∃ rest, nodes = oldest :: rest := by
  cases nodes with
  | nil => simp [Heap.peek] at hp
  | cons a rest =>
    simp [Heap.peek] at hp
    exact ⟨rest, by rw [hp]⟩

theorem mem_pop (nodes : List Entry) (h : Heap.IsHeap Entry.date nodes) :
    Heap.IsHeap Entry.date (Heap.pop cmpDate nodes).2 ∧
      ∀ e ∈ (Heap.pop cmpDate nodes).2, e ∈ nodes := by
  cases hm : (Heap.pop cmpDate nodes).1 with
  | none =>
    have := (Heap.pop_eq_none cmpDate nodes).mp hm
    subst this
    simp [Heap.pop]
    intro i x p _ hx
    simp at hx
  | some m =>
    obtain ⟨q1, q2, _⟩ := Heap.pop_spec cmpDate Entry.date Buffered.keyed_cmpDate nodes h m hm
    exact ⟨q2, fun e he => q1.mem_iff.mpr (List.mem_cons_of_mem _ he)⟩

theorem inv_iteration (s : State) (oldest : Entry) (h : Inv s)
    (hp : Heap.peek s.logheap = some oldest) : Inv (iteration s oldest) := by
  obtain ⟨rest0, hnodes⟩ := peek_root s.logheap oldest hp
  have hmem : oldest ∈ s.logheap := by rw [hnodes]; exact List.mem_cons_self _ _
  have hroot : ∀ e ∈ s.logheap, oldest.log.date ≤ e.log.date := by
    intro e he
    obtain ⟨i, hi⟩ := List.getElem?_of_mem he
    exact Heap.root_le Entry.date s.logheap h.heap oldest (by rw [hnodes]; simp) i e hi
  have hp1 : printed (s.printer ++ [PrinterCall.print oldest.log])
      = printed s.printer ++ [oldest.log] := by
    rw [Buffered.printed_append]; simp [printed]
  have hsorted : Ordered (printed (s.printer ++ [PrinterCall.print oldest.log])) := by
    rw [hp1]
    unfold Ordered
    rw [List.pairwise_append]
    refine ⟨h.sorted, List.pairwise_singleton _ _, ?_⟩
    intro a ha b hb
    simp only [List.mem_singleton] at hb
    subst hb
    exact h.below a ha oldest hmem
  have hcalls : s.printer ++ [PrinterCall.print oldest.log]
      = (printed (s.printer ++ [PrinterCall.print oldest.log])).map PrinterCall.print := by
    rw [hp1]
    simp only [List.map_append, List.map_cons, List.map_nil]
    rw [← h.calls]
  have hbelow : ∀ (K : List Entry), (∀ e ∈ K, oldest.log.date ≤ e.log.date) →
      ∀ p ∈ printed (s.printer ++ [PrinterCall.print oldest.log]), ∀ e ∈ K,
        p.date ≤ e.log.date := by
    intro K hK p hpm e he
    rw [hp1] at hpm
    rcases List.mem_append.mp hpm with h1 | h1
    · exact le_trans (h.below p h1 oldest hmem) (hK e he)
    · simp only [List.mem_singleton] at h1
      subst h1
      exact hK e he
  obtain ⟨m1, m2⟩ := mem_pop s.logheap h.heap
  unfold iteration
  dsimp only
  cases hsrc : s.logSources[oldest.source]? with
  | none =>
    dsimp only
    exact
      { heap := m1
        ordered := h.ordered
        ahead := fun e he => h.ahead e (m2 e he)
        sorted := hsorted
        below := hbelow _ (fun e he => hroot e (m2 e he))
        calls := hcalls }
  | some src =>
    dsimp only
    have hord := h.ordered src (Buffered.mem_of_get hsrc)
    cases hpop : src.pop.1 with
    | none =>
      dsimp only
      exact
        { heap := m1
          ordered := ordered_set _ _ _ hsrc h.ordered
          ahead := ahead_after_pop _ _ _ hsrc s.logheap _ hord h.ahead
            (fun e he => Or.inl (m2 e he))
          sorted := hsorted
          below := hbelow _ (fun e he => hroot e (m2 e he))
          calls := hcalls }
    | some log =>
      dsimp only
      have hlog : oldest.log.date ≤ log.date := by
        rcases pop_cases src with ⟨l0, rest, h1, h2, _⟩ | ⟨_, h2, _⟩
        · rw [h2] at hpop
          injection hpop with hpop
          subst hpop
          exact h.ahead oldest hmem src hsrc l0 (by rw [h1]; exact List.mem_cons_self _ _)
        · rw [h2] at hpop
          simp at hpop
      have hheap : Heap.IsHeap Entry.date (oldest :: rest0) := by rw [← hnodes]; exact h.heap
      obtain ⟨s1, s2⟩ := Heap.pushpop_spec cmpDate Entry.date Buffered.keyed_cmpDate oldest rest0
        ⟨oldest.source, log⟩ hheap
      rw [hnodes]
      by_cases hlt : cmpDate oldest ⟨oldest.source, log⟩ < 0
      · obtain ⟨t1, t2⟩ := s1 hlt
        have hsub : ∀ e ∈ (Heap.pushpop cmpDate (oldest :: rest0) ⟨oldest.source, log⟩).2,
            e = ⟨oldest.source, log⟩ ∨ e ∈ rest0 := fun e he => List.mem_cons.mp (t2.mem_iff.mp he)
        exact
          { heap := t1
            ordered := ordered_set _ _ _ hsrc h.ordered
            ahead := ahead_after_pop _ _ _ hsrc s.logheap _ hord h.ahead
              (fun e he => by
                rcases hsub e he with h1 | h1
                · exact Or.inr ⟨log, hpop, h1⟩
                · left; rw [hnodes]; exact List.mem_cons_of_mem _ h1)
            sorted := hsorted
            below := hbelow _ (fun e he => by
              rcases hsub e he with h1 | h1
              · subst h1; exact hlog
              · exact hroot e (by rw [hnodes]; exact List.mem_cons_of_mem _ h1))
            calls := hcalls }
      · have t1 := s2 hlt
        rw [t1]
        exact
          { heap := hheap
            ordered := ordered_set _ _ _ hsrc h.ordered
            ahead := ahead_after_pop _ _ _ hsrc s.logheap _ hord h.ahead
              (fun e he => by left; rw [hnodes]; exact he)
            sorted := hsorted
            below := hbelow _ (fun e he => hroot e (by rw [hnodes]; exact he))
            calls := hcalls }

theorem loop_spec (fuel : Nat) :
    ∀ (s : State), fuelFor s ≤ fuel →
      (loop fuel s).logheap = [] ∧ loop fuel s = loop (fuelFor s) s ∧
        (Inv s → Inv (loop fuel s)) := by
  induction fuel with
  | zero =>
    intro s hf
    have h0 : fuelFor s = 0 := by omega
    have hnil : s.logheap = [] := by
      unfold fuelFor at h0
      exact List.length_eq_zero.mp (by omega)
    rw [h0]
    exact ⟨hnil, rfl, fun h => h⟩
  | succ k ih =>
    intro s hf
    cases hp : Heap.peek s.logheap with
    | none =>
      have hnil : s.logheap = [] := by
        cases hh : s.logheap with
        | nil => rfl
        | cons a r => rw [hh] at hp; simp [Heap.peek] at hp
      have hl : ∀ n, loop n s = s := by
        intro n
        cases n with
        | zero => rfl
        | succ j => simp [loop, hp]
      rw [hl, hl]
      exact ⟨hnil, rfl, fun h => h⟩
    | some oldest =>
      have hdec := fuelFor_iteration s oldest hp
      obtain ⟨i1, i2, i3⟩ := ih (iteration s oldest) (by omega)
      have e1 : loop (k + 1) s = loop k (iteration s oldest) := by simp [loop, hp]
      have e2 : loop (fuelFor s) s = loop (fuelFor (iteration s oldest)) (iteration s oldest) := by
        rw [← hdec]
        simp [loop, hp]
      rw [e1, e2]
      exact ⟨i1, i2, fun h => i3 (inv_iteration s oldest h hp)⟩

end Sync

/-! ## The buffered merge: the buffers stay within the capacity -/

namespace Buffered

theorem one_le_bufferMaxSize (n : Nat) : 1 ≤ bufferMaxSize n := by
  cases n with
  | zero =>
    have : bufferMaxSize 0 = 100 := by
      unfold bufferMaxSize
      rw [if_pos rfl]
      exact_mod_cast Int.ceil_natCast 100
    rw [this]
    decide
  | succ k =>
    rw [bufferMaxSize_eq_capacity, capacity_eq _ _ (k + 1) (by omega)]
    have h1 : 1 ≤ (MAX_PREFETCH_SPACE + (k + 1) - 1) / (k + 1) := by
      rw [Nat.le_div_iff_mul_le (by omega)]
      simp only [MAX_PREFETCH_SPACE]
      omega
    have : 1 ≤ min ((MAX_PREFETCH_SPACE + (k + 1) - 1) / (k + 1)) MAX_PREFETCH_DEPTH := by
      rw [Nat.le_min]
      exact ⟨h1, by decide⟩
    exact_mod_cast this

theorem within_next (cap : Int) (b : BufferedSource) (hwf : b.buffer.WF) (h : Within cap b)
    (hcap : 1 ≤ cap) : Within cap (next b) := by
  rcases next_cases b with ⟨_, e⟩ | ⟨he, _, e⟩ | ⟨_, _, e⟩ | ⟨_, er, _, e⟩
  · rw [e]; exact h
  · rw [e]
    obtain ⟨e1, _, o, e3⟩ := startFetch_fields b false
    have hz : b.buffer.size = 0 := by
      rw [Queue.size_eq _ hwf, (Queue.isEmpty_iff _ hwf).mp he]
      rfl
    constructor
    · show (startFetch b false).buffer.size ≤ cap
      rw [e1, hz]; omega
    · intro _ _ _
      show (startFetch b false).buffer.size + 1 ≤ cap
      rw [e1, hz]; omega
  · rw [e]; exact h
  · rw [e]; exact h

theorem within_onFetched (error : Option Err) (n index : Nat) (b : BufferedSource)
    (v : Option Log) (h : Within (bufferMaxSize n) b) (hw : ∃ o d, b.worker = Worker.pending o d) :
    Within (bufferMaxSize n) (onFetched error n index b v) := by
  obtain ⟨o, d, hw⟩ := hw
  have h1 := h.2 o d hw
  have hs : (received index b v).buffer.size = b.buffer.size + 1 := size_enq _ _
  unfold onFetched
  split
  · rename_i hc
    obtain ⟨e1, _, _, _⟩ := startFetch_fields (received index b v) true
    rw [hs] at hc
    constructor
    · rw [e1, hs]; exact h1
    · intro _ _ _
      rw [e1, hs]
      omega
  · constructor
    · rw [hs]; exact h1
    · intro o2 d2 hc
      simp [received] at hc

theorem within_step (s t : State) (ev : Event) (hs : Sane s)
    (h : ∀ b ∈ s.sources, Within (bufferMaxSize s.liveSourceCount) b)
    (hst : step s ev = some t) :
    ∀ b ∈ t.sources, Within (bufferMaxSize t.liveSourceCount) b := by
  have hlive := (potential_step s t ev hs hst).2
  rw [hlive]
  have hrej : ∀ (u : State) (e : Err), (reject u e).sources = u.sources := by
    intro u e
    unfold reject setError
    cases hp : u.phase <;> rfl
  cases ev with
  | settle i =>
    simp only [step, settle] at hst
    cases hb : s.sources[i]? with
    | none => rw [hb] at hst; simp at hst
    | some b =>
      rw [hb] at hst
      dsimp only at hst
      have hwb := h b (mem_of_get hb)
      cases hw : b.worker with
      | idle => rw [hw] at hst; simp at hst
      | rejected e => rw [hw] at hst; simp at hst
      | pending o d =>
        rw [hw] at hst
        have hnot : ∃ o2 d2, (notify b o).worker = Worker.pending o2 d2 := ⟨o, d, hw⟩
        have hwn : Within (bufferMaxSize s.liveSourceCount) (notify b o) := hwb
        cases o with
        | fail e =>
          simp only [Option.some.injEq] at hst
          subst hst
          intro x hx
          have hx2 : x ∈ s.sources.set i
              { b with worker := Worker.rejected e, caller := wake b.caller (Outcome.fail e) } := by
            cases d <;> exact hx
          rcases mem_set_cases _ _ _ _ hx2 with h1 | h1
          · subst h1
            exact ⟨hwb.1, fun o2 d2 hc => by simp at hc⟩
          · exact h x h1
        | log l =>
          simp only [Option.some.injEq] at hst
          subst hst
          intro x hx
          rcases mem_set_cases _ _ _ _ hx with h1 | h1
          · subst h1
            exact within_onFetched _ _ _ _ _ hwn hnot
          · exact h x h1
        | empty =>
          simp only [Option.some.injEq] at hst
          subst hst
          intro x hx
          rcases mem_set_cases _ _ _ _ hx with h1 | h1
          · subst h1
            exact within_onFetched _ _ _ _ _ hwn hnot
          · exact h x h1
  | resume i =>
    simp only [step, resume] at hst
    cases hb : s.sources[i]? with
    | none => rw [hb] at hst; simp at hst
    | some b =>
      rw [hb] at hst
      dsimp only at hst
      have hwb := h b (mem_of_get hb)
      cases hc : b.caller with
      | idle => rw [hc] at hst; simp at hst
      | waiting => rw [hc] at hst; simp at hst
      | failed e =>
        rw [hc] at hst
        simp only [Option.some.injEq] at hst
        subst hst
        rw [hrej]
        intro x hx
        rcases mem_set_cases _ _ _ _ hx with h1 | h1
        · subst h1; exact hwb
        · exact h x h1
      | ready =>
        rw [hc] at hst
        simp only [Option.some.injEq] at hst
        subst hst
        intro x hx
        rcases mem_set_cases _ _ _ _ hx with h1 | h1
        · subst h1
          have hd := size_deq b.buffer
          constructor
          · show b.buffer.deq.2.size ≤ _
            have := hwb.1
            omega
          · intro o d hw
            show b.buffer.deq.2.size + 1 ≤ _
            have := hwb.2 o d hw
            omega
        · exact h x h1
  | lumbermill =>
    have hbody : ∀ b ∈ (lumbermillBody s).sources,
        Within (bufferMaxSize s.liveSourceCount) b := by
      unfold lumbermillBody
      split
      · rw [hrej]; exact h
      · split
        · exact h
        · dsimp only
          split
          · exact h
          · rename_i b hb
            intro x hx
            rcases mem_set_cases _ _ _ _ hx with h1 | h1
            · subst h1
              exact within_next _ b (hs b (mem_of_get hb)).1 (h b (mem_of_get hb))
                (one_le_bufferMaxSize _)
            · exact h x h1
    simp only [step, lumbermill] at hst
    split at hst
    · split at hst
      · simp only [Option.some.injEq] at hst; subst hst; exact hbody
      · simp at hst
    · split at hst
      · simp only [Option.some.injEq] at hst; subst hst; exact hbody
      · simp at hst
    · simp at hst

theorem within_init (logSources : List LogSource) :
    ∀ b ∈ (init logSources).sources, Within (bufferMaxSize (init logSources).liveSourceCount) b := by
  intro b hb
  simp only [init, List.mem_map] at hb
  obtain ⟨ls, _, e⟩ := hb
  rw [← e]
  refine within_next _ _ Queue.wf_new ?_ (one_le_bufferMaxSize _)
  have := one_le_bufferMaxSize (init logSources).liveSourceCount
  constructor
  · show (0 : Int) ≤ _
    omega
  · intro o d hc
    simp at hc

theorem within_run (evs : List Event) :
    ∀ (s t : State), Sane s → (∀ b ∈ s.sources, Within (bufferMaxSize s.liveSourceCount) b) →
      run s evs = some t → ∀ b ∈ t.sources, Within (bufferMaxSize t.liveSourceCount) b := by
  induction evs with
  | nil => intro s t _ h hr; simp [run] at hr; subst hr; exact h
  | cons e rest ih =>
    intro s t hs h hr
    simp only [run] at hr
    cases hst : step s e with
    | none => rw [hst] at hr; simp at hr
    | some u =>
      rw [hst] at hr
      exact ih u t (sane_step s u e hs hst) (within_step s u e hs h hst) hr

end Buffered

/-! ## The buffered merge: calls of popAsync and their completions -/

namespace Buffered

theorem calls_onFetched (error : Option Err) (n index : Nat) (b : BufferedSource)
    (v : Option Log) :
    (onFetched error n index b v).calls = b.calls + busy (onFetched error n index b v).worker := by
  unfold onFetched
  split
  · obtain ⟨_, _, o, e3⟩ := startFetch_fields (received index b v) true
    rw [(startFetch_origin (received index b v) true).2.2.2, e3]
    rfl
  · rfl

theorem calls_next (b : BufferedSource) :
    (next b).calls + busy b.worker = b.calls + busy (next b).worker := by
  rcases next_cases b with ⟨_, e⟩ | ⟨_, hw, e⟩ | ⟨_, _, e⟩ | ⟨_, er, _, e⟩
  · rw [e]
  · rw [e]
    obtain ⟨_, _, o, e3⟩ := startFetch_fields b false
    show (startFetch b false).calls + busy b.worker = b.calls + busy (startFetch b false).worker
    rw [(startFetch_origin b false).2.2.2, e3, hw]
    rfl
  · rw [e]
  · rw [e]

theorem calls_step (s t : State) (ev : Event) (hst : step s ev = some t) (i : Nat)
    (b : BufferedSource) (hb : s.sources[i]? = some b) :
    ∃ c, t.sources[i]? = some c ∧
      c.calls + busy b.worker
        = b.calls + busy c.worker + (if ev = Event.settle i then 1 else 0) := by
  have hi : i < s.sources.length := Heap.lt_length_of_get hb
  have hrej : ∀ (u : State) (e : Err), (reject u e).sources = u.sources := by
    intro u e
    unfold reject setError
    cases hp : u.phase <;> rfl
  have hset : ∀ (j : Nat) (x : BufferedSource), j ≠ i →
      (s.sources.set j x)[i]? = some b := by
    intro j x hj
    rw [List.getElem?_set_ne hj]
    exact hb
  have hsame : ∀ (x : BufferedSource), (s.sources.set i x)[i]? = some x := by
    intro x
    rw [List.getElem?_set_self hi]
  cases ev with
  | settle j =>
    simp only [step, settle] at hst
    cases hbj : s.sources[j]? with
    | none => rw [hbj] at hst; simp at hst
    | some bj =>
      rw [hbj] at hst
      dsimp only at hst
      by_cases hji : j = i
      · subst hji
        rw [hb] at hbj
        injection hbj with hbj
        subst hbj
        rw [if_pos rfl]
        cases hw : b.worker with
        | idle => rw [hw] at hst; simp at hst
        | rejected e => rw [hw] at hst; simp at hst
        | pending o d =>
          rw [hw] at hst
          cases o with
          | fail e =>
            simp only [Option.some.injEq] at hst
            subst hst
            refine ⟨{ b with worker := Worker.rejected e, caller := wake b.caller (Outcome.fail e) },
              ?_, rfl⟩
            cases d <;> exact hsame _
          | log l =>
            simp only [Option.some.injEq] at hst
            subst hst
            refine ⟨_, hsame _, ?_⟩
            rw [calls_onFetched]
            simp only [busy, notify]
          | empty =>
            simp only [Option.some.injEq] at hst
            subst hst
            refine ⟨_, hsame _, ?_⟩
            rw [calls_onFetched]
            simp only [busy, notify]
      · have hne : ¬ (Event.settle j = Event.settle i) := by
          intro hc
          injection hc with hc
          exact hji hc
        rw [if_neg hne]
        refine ⟨b, ?_, rfl⟩
        cases hw : bj.worker with
        | idle => rw [hw] at hst; simp at hst
        | rejected e => rw [hw] at hst; simp at hst
        | pending o d =>
          rw [hw] at hst
          cases o with
          | fail e =>
            simp only [Option.some.injEq] at hst
            subst hst
            cases d <;> exact hset _ _ hji
          | log l =>
            simp only [Option.some.injEq] at hst
            subst hst
            exact hset _ _ hji
          | empty =>
            simp only [Option.some.injEq] at hst
            subst hst
            exact hset _ _ hji
  | resume j =>
    rw [if_neg (by simp)]
    simp only [step, resume] at hst
    cases hbj : s.sources[j]? with
    | none => rw [hbj] at hst; simp at hst
    | some bj =>
      rw [hbj] at hst
      dsimp only at hst
      cases hc : bj.caller with
      | idle => rw [hc] at hst; simp at hst
      | waiting => rw [hc] at hst; simp at hst
      | failed e =>
        rw [hc] at hst
        simp only [Option.some.injEq] at hst
        subst hst
        rw [hrej]
        by_cases hji : j = i
        · subst hji
          rw [hb] at hbj
          injection hbj with hbj
          subst hbj
          exact ⟨_, hsame _, rfl⟩
        · exact ⟨b, hset _ _ hji, rfl⟩
      | ready =>
        rw [hc] at hst
        simp only [Option.some.injEq] at hst
        subst hst
        by_cases hji : j = i
        · subst hji
          rw [hb] at hbj
          injection hbj with hbj
          subst hbj
          exact ⟨_, hsame _, rfl⟩
        · exact ⟨b, hset _ _ hji, rfl⟩
  | lumbermill =>
    rw [if_neg (by simp)]
    have hbody : ∃ c, (lumbermillBody s).sources[i]? = some c ∧
        c.calls + busy b.worker = b.calls + busy c.worker + 0 := by
      unfold lumbermillBody
      cases herr : s.error with
      | some e => dsimp only; rw [hrej]; exact ⟨b, hb, rfl⟩
      | none =>
        dsimp only
        cases hpop : Heap.pop cmpDate s.logheap with
        | mk top rest =>
          cases top with
          | none => exact ⟨b, hb, rfl⟩
          | some oldest =>
            dsimp only
            cases hbj : s.sources[oldest.source]? with
            | none => exact ⟨b, hb, rfl⟩
            | some bj =>
              dsimp only
              by_cases hji : oldest.source = i
              · rw [hji] at hbj ⊢
                rw [hb] at hbj
                injection hbj with hbj
                subst hbj
                exact ⟨_, hsame _, calls_next b⟩
              · exact ⟨b, hset _ _ hji, rfl⟩
    simp only [step, lumbermill] at hst
    split at hst
    · split at hst
      · simp only [Option.some.injEq] at hst; subst hst; exact hbody
      · simp at hst
    · split at hst
      · simp only [Option.some.injEq] at hst; subst hst; exact hbody
      · simp at hst
    · simp at hst

theorem calls_run (evs : List Event) :
    ∀ (s t : State), run s evs = some t → ∀ (i : Nat) (b : BufferedSource),
      s.sources[i]? = some b →
      ∃ c, t.sources[i]? = some c ∧
        c.calls + busy b.worker = b.calls + busy c.worker + completed evs i := by
  induction evs with
  | nil =>
    intro s t hr i b hb
    simp only [run, Option.some.injEq] at hr
    subst hr
    exact ⟨b, hb, by simp [completed]⟩
  | cons e rest ih =>
    intro s t hr i b hb
    simp only [run] at hr
    cases hst : step s e with
    | none => rw [hst] at hr; simp at hr
    | some u =>
      rw [hst] at hr
      obtain ⟨c1, h1, h2⟩ := calls_step s u e hst i b hb
      obtain ⟨c2, h3, h4⟩ := ih u t hr i c1 h1
      refine ⟨c2, h3, ?_⟩
      have hcount : completed (e :: rest) i
          = completed rest i + (if e = Event.settle i then 1 else 0) := by
        unfold completed
        rw [List.count_cons]
        simp only [beq_iff_eq]
      rw [hcount]
      omega

theorem busy_le_one (w : Worker) : busy w ≤ 1 := by
  cases w <;> simp [busy]

end Buffered

/-! ## One buffered source: a fetch brings the next value -/

namespace Buffered

theorem feeds_startFetch (ls : LogSource) (index n : Nat) (b : BufferedSource) (d : Bool)
    (c : Caller) (h : Feeds ls index n b) (hw : b.worker = Worker.idle)
    (hc1 : c = Caller.ready → b.buffer.toList ≠ []) (hc2 : ∀ e, c ≠ Caller.failed e) :
    Feeds ls index n { startFetch b d with caller := c } := by
  have hrest := h.rest
  rw [hw] at hrest
  simp only [busy, Nat.add_zero] at hrest
  have hget : ∀ l rest, b.logSource.logs = l :: rest →
      ls.logs[n + b.buffer.toList.length]? = some l ∧
        rest = ls.logs.drop (n + b.buffer.toList.length + 1) := by
    intro l rest hl
    rw [hrest] at hl
    constructor
    · have := congrArg (fun x => x[0]?) hl
      simpa [List.getElem?_drop] using this
    · have := congrArg List.tail hl
      simpa [List.tail_drop] using this.symm
  have hnil : b.logSource.logs = [] →
      ls.logs[n + b.buffer.toList.length]? = none ∧
        ([] : List Log) = ls.logs.drop (n + b.buffer.toList.length + 1) := by
    intro hl
    rw [hrest] at hl
    have hlen : ls.logs.length ≤ n + b.buffer.toList.length := List.drop_eq_nil_iff.mp hl
    exact ⟨List.getElem?_eq_none hlen, (List.drop_eq_nil_iff.mpr (by omega)).symm⟩
  unfold startFetch LogSource.popAsync
  cases hl : b.logSource.logs with
  | cons l rest =>
    obtain ⟨g1, g2⟩ := hget l rest hl
    exact
      { wf := h.wf
        noFault := h.noFault
        buffered := h.buffered
        rest := by simpa [busy] using g2
        inFlight := fun o d2 ho => by
          simp at ho
          rw [← ho.1, g1]
          rfl
        noRejected := fun e => by simp
        waiting := fun _ => ⟨_, _, rfl⟩
        ready := hc1
        noFailed := hc2 }
  | nil =>
    obtain ⟨g1, g2⟩ := hnil hl
    rw [h.noFault]
    exact
      { wf := h.wf
        noFault := rfl
        buffered := h.buffered
        rest := by simpa [busy, hl] using g2
        inFlight := fun o d2 ho => by
          simp at ho
          rw [← ho.1, g1]
          rfl
        noRejected := fun e => by simp
        waiting := fun _ => ⟨_, _, rfl⟩
        ready := hc1
        noFailed := hc2 }

end Buffered

/-! ## One buffered source: next, the callback of prefetch and the continuation -/

namespace Buffered

theorem feeds_fresh (ls : LogSource) (index : Nat) (hf : ls.fault = none) :
    Feeds ls index 0 { logSource := ls } :=
  { wf := Queue.wf_new
    noFault := hf
    buffered := fun j w hw => by
      have : ((Queue.new : Queue Wrapper).toList)[j]? = some w := hw
      rw [Queue.toList_new] at this
      simp at this
    rest := by
      show ls.logs = ls.logs.drop (0 + (Queue.new : Queue Wrapper).toList.length + busy Worker.idle)
      rw [Queue.toList_new]
      simp [busy]
    inFlight := fun o d h => by simp at h
    noRejected := fun e => by simp
    waiting := fun h => by simp at h
    ready := fun h => by simp at h
    noFailed := fun e => by simp }

theorem feeds_next (ls : LogSource) (index n : Nat) (b : BufferedSource)
    (h : Feeds ls index n b) : Feeds ls index n (next b) := by
  rcases next_cases b with ⟨he, e⟩ | ⟨_, hw, e⟩ | ⟨_, hw, e⟩ | ⟨_, er, hw, _⟩
  · rw [e]
    have hne : b.buffer.toList ≠ [] := by
      intro hc
      rw [(Queue.isEmpty_iff _ h.wf).mpr hc] at he
      simp at he
    exact
      { wf := h.wf
        noFault := h.noFault
        buffered := h.buffered
        rest := h.rest
        inFlight := h.inFlight
        noRejected := h.noRejected
        waiting := fun hc => by simp at hc
        ready := fun _ => hne
        noFailed := fun e => by simp }
  · rw [e]
    exact feeds_startFetch ls index n b false Caller.waiting h hw (fun hc => by simp at hc)
      (fun e => by simp)
  · rw [e]
    exact
      { wf := h.wf
        noFault := h.noFault
        buffered := h.buffered
        rest := h.rest
        inFlight := h.inFlight
        noRejected := h.noRejected
        waiting := fun _ => hw
        ready := fun hc => by simp at hc
        noFailed := fun e => by simp }
  · exact absurd hw (h.noRejected er)

theorem feeds_onFetched (ls : LogSource) (index n : Nat) (b : BufferedSource)
    (error : Option Err) (count : Nat) (o : Outcome) (d : Bool) (v : Option Log)
    (h : Feeds ls index n b) (hw : b.worker = Worker.pending o d)
    (hv : Outcome.value o = some v) :
    Feeds ls index n (onFetched error count index (notify b o) v) ∧
      (b.caller = Caller.waiting →
        (onFetched error count index (notify b o) v).caller = Caller.ready) := by
  obtain ⟨w1, w2⟩ := Queue.enq_spec b.buffer h.wf ⟨index, v⟩
  have hval : v = ls.logs[n + b.buffer.toList.length]? := by
    have := h.inFlight o d hw
    rw [hv] at this
    injection this
  have hnofail : ∀ e, o ≠ Outcome.fail e := by
    intro e hc
    rw [hc] at hv
    simp [Outcome.value] at hv
  have hwake : ∀ e, wake b.caller o ≠ Caller.failed e := by
    intro e
    cases hc : b.caller with
    | failed e2 => exact absurd hc (h.noFailed e2)
    | idle => cases o <;> simp [wake]
    | ready => cases o <;> simp [wake]
    | waiting =>
      cases o with
      | fail e2 => exact absurd rfl (hnofail e2)
      | log l => simp [wake]
      | empty => simp [wake]
  have hrest := h.rest
  rw [hw] at hrest
  simp only [busy] at hrest
  have hr : Feeds ls index n (received index (notify b o) v) :=
    { wf := w1
      noFault := h.noFault
      buffered := fun j w hj => by
        have hj2 : (b.buffer.toList ++ [⟨index, v⟩])[j]? = some w := by rw [← w2]; exact hj
        by_cases hlt : j < b.buffer.toList.length
        · rw [List.getElem?_append_left hlt] at hj2
          exact h.buffered j w hj2
        · rw [List.getElem?_append_right (by omega)] at hj2
          have hj0 : j = b.buffer.toList.length := by
            by_contra hne
            have : j - b.buffer.toList.length ≠ 0 := by omega
            obtain ⟨k, hk⟩ := Nat.exists_eq_succ_of_ne_zero this
            rw [hk] at hj2
            simp at hj2
          rw [hj0] at hj2 ⊢
          simp at hj2
          rw [← hj2, hval]
      rest := by
        show b.logSource.logs = ls.logs.drop (n + (b.buffer.enq ⟨index, v⟩).toList.length
          + busy Worker.idle)
        rw [w2, hrest]
        simp [busy]
        rfl
      inFlight := fun o2 d2 hc => by simp [received] at hc
      noRejected := fun e => by simp [received]
      waiting := fun hc => absurd hc (wake_ne_waiting _ _)
      ready := fun _ => by
        show (b.buffer.enq ⟨index, v⟩).toList ≠ []
        rw [w2]; simp
      noFailed := hwake }
  have hcal : (onFetched error count index (notify b o) v).caller = wake b.caller o :=
    (onFetched_facts error count index (notify b o) v).2.1
  constructor
  · unfold onFetched
    split
    · exact feeds_startFetch ls index n (received index (notify b o) v) true
        (received index (notify b o) v).caller hr rfl hr.ready hr.noFailed
    · exact hr
  · intro hc
    rw [hcal, hc]
    cases o with
    | fail e2 => exact absurd rfl (hnofail e2)
    | log l => rfl
    | empty => rfl

theorem feeds_resume (ls : LogSource) (index n : Nat) (b : BufferedSource)
    (h : Feeds ls index n b) (hc : b.caller = Caller.ready) :
    b.buffer.deq.1 = some ⟨index, ls.logs[n]?⟩ ∧
      Feeds ls index (n + 1) { b with buffer := b.buffer.deq.2, caller := Caller.idle } := by
  obtain ⟨d1, d2, d3⟩ := Queue.deq_spec b.buffer h.wf
  have hne := h.ready hc
  cases hl : b.buffer.toList with
  | nil => exact absurd hl hne
  | cons w tl =>
    rw [hl] at d2 d3
    simp only [List.head?_cons, List.tail_cons] at d2 d3
    have hw0 : w = ⟨index, ls.logs[n]?⟩ := by
      have := h.buffered 0 w (by rw [hl]; simp)
      simpa using this
    have hrest := h.rest
    rw [hl] at hrest
    simp only [List.length_cons] at hrest
    refine ⟨by rw [d2, hw0], ?_⟩
    exact
      { wf := d1
        noFault := h.noFault
        buffered := fun j x hj => by
          have hj2 : tl[j]? = some x := by rw [← d3]; exact hj
          have := h.buffered (j + 1) x (by rw [hl]; simpa using hj2)
          rw [this]
          congr 2
          omega
        rest := by
          show b.logSource.logs = ls.logs.drop (n + 1 + b.buffer.deq.2.toList.length + busy b.worker)
          rw [d3, hrest]
          congr 1
          omega
        inFlight := fun o d hw => by
          show Outcome.value o = some (ls.logs[n + 1 + b.buffer.deq.2.toList.length]?)
          rw [d3]
          have := h.inFlight o d hw
          rw [hl] at this
          simp only [List.length_cons] at this
          rw [this]
          congr 2
          omega
        noRejected := h.noRejected
        waiting := fun hc2 => by simp at hc2
        ready := fun hc2 => by simp at hc2
        noFailed := fun e => by simp }

end Buffered

/-! ## One buffered source: the values next resolves to -/

namespace Buffered

theorem feeds_act (ls : LogSource) (index n : Nat) (b c : BufferedSource) (a : Act)
    (r : List (Option Wrapper)) (h : Feeds ls index n b) (ha : act index b a = some (c, r)) :
    Feeds ls index (n + r.length) c ∧ (r = [] ∨ r = [some ⟨index, ls.logs[n]?⟩]) := by
  cases a with
  | call =>
    simp only [act] at ha
    split at ha
    · simp only [Option.some.injEq, Prod.mk.injEq] at ha
      obtain ⟨e1, e2⟩ := ha
      subst e1; subst e2
      exact ⟨feeds_next ls index n b h, Or.inl rfl⟩
    · simp at ha
  | settle error count =>
    simp only [act] at ha
    cases hw : b.worker with
    | idle => rw [hw] at ha; simp at ha
    | rejected e => rw [hw] at ha; simp at ha
    | pending o d =>
      rw [hw] at ha
      cases o with
      | fail e =>
        have := h.inFlight _ d hw
        simp [Outcome.value] at this
      | log l =>
        simp only [Option.some.injEq, Prod.mk.injEq] at ha
        obtain ⟨e1, e2⟩ := ha
        subst e1; subst e2
        exact ⟨(feeds_onFetched ls index n b error count _ d (some l) h hw rfl).1, Or.inl rfl⟩
      | empty =>
        simp only [Option.some.injEq, Prod.mk.injEq] at ha
        obtain ⟨e1, e2⟩ := ha
        subst e1; subst e2
        exact ⟨(feeds_onFetched ls index n b error count _ d none h hw rfl).1, Or.inl rfl⟩
  | resume =>
    simp only [act] at ha
    cases hc : b.caller with
    | idle => rw [hc] at ha; simp at ha
    | waiting => rw [hc] at ha; simp at ha
    | failed e => rw [hc] at ha; simp at ha
    | ready =>
      rw [hc] at ha
      simp only [Option.some.injEq, Prod.mk.injEq] at ha
      obtain ⟨e1, e2⟩ := ha
      subst e1; subst e2
      obtain ⟨r1, r2⟩ := feeds_resume ls index n b h hc
      exact ⟨r2, Or.inr (by rw [r1])⟩

theorem feeds_acts (ls : LogSource) (index : Nat) (as : List Act) :
    ∀ (n : Nat) (b c : BufferedSource) (r : List (Option Wrapper)), Feeds ls index n b →
      acts index b as = some (c, r) →
      Feeds ls index (n + r.length) c ∧
        ∀ j, j < r.length → r[j]? = some (some ⟨index, ls.logs[n + j]?⟩) := by
  induction as with
  | nil =>
    intro n b c r h ha
    simp only [acts, Option.some.injEq, Prod.mk.injEq] at ha
    obtain ⟨e1, e2⟩ := ha
    subst e1; subst e2
    exact ⟨h, fun j hj => by simp at hj⟩
  | cons a rest ih =>
    intro n b c r h ha
    simp only [acts] at ha
    cases h1 : act index b a with
    | none => rw [h1] at ha; simp at ha
    | some p1 =>
      rw [h1] at ha
      dsimp only at ha
      cases h2 : acts index p1.1 rest with
      | none => rw [h2] at ha; simp at ha
      | some p2 =>
        rw [h2] at ha
        simp only [Option.some.injEq, Prod.mk.injEq] at ha
        obtain ⟨e1, e2⟩ := ha
        subst e1; subst e2
        obtain ⟨f1, f2⟩ := feeds_act ls index n b p1.1 a p1.2 h h1
        obtain ⟨g1, g2⟩ := ih (n + p1.2.length) p1.1 p2.1 p2.2 f1 h2
        constructor
        · rw [List.length_append, ← Nat.add_assoc]
          exact g1
        · intro j hj
          rcases f2 with f2 | f2
          · rw [f2] at g2 hj ⊢
            simp only [List.nil_append, List.length_nil, Nat.add_zero] at g2 hj ⊢
            exact g2 j hj
          · rw [f2] at g2 hj ⊢
            simp only [List.length_cons, List.length_nil, List.singleton_append] at g2 hj ⊢
            cases j with
            | zero => simp
            | succ k =>
              have hk : k < p2.2.length := Nat.lt_of_succ_lt_succ hj
              have := g2 k hk
              have e : n + (0 + 1) + k = n + (k + 1) := by omega
              rw [e] at this
              simp only [List.getElem?_cons_succ]
              exact this

theorem can_resolve (ls : LogSource) (index n : Nat) (b : BufferedSource)
    (h : Feeds ls index n b) (hc : b.caller ≠ Caller.idle) :
    ∃ as c w, as.length ≤ 2 ∧ acts index b as = some (c, [w]) ∧ c.caller = Caller.idle := by
  have hready : ∀ (x : BufferedSource), x.caller = Caller.ready →
      acts index x [Act.resume]
        = some ({ x with buffer := x.buffer.deq.2, caller := Caller.idle }, [x.buffer.deq.1]) := by
    intro x hx
    simp [acts, act, hx]
  cases hcal : b.caller with
  | idle => exact absurd hcal hc
  | failed e => exact absurd hcal (h.noFailed e)
  | ready =>
    exact ⟨[Act.resume], { b with buffer := b.buffer.deq.2, caller := Caller.idle }, b.buffer.deq.1,
      by simp, hready b hcal, rfl⟩
  | waiting =>
    obtain ⟨o, d, hw⟩ := h.waiting hcal
    have hval := h.inFlight o d hw
    have hstep : ∃ x, act index b (Act.settle none 0) = some (x, []) ∧ x.caller = Caller.ready := by
      cases o with
      | fail e => simp [Outcome.value] at hval
      | log l =>
        exact ⟨_, by simp [act, hw],
          (feeds_onFetched ls index n b none 0 _ d (some l) h hw rfl).2 hcal⟩
      | empty =>
        exact ⟨_, by simp [act, hw],
          (feeds_onFetched ls index n b none 0 _ d none h hw rfl).2 hcal⟩
    obtain ⟨x, hx1, hx2⟩ := hstep
    refine ⟨[Act.settle none 0, Act.resume],
      { x with buffer := x.buffer.deq.2, caller := Caller.idle }, x.buffer.deq.1, by simp, ?_, rfl⟩
    · show acts index b (Act.settle none 0 :: [Act.resume]) = _
      have := hready x hx2
      simp only [acts, hx1] at this ⊢
      rw [this]
      rfl

theorem settle_is_act (s t : State) (i : Nat) (hst : settle s i = some t) :
    ∃ b c, s.sources[i]? = some b ∧ t.sources[i]? = some c ∧
      act i b (Act.settle s.error s.liveSourceCount) = some (c, []) := by
  simp only [settle] at hst
  cases hb : s.sources[i]? with
  | none => rw [hb] at hst; simp at hst
  | some b =>
    rw [hb] at hst
    dsimp only at hst
    have hi : i < s.sources.length := Heap.lt_length_of_get hb
    cases hw : b.worker with
    | idle => rw [hw] at hst; simp at hst
    | rejected e => rw [hw] at hst; simp at hst
    | pending o d =>
      rw [hw] at hst
      cases o with
      | fail e =>
        simp only [Option.some.injEq] at hst
        subst hst
        refine ⟨b, { b with worker := Worker.rejected e, caller := wake b.caller (Outcome.fail e) },
          rfl, ?_, by simp [act, hw]⟩
        cases d <;> simp [setError, hi]
      | log l =>
        simp only [Option.some.injEq] at hst
        subst hst
        exact ⟨b, onFetched s.error s.liveSourceCount i (notify b (Outcome.log l)) (some l), rfl,
          by simp [hi], by simp [act, hw]⟩
      | empty =>
        simp only [Option.some.injEq] at hst
        subst hst
        exact ⟨b, onFetched s.error s.liveSourceCount i (notify b Outcome.empty) none, rfl,
          by simp [hi], by simp [act, hw]⟩

theorem resume_is_act (s t : State) (i : Nat) (b : BufferedSource)
    (hb : s.sources[i]? = some b) (hc : b.caller = Caller.ready) (hst : resume s i = some t) :
    ∃ c w, act i b Act.resume = some (c, [w]) ∧ t.sources[i]? = some c ∧
      t.logheap = pushToHeap s.logheap w := by
  have hi : i < s.sources.length := Heap.lt_length_of_get hb
  simp only [resume, hb, hc, Option.some.injEq] at hst
  subst hst
  exact ⟨{ b with buffer := b.buffer.deq.2, caller := Caller.idle }, b.buffer.deq.1,
    by simp [act, hc], by simp [hi], rfl⟩

end Buffered

/-! ## The capacity does not depend on the rounding of the division -/

/-- The rounding of the division does not matter: any value `x` as close to
the quotient `1000000 / n` as a correctly rounded double-precision division is
(relative error at most `2 ^ -53`, and no error when the quotient is a whole
number) gives the capacity that exact arithmetic gives. -/
theorem bufferMaxSize_of_rounded (n : Nat) (hn : 1 ≤ n) (x : ℚ)
    (hexact : n ∣ 1000000 → x = (1000000 : ℚ) / (n : ℚ))
    (hnear : |x - (1000000 : ℚ) / (n : ℚ)| ≤ (1000000 : ℚ) / (n : ℚ) / 2 ^ 53) :
    Int.ceil (min x 100) = bufferMaxSize n := by
  have hcap : bufferMaxSize n = Int.ceil (min ((1000000 : ℚ) / (n : ℚ)) 100) := by
    unfold bufferMaxSize
    rw [if_neg (by omega)]
    simp [MAX_PREFETCH_SPACE, MAX_PREFETCH_DEPTH]
  by_cases hdiv : n ∣ 1000000
  · rw [hexact hdiv, hcap]
  · have hn' : (0 : ℚ) < n := by exact_mod_cast hn
    have hmono : Monotone (Int.ceil : ℚ → Int) := Int.ceil_mono
    rw [hcap, hmono.map_min, hmono.map_min]
    congr 1
    have hceil := ceil_div_nat 1000000 n (by omega)
    simp only [Nat.cast_ofNat] at hceil
    rw [hceil]
    have h1 : (1000000 + n - 1) / n * n ≤ 1000000 + n - 1 := Nat.div_mul_le_self _ _
    have h2 := Nat.div_add_mod (1000000 + n - 1) n
    have h3 := Nat.mod_lt (1000000 + n - 1) (show 0 < n by omega)
    have hcomm : n * ((1000000 + n - 1) / n) = (1000000 + n - 1) / n * n := Nat.mul_comm _ _
    have hne : (1000000 + n - 1) / n * n ≠ 1000000 := by
      intro hc
      exact hdiv ⟨(1000000 + n - 1) / n, by omega⟩
    have hlo : 1000000 + 1 ≤ (1000000 + n - 1) / n * n := by omega
    set k := (1000000 + n - 1) / n with hk
    have hloq : (1000000 : ℚ) + 1 ≤ (k : ℚ) * n := by exact_mod_cast hlo
    have hhiq : (k : ℚ) * n ≤ 1000000 + n - 1 := by
      have : ((k * n : Nat) : ℚ) ≤ ((1000000 + n - 1 : Nat) : ℚ) := by exact_mod_cast h1
      rw [Nat.cast_sub (by omega)] at this
      push_cast at this
      exact this
    have hq : (1000000 : ℚ) / n * n = 1000000 := div_mul_cancel₀ _ (ne_of_gt hn')
    have hsmall : (1000000 : ℚ) / (n : ℚ) / 2 ^ 53 * n < 1 := by
      rw [div_mul_eq_mul_div, hq]
      norm_num
    obtain ⟨ha, hb⟩ := abs_le.mp hnear
    rw [Int.ceil_eq_iff]
    push_cast
    constructor
    · have : ((k : ℚ) - 1) * n < x * n := by nlinarith
      exact lt_of_mul_lt_mul_right this (le_of_lt hn')
    · have : x * n ≤ (k : ℚ) * n := by nlinarith
      exact le_of_mul_le_mul_right this hn'

/-! ## The buffered merge: the run without the faults replays the schedule up to the failing fetch -/

namespace Buffered

theorem clean_enabled (s t : State) (ev : Event) (hst : step s ev = some t) :
    ∃ c, step (clean s) ev = some c ∧ c.printer = t.printer := by
  have hrej : ∀ (u : State) (e : Err), (reject u e).printer = u.printer := by
    intro u e
    unfold reject setError
    cases hp : u.phase <;> rfl
  cases ev with
  | settle i =>
    simp only [step, settle] at hst
    cases hb : s.sources[i]? with
    | none => rw [hb] at hst; simp at hst
    | some b =>
      rw [hb] at hst
      dsimp only at hst
      have hcb : (clean s).sources[i]? = some (cleanSource b) := by simp [clean, hb]
      cases hw : b.worker with
      | idle => rw [hw] at hst; simp at hst
      | rejected e => rw [hw] at hst; simp at hst
      | pending o d =>
        rw [hw] at hst
        have hpr : t.printer = s.printer := by
          cases o with
          | fail e =>
            simp only [Option.some.injEq] at hst
            subst hst
            cases d <;> rfl
          | log l =>
            simp only [Option.some.injEq] at hst
            subst hst
            rfl
          | empty =>
            simp only [Option.some.injEq] at hst
            subst hst
            rfl
        have hcw : ∃ o2, (cleanSource b).worker = Worker.pending o2 d ∧
            ∀ e, o2 ≠ Outcome.fail e := by
          unfold cleanSource
          rw [hw]
          cases o with
          | fail e => exact ⟨Outcome.empty, rfl, fun e => by simp⟩
          | log l => exact ⟨Outcome.log l, rfl, fun e => by simp⟩
          | empty => exact ⟨Outcome.empty, rfl, fun e => by simp⟩
        obtain ⟨o2, hcw, hnf⟩ := hcw
        rw [hpr]
        simp only [step, settle, hcb, hcw]
        cases o2 with
        | fail e => exact absurd rfl (hnf e)
        | log l => exact ⟨_, rfl, rfl⟩
        | empty => exact ⟨_, rfl, rfl⟩
  | resume i =>
    simp only [step, resume] at hst
    cases hb : s.sources[i]? with
    | none => rw [hb] at hst; simp at hst
    | some b =>
      rw [hb] at hst
      dsimp only at hst
      have hcb : (clean s).sources[i]? = some (cleanSource b) := by simp [clean, hb]
      have hcc : (cleanSource b).caller = b.caller := (cleanSource_fields b).2.1
      cases hc : b.caller with
      | idle => rw [hc] at hst; simp at hst
      | waiting => rw [hc] at hst; simp at hst
      | failed e =>
        rw [hc] at hst
        simp only [Option.some.injEq] at hst
        subst hst
        rw [hc] at hcc
        simp only [step, resume, hcb, hcc]
        exact ⟨_, rfl, by rw [hrej, hrej]; rfl⟩
      | ready =>
        rw [hc] at hst
        simp only [Option.some.injEq] at hst
        subst hst
        rw [hc] at hcc
        simp only [step, resume, hcb, hcc]
        exact ⟨_, rfl, rfl⟩
  | lumbermill =>
    have hbody : (lumbermillBody (clean s)).printer = (lumbermillBody s).printer := by
      have herr : (clean s).error = s.error := rfl
      have hheap : (clean s).logheap = s.logheap := rfl
      unfold lumbermillBody
      rw [herr, hheap]
      cases he : s.error with
      | some e => dsimp only; rw [hrej, hrej]; rfl
      | none =>
        dsimp only
        cases hpop : Heap.pop cmpDate s.logheap with
        | mk top rest =>
          cases top with
          | none => rfl
          | some oldest =>
            dsimp only
            have hget : (clean s).sources[oldest.source]?
                = (s.sources[oldest.source]?).map cleanSource := by
              simp [clean]
            rw [hget]
            cases hb : s.sources[oldest.source]? with
            | none => rfl
            | some b => rfl
    have hp : (clean s).phase = s.phase := rfl
    simp only [step, lumbermill] at hst ⊢
    rw [hp, quiet_clean]
    split at hst
    · split at hst
      · simp only [Option.some.injEq] at hst; subst hst
        rename_i hq
        simp only [hq, if_true]
        exact ⟨_, rfl, hbody⟩
      · simp at hst
    · split at hst
      · simp only [Option.some.injEq] at hst; subst hst
        rename_i hq
        simp only [hq, if_true]
        exact ⟨_, rfl, hbody⟩
      · simp at hst
    · simp at hst

theorem healthy_not_failed (s : State) (h : Healthy s) : failed s = false ∧ s.error = none := by
  refine ⟨?_, h.noError⟩
  cases hf : failed s with
  | false => rfl
  | true =>
    obtain ⟨b, hb, e, he⟩ := (failed_iff s).mp hf
    exact absurd he (h.workers b hb e)

theorem clean_run_until (evs : List Event) :
    ∀ (s t : State), Facts s → Healthy s → run s evs = some t →
      (Healthy t ∧ run (clean s) evs = some (clean t)) ∨
      ∃ k s0 s1 c1, k < evs.length ∧ run s (evs.take k) = some s0 ∧ Healthy s0 ∧
        run (clean s) (evs.take k) = some (clean s0) ∧
        run s (evs.take (k + 1)) = some s1 ∧ failed s1 = true ∧
        run (clean s) (evs.take (k + 1)) = some c1 ∧ c1.printer = s0.printer ∧
        t.printer = s0.printer := by
  induction evs with
  | nil =>
    intro s t _ hh hr
    simp only [run, Option.some.injEq] at hr
    subst hr
    exact Or.inl ⟨hh, rfl⟩
  | cons e rest ih =>
    intro s t hf hh hr
    simp only [run] at hr
    cases hst : step s e with
    | none => rw [hst] at hr; simp at hr
    | some u =>
      rw [hst] at hr
      dsimp only at hr
      have hfu := facts_step s u e hf hst
      rcases clean_step s u e hh hst with ⟨h1, h2⟩ | ⟨h1, h2⟩
      · rcases ih u t hfu h1 hr with ⟨g1, g2⟩ | ⟨k, s0, s1, c1, hk, a1, a2, a3, a4, a5, a6, a7, a8⟩
        · left
          refine ⟨g1, ?_⟩
          simp only [run, h2]
          exact g2
        · right
          refine ⟨k + 1, s0, s1, c1, by simp; omega, ?_, a2, ?_, ?_, a5, ?_, a7, a8⟩
          · simp only [List.take_succ_cons, run, hst]; exact a1
          · simp only [List.take_succ_cons, run, h2]; exact a3
          · simp only [List.take_succ_cons, run, hst]; exact a4
          · simp only [List.take_succ_cons, run, h2]; exact a6
      · right
        obtain ⟨_, b2⟩ := blocked_run rest u t (hfu.blocked h1) hr
        obtain ⟨c, hc1, hc2⟩ := clean_enabled s u e hst
        refine ⟨0, s, u, c, by simp, rfl, hh, rfl, ?_, (failed_iff u).mpr h1, ?_, ?_, ?_⟩
        · simp [run, hst]
        · simp [run, hc1]
        · rw [hc2, h2]
        · rw [b2, h2]

end Buffered

/-! ## The claims -/

/-- C1. Buffered merge: when every source yields its records in non-decreasing
timestamp order and no fetch fails, then in every state of every run (whatever
the order in which fetches settle and continuations run) the records passed to
`printer.print` so far are in non-decreasing timestamp order. -/
theorem buffered_prints_in_order (logSources : List LogSource)
    (hs : ∀ ls ∈ logSources, Ordered ls.logs) (hf : ∀ ls ∈ logSources, ls.fault = none)
    (evs : List Buffered.Event) (s : Buffered.State)
    (hr : Buffered.run (Buffered.init logSources) evs = some s) :
    Ordered (printed s.printer) :=
  (Buffered.inv_run (allLogs logSources) evs _ s
    (Buffered.inv_init logSources (fun (_ : True) => hs) hf) hr).sorted trivial

/-- The sources 1, 4, 7 and 2, 5, 8 and 3, 6, 9 are printed as 1, 2, ..., 9. -/
theorem buffered_prints_in_order_witness :
    (printed (Buffered.outcome Example.three Example.threeSchedule).printer).map (fun l => l.date)
        = [1, 2, 3, 4, 5, 6, 7, 8, 9] ∧
      Ordered (printed (Buffered.outcome Example.three Example.threeSchedule).printer) :=
  ⟨by decide!,
    buffered_prints_in_order Example.three (by decide) (by decide) Example.threeSchedule _
      (Buffered.run_outcome _ _ (by decide!))⟩


/-- C2. Buffered merge without a failing fetch: no run is longer than the
termination measure of the initial state, in every state in which
`printer.done` has not been called some event can still happen, and once the
merge has finished the records passed to `printer.print` are a permutation of
all the records of all the sources (each printed exactly once, nothing else
printed), whatever timestamps they carry. -/
theorem buffered_prints_every_record (logSources : List LogSource)
    (hf : ∀ ls ∈ logSources, ls.fault = none)
    (evs : List Buffered.Event) (s : Buffered.State)
    (hr : Buffered.run (Buffered.init logSources) evs = some s) :
    evs.length ≤ Buffered.potential (Buffered.init logSources) ∧
      (s.phase ≠ Phase.finished → ∃ e t, Buffered.step s e = some t) ∧
      (s.phase = Phase.finished → List.Perm (printed s.printer) (allLogs logSources)) := by
  have hinv := Buffered.inv_run (allLogs logSources) evs _ s
    (Buffered.inv_init logSources (fun (h : False) => h.elim) hf) hr
  have hsane := Buffered.sane_run evs _ s (Buffered.sane_init logSources) hr
  have hlen := Buffered.run_length evs _ s (Buffered.sane_init logSources) hr
  have hemp := Buffered.emptied_run (allLogs logSources) evs _ s
    (Buffered.inv_init logSources (fun (h : False) => h.elim) hf)
    (fun hp => by simp [Buffered.init] at hp) hr
  refine ⟨by omega, ?_, ?_⟩
  · intro hp
    exact Buffered.progress s hsane (Buffered.active_of_not_finished _ s hinv hp)
  · intro hp
    exact Buffered.printed_perm _ s hinv hemp hp

/-- Two sources that share the timestamp 1: both records are printed. -/
theorem buffered_prints_every_record_witness :
    (Buffered.outcome Example.tie Example.tieBuffered).phase = Phase.finished ∧
      List.Perm (printed (Buffered.outcome Example.tie Example.tieBuffered).printer)
        (allLogs Example.tie) :=
  ⟨by decide!,
    (buffered_prints_every_record Example.tie (by decide) Example.tieBuffered _
      (Buffered.run_outcome _ _ (by decide!))).2.2 (by decide!)⟩


/-- C3, at the failing input: on one source with two records of timestamp 1
the blocking merge prints the first record twice and never prints the second:
`pushpop` leaves the heap as it is because the top does not compare strictly
less than the new record. -/
theorem sync_drops_equal_timestamp :
    Sync.syncSortedMerge Example.twins
      = [PrinterCall.print ⟨1, 0⟩, PrinterCall.print ⟨1, 0⟩, PrinterCall.done] := by
  decide


/-- C4. Asynchronous merge without a failing fetch, on the buffered path and
in the slow implementation: no run is longer than the termination measure of
the initial state, in every state before the finish some event can still
happen, and the calls made on the printer are the calls of `print` followed,
once the merge has finished and not before, by exactly one call of `done`. -/
theorem done_once_after_last_print (logSources : List LogSource)
    (hf : ∀ ls ∈ logSources, ls.fault = none) :
    (∀ (evs : List Buffered.Event) (s : Buffered.State),
      Buffered.run (Buffered.init logSources) evs = some s →
        evs.length ≤ Buffered.potential (Buffered.init logSources) ∧
        (s.phase ≠ Phase.finished → ∃ e t, Buffered.step s e = some t) ∧
        s.printer = (printed s.printer).map PrinterCall.print
          ++ (if s.phase = Phase.finished then [PrinterCall.done] else [])) ∧
    (∀ (evs : List Slow.Event) (s : Slow.State),
      Slow.run (Slow.init logSources) evs = some s →
        evs.length ≤ Slow.potential (Slow.init logSources) ∧
        (s.phase ≠ Phase.finished → ∃ e t, Slow.step s e = some t) ∧
        s.printer = (printed s.printer).map PrinterCall.print
          ++ (if s.phase = Phase.finished then [PrinterCall.done] else [])) := by
  constructor
  · intro evs s hr
    have hinv := Buffered.inv_run (allLogs logSources) evs _ s
      (Buffered.inv_init logSources (fun (h : False) => h.elim) hf) hr
    have hsane := Buffered.sane_run evs _ s (Buffered.sane_init logSources) hr
    have hlen := Buffered.run_length evs _ s (Buffered.sane_init logSources) hr
    exact ⟨by omega,
      fun hp => Buffered.progress s hsane (Buffered.active_of_not_finished _ s hinv hp),
      hinv.calls⟩
  · intro evs s hr
    have hinv := Slow.slow_inv_run (allLogs logSources) evs _ s
      (Slow.slow_inv_init logSources (fun (h : False) => h.elim) hf) hr
    have hlen := Slow.slow_run_length evs _ s hr
    exact ⟨by omega,
      fun hp => Slow.slow_progress s (Slow.slow_active_of_not_finished _ s hinv hp),
      hinv.calls⟩

/-- A source without records and a source with the timestamps 10 and 20: both
paths print 10, 20 and then call `done` once. -/
theorem done_once_after_last_print_witness :
    (Buffered.outcome Example.withEmpty Example.withEmptySchedule).printer
        = [PrinterCall.print ⟨10, 0⟩, PrinterCall.print ⟨20, 0⟩, PrinterCall.done] ∧
      (Slow.outcome Example.withEmpty Example.withEmptySlow).printer
        = [PrinterCall.print ⟨10, 0⟩, PrinterCall.print ⟨20, 0⟩, PrinterCall.done] ∧
      (Buffered.outcome Example.withEmpty Example.withEmptySchedule).printer
        = (printed (Buffered.outcome Example.withEmpty Example.withEmptySchedule).printer).map
            PrinterCall.print
          ++ (if (Buffered.outcome Example.withEmpty Example.withEmptySchedule).phase
                = Phase.finished then [PrinterCall.done] else []) :=
  ⟨by decide!, by decide!,
    ((done_once_after_last_print Example.withEmpty (by decide)).1 Example.withEmptySchedule _
      (Buffered.run_outcome _ _ (by decide!))).2.2⟩


/-- C5. Buffered merge, any run in which the fetch of some source has failed
(state `s1`) and any state `s` reached from there: `printer.done` has not been
called and the chain of the export is not fulfilled; nothing has been printed
since the failure; the run is no longer than the termination measure of the
initial state and, as long as the chain has not settled, some event can still
happen, and once it has settled it is rejected. The same run without the
failure: with `k` the place in the schedule of the first event at which a
fetch fails (no fetch has failed and no error is recorded in the state `s0`
before it, a fetch has failed in the state `sf` after it), the run over the
same sources without their faults takes the same first `k` events and is then
in the state `s0` with the faults taken out (`Buffered.clean s0`), whose
printer holds exactly the records printed by the failing run; it also takes
event `k`, which prints nothing; every state it reaches from there has the
records printed by the failing run as a prefix of its printed records; and it
can go on to finish with one call of `done`. -/
theorem failed_fetch_rejects (logSources : List LogSource)
    (evs1 evs2 : List Buffered.Event) (s1 s : Buffered.State)
    (hr1 : Buffered.run (Buffered.init logSources) evs1 = some s1)
    (hfail : Buffered.failed s1 = true)
    (hr2 : Buffered.run s1 evs2 = some s) :
    doneCalls s.printer = 0 ∧ s.phase ≠ Phase.finished ∧ s.printer = s1.printer ∧
      (evs1 ++ evs2).length ≤ Buffered.potential (Buffered.init logSources) ∧
      (Phase.active s.phase = true → ∃ e t, Buffered.step s e = some t) ∧
      (Phase.active s.phase = false → ∃ e, s.phase = Phase.rejected e) ∧
      ∃ k s0 sf c1, k < evs1.length ∧
        Buffered.run (Buffered.init logSources) (evs1.take k) = some s0 ∧
        Buffered.failed s0 = false ∧ s0.error = none ∧
        Buffered.run (Buffered.init logSources) (evs1.take (k + 1)) = some sf ∧
        Buffered.failed sf = true ∧
        Buffered.run (Buffered.init (logSources.map Buffered.withoutFault)) (evs1.take k)
          = some (Buffered.clean s0) ∧
        (Buffered.clean s0).printer = s.printer ∧
        Buffered.run (Buffered.init (logSources.map Buffered.withoutFault)) (evs1.take (k + 1))
          = some c1 ∧
        c1.printer = s.printer ∧
        (∀ evs3 c, Buffered.run (Buffered.clean s0) evs3 = some c →
          printed s.printer <+: printed c.printer) ∧
        ∃ evs3 c,
          Buffered.run (Buffered.init (logSources.map Buffered.withoutFault))
            (evs1.take k ++ evs3) = some c ∧
          c.phase = Phase.finished ∧ doneCalls c.printer = 1 ∧
          printed s.printer <+: printed c.printer := by
  have hrej := (Buffered.failed_iff s1).mp hfail
  have hF1 := Buffered.facts_run evs1 _ s1 (Buffered.facts_init logSources) hr1
  have hF := Buffered.facts_run evs2 s1 s hF1 hr2
  obtain ⟨_, hpr⟩ := Buffered.blocked_run evs2 s1 s (hF1.blocked hrej) hr2
  have hdone : doneCalls s.printer = 0 := by
    rw [hpr]; exact (Buffered.unfinished_of_rejected s1 hF1 hrej).2
  have hnf : s.phase ≠ Phase.finished := by
    intro hc
    have := hF.calls
    rw [if_pos hc] at this
    rw [this] at hdone
    simp [doneCalls, List.count_append] at hdone
  have hrun : Buffered.run (Buffered.init logSources) (evs1 ++ evs2) = some s := by
    rw [Buffered.run_append, hr1]; exact hr2
  have hlen := Buffered.run_length _ _ s (Buffered.sane_init logSources) hrun
  refine ⟨hdone, hnf, hpr, by omega,
    Buffered.progress s (Buffered.sane_of_facts s hF),
    Buffered.rejected_of_settled s hF hdone, ?_⟩
  rcases Buffered.clean_run_until evs1 _ s1 (Buffered.facts_init logSources)
    (Buffered.healthy_init logSources) hr1 with ⟨g1, _⟩ | ⟨k, s0, sf, c1, hk, a1, a2, a3, a4, a5, a6, a7, a8⟩
  · have := (Buffered.healthy_not_failed s1 g1).1
    rw [hfail] at this
    simp at this
  rw [Buffered.clean_init] at a3 a6
  have hps : s.printer = s0.printer := by rw [hpr, a8]
  have hf : ∀ ls ∈ logSources.map Buffered.withoutFault, ls.fault = none := by
    intro ls hls
    obtain ⟨l0, _, e⟩ := List.mem_map.mp hls
    rw [← e]; rfl
  have hinv0 := Buffered.inv_run (allLogs (logSources.map Buffered.withoutFault)) _ _
    (Buffered.clean s0) (Buffered.inv_init _ (fun (h : False) => h.elim) hf) a3
  have hsane0 := Buffered.sane_run _ _ (Buffered.clean s0) (Buffered.sane_init _) a3
  obtain ⟨evs3, c, hc3, hc4⟩ := Buffered.can_settle (Buffered.potential (Buffered.clean s0))
    (Buffered.clean s0) (Nat.le_refl _) hsane0
  have hinv := Buffered.inv_run _ evs3 (Buffered.clean s0) c hinv0 hc3
  obtain ⟨hfin, hone⟩ := Buffered.finished_of_settled _ c hinv hc4
  have hall : ∀ evs3 c, Buffered.run (Buffered.clean s0) evs3 = some c →
      printed s.printer <+: printed c.printer := by
    intro evs4 c4 h4
    have := Buffered.printer_run evs4 (Buffered.clean s0) c4 h4
    rw [hps]
    exact this
  refine ⟨k, s0, sf, c1, hk, a1, (Buffered.healthy_not_failed s0 a2).1,
    (Buffered.healthy_not_failed s0 a2).2, a4, a5, a3, hps.symm, a6, by rw [a7, hps],
    hall, evs3, c, ?_, hfin, hone, hall evs3 c hc3⟩
  rw [Buffered.run_append, a3]; exact hc3

/-- Two sources whose second fetch fails: after the record 1 is printed the
read-ahead of source 1 fails (event 5 of the schedule), then the fetch of
source 0 the merge waits for; the chain is rejected, `done` is not called, and
the run without the faults takes the same events 0 to 5 and has then printed
the record 1, like the failing run. -/
theorem failed_fetch_rejects_witness :
    printed (Buffered.outcome Example.twoFaults Example.twoFaultsSchedule).printer = [⟨1, 0⟩] ∧
      (Buffered.outcome Example.twoFaults Example.twoFaultsSchedule).phase = Phase.rejected 7 ∧
      Buffered.failed (Buffered.outcome Example.twoFaults (Example.twoFaultsSchedule.take 5))
        = false ∧
      Buffered.failed (Buffered.outcome Example.twoFaults (Example.twoFaultsSchedule.take 6))
        = true ∧
      printed (Buffered.outcome (Example.twoFaults.map Buffered.withoutFault)
        (Example.twoFaultsSchedule.take 6)).printer = [⟨1, 0⟩] ∧
      doneCalls (Buffered.outcome Example.twoFaults Example.twoFaultsSchedule).printer = 0 ∧
      ∃ k s0 sf c1, k < (Example.twoFaultsSchedule.take 6).length ∧
        Buffered.run (Buffered.init Example.twoFaults) ((Example.twoFaultsSchedule.take 6).take k)
          = some s0 ∧
        Buffered.failed s0 = false ∧ s0.error = none ∧
        Buffered.run (Buffered.init Example.twoFaults)
          ((Example.twoFaultsSchedule.take 6).take (k + 1)) = some sf ∧
        Buffered.failed sf = true ∧
        Buffered.run (Buffered.init (Example.twoFaults.map Buffered.withoutFault))
          ((Example.twoFaultsSchedule.take 6).take k) = some (Buffered.clean s0) ∧
        (Buffered.clean s0).printer
          = (Buffered.outcome Example.twoFaults Example.twoFaultsSchedule).printer ∧
        Buffered.run (Buffered.init (Example.twoFaults.map Buffered.withoutFault))
          ((Example.twoFaultsSchedule.take 6).take (k + 1)) = some c1 ∧
        c1.printer = (Buffered.outcome Example.twoFaults Example.twoFaultsSchedule).printer ∧
        (∀ evs3 c, Buffered.run (Buffered.clean s0) evs3 = some c →
          printed (Buffered.outcome Example.twoFaults Example.twoFaultsSchedule).printer
            <+: printed c.printer) ∧
        ∃ evs3 c,
          Buffered.run (Buffered.init (Example.twoFaults.map Buffered.withoutFault))
            ((Example.twoFaultsSchedule.take 6).take k ++ evs3) = some c ∧
          c.phase = Phase.finished ∧ doneCalls c.printer = 1 ∧
          printed (Buffered.outcome Example.twoFaults Example.twoFaultsSchedule).printer
            <+: printed c.printer :=
  ⟨by decide!, by decide!, by decide!, by decide!, by decide!,
    (failed_fetch_rejects Example.twoFaults (Example.twoFaultsSchedule.take 6)
      (Example.twoFaultsSchedule.drop 6)
      (Buffered.outcome Example.twoFaults (Example.twoFaultsSchedule.take 6))
      (Buffered.outcome Example.twoFaults Example.twoFaultsSchedule)
      (Buffered.run_outcome _ _ (by decide!)) (by decide!) (by decide!)).1,
    (failed_fetch_rejects Example.twoFaults (Example.twoFaultsSchedule.take 6)
      (Example.twoFaultsSchedule.drop 6)
      (Buffered.outcome Example.twoFaults (Example.twoFaultsSchedule.take 6))
      (Buffered.outcome Example.twoFaults Example.twoFaultsSchedule)
      (Buffered.run_outcome _ _ (by decide!)) (by decide!) (by decide!)).2.2.2.2.2.2⟩


/-- C6, as stated, fails: on two sources that share a timestamp the buffered
merge, when the fetch of source 0 settles first, prints the record of source 0
first, and the slow implementation, when the fetch of source 1 settles first,
prints the record of source 1 first. -/
theorem fallback_order_differs :
    (Buffered.outcome Example.tie Example.tieBuffered).phase = Phase.finished ∧
      (Slow.outcome Example.tie Example.tieSlow).phase = Phase.finished ∧
      printed (Buffered.outcome Example.tie Example.tieBuffered).printer
        ≠ printed (Slow.outcome Example.tie Example.tieSlow).printer := by
  decide!


/-- C6, amended. For sources that are ordered by timestamp and have no failing
fetch, the buffered merge and the slow implementation can both finish, and
whenever both have finished they have passed the same sequence of timestamps
and the same records, up to the order of records with equal timestamps, to
`printer.print`, and each has then called `printer.done` once. -/
theorem fallback_same_timestamps (logSources : List LogSource)
    (hs : ∀ ls ∈ logSources, Ordered ls.logs) (hf : ∀ ls ∈ logSources, ls.fault = none) :
    (∃ evs s, Buffered.run (Buffered.init logSources) evs = some s ∧ s.phase = Phase.finished) ∧
    (∃ evs t, Slow.run (Slow.init logSources) evs = some t ∧ t.phase = Phase.finished) ∧
    ∀ (evs1 : List Buffered.Event) (s : Buffered.State) (evs2 : List Slow.Event) (t : Slow.State),
      Buffered.run (Buffered.init logSources) evs1 = some s → s.phase = Phase.finished →
      Slow.run (Slow.init logSources) evs2 = some t → t.phase = Phase.finished →
        (printed s.printer).map (fun l => l.date) = (printed t.printer).map (fun l => l.date) ∧
        List.Perm (printed s.printer) (printed t.printer) ∧
        s.printer = (printed s.printer).map PrinterCall.print ++ [PrinterCall.done] ∧
        t.printer = (printed t.printer).map PrinterCall.print ++ [PrinterCall.done] := by
  have hbi := Buffered.inv_init logSources (fun (_ : True) => hs) hf
  have hsi := Slow.slow_inv_init logSources (fun (_ : True) => hs) hf
  refine ⟨?_, ?_, ?_⟩
  · obtain ⟨evs, s, hr, hp⟩ := Buffered.can_settle _ (Buffered.init logSources) (le_refl _)
      (Buffered.sane_init logSources)
    refine ⟨evs, s, hr, ?_⟩
    have hinv := Buffered.inv_run _ evs _ s hbi hr
    by_contra hne
    rw [Buffered.active_of_not_finished _ s hinv hne] at hp
    simp at hp
  · obtain ⟨evs, t, hr, hp⟩ := Slow.slow_can_settle _ (Slow.init logSources) (le_refl _)
    refine ⟨evs, t, hr, ?_⟩
    have hinv := Slow.slow_inv_run _ evs _ t hsi hr
    by_contra hne
    rw [Slow.slow_active_of_not_finished _ t hinv hne] at hp
    simp at hp
  · intro evs1 s evs2 t hr1 hp1 hr2 hp2
    have hinv1 := Buffered.inv_run _ evs1 _ s hbi hr1
    have hinv2 := Slow.slow_inv_run _ evs2 _ t hsi hr2
    have he1 := Buffered.emptied_run _ evs1 _ s hbi (fun hp => by simp [Buffered.init] at hp) hr1
    have he2 := Slow.slow_emptied_run _ evs2 _ t hsi (fun hp => by simp [Slow.init] at hp) hr2
    have q1 := Buffered.printed_perm _ s hinv1 he1 hp1
    have q2 := Slow.slow_printed_perm _ t hinv2 he2 hp2
    have hperm := q1.trans q2.symm
    refine ⟨Buffered.dates_eq_of_perm _ _ (hinv1.sorted trivial) (hinv2.sorted trivial) hperm,
      hperm, ?_, ?_⟩
    · have := hinv1.calls
      rwa [if_pos hp1] at this
    · have := hinv2.calls
      rwa [if_pos hp2] at this

/-- The two sources that share the timestamp 1: both paths print the
timestamps 1, 1. -/
theorem fallback_same_timestamps_witness :
    (printed (Buffered.outcome Example.tie Example.tieBuffered).printer).map (fun l => l.date)
      = (printed (Slow.outcome Example.tie Example.tieSlow).printer).map (fun l => l.date) :=
  ((fallback_same_timestamps Example.tie (by decide) (by decide)).2.2
    Example.tieBuffered _ Example.tieSlow _
    (Buffered.run_outcome _ _ (by decide!)) (by decide!)
    (Slow.slow_run_outcome _ _ (by decide!)) (by decide!)).1


/-- C7, as stated, fails: with two failing sources the variable `error` holds
the error 8 of the read-ahead of source 1 after six events and the error 7 of
source 0 after seven, and the promise of the merge is rejected with 7, although
8 was recorded first. -/
theorem error_is_overwritten :
    (Buffered.outcome Example.twoFaults (Example.twoFaultsSchedule.take 6)).error = some 8 ∧
      (Buffered.outcome Example.twoFaults (Example.twoFaultsSchedule.take 7)).error = some 7 ∧
      (Buffered.outcome Example.twoFaults Example.twoFaultsSchedule).phase = Phase.rejected 7 ∧
      (Buffered.outcome Example.twoFaults Example.twoFaultsSchedule).assigned = [8, 7, 7] := by
  decide!


/-- C7, amended. In the buffered merge every `catch` assigns `error` whatever
it holds: an event never resets `error` to `null` once it holds an error, and
when an event rejects the promise of the merge with an error, `error` holds
that error (the one recorded last). -/
theorem error_never_cleared (s t : Buffered.State) (ev : Buffered.Event)
    (hst : Buffered.step s ev = some t) :
    (s.error ≠ none → t.error ≠ none) ∧
      (∀ e, Phase.active s.phase = true → t.phase = Phase.rejected e → t.error = some e) :=
  Buffered.error_step s t ev hst

/-- The last event of the run with two failing sources: the promise is
rejected with 7 and `error` holds 7. -/
theorem error_never_cleared_witness :
    (Buffered.outcome Example.twoFaults Example.twoFaultsSchedule).phase = Phase.rejected 7 ∧
      (Buffered.outcome Example.twoFaults Example.twoFaultsSchedule).error = some 7 :=
  ⟨by decide!,
    (error_never_cleared (Buffered.outcome Example.twoFaults (Example.twoFaultsSchedule.take 7))
      (Buffered.outcome Example.twoFaults Example.twoFaultsSchedule) (Buffered.Event.resume 0)
      (by decide!)).2 7 (by decide!) (by decide!)⟩


/-- C8, as stated, fails: after five events `error` holds an error and the
buffer of source 1 is empty; the fetch of source 1 that was in flight then
settles and its record is put into the buffer. -/
theorem late_fetch_is_enqueued :
    (Buffered.outcome Example.faultAndLate (Example.faultAndLateSchedule.take 5)).error = some 7 ∧
      (Buffered.outcome Example.faultAndLate (Example.faultAndLateSchedule.take 5)).sources.map
          (fun b => b.buffer.toList) = [[], []] ∧
      (Buffered.outcome Example.faultAndLate Example.faultAndLateSchedule).sources.map
          (fun b => b.buffer.toList) = [[], [⟨1, some ⟨3, 0⟩⟩]] := by
  decide!


/-- C8, amended. Once `error` holds an error, no event passes a record to the
printer and no event calls `popAsync`; a fetch that was in flight still hands
its record to the callback of `prefetch`, which sets `worker` to `null` and
puts the record into the buffer of its source, and only the read-ahead after
it is left out. -/
theorem no_print_after_error (s t : Buffered.State) (ev : Buffered.Event)
    (hst : Buffered.step s ev = some t) (herr : s.error ≠ none) :
    t.printer = s.printer ∧
      t.sources.map (fun b => b.calls) = s.sources.map (fun b => b.calls) ∧
      ∀ i b l d, ev = Buffered.Event.settle i → s.sources[i]? = some b →
        b.worker = Worker.pending (Outcome.log l) d →
        t.sources = s.sources.set i
          (Buffered.received i (Buffered.notify b (Outcome.log l)) (some l)) := by
  obtain ⟨h1, h2⟩ := Buffered.quiet_after_error s t ev hst herr
  refine ⟨h1, h2, ?_⟩
  intro i b l d hev hb hw
  subst hev
  have hnone : s.error.isNone = false := by
    cases he : s.error with
    | none => exact absurd he herr
    | some e => rfl
  simp only [Buffered.step, Buffered.settle, hb, hw, Option.some.injEq] at hst
  subst hst
  simp [Buffered.onFetched, hnone]

/-- The last event of the run with a failing source and a late fetch: nothing
is printed and `popAsync` is not called. -/
theorem no_print_after_error_witness :
    (Buffered.outcome Example.faultAndLate Example.faultAndLateSchedule).printer
        = (Buffered.outcome Example.faultAndLate (Example.faultAndLateSchedule.take 5)).printer ∧
      (Buffered.outcome Example.faultAndLate Example.faultAndLateSchedule).sources.map
          (fun b => b.calls) = [2, 2] :=
  ⟨(no_print_after_error
      (Buffered.outcome Example.faultAndLate (Example.faultAndLateSchedule.take 5))
      (Buffered.outcome Example.faultAndLate Example.faultAndLateSchedule)
      (Buffered.Event.settle 1) (by decide!) (by decide!)).1,
    by decide!⟩


/-- C9, as stated, fails: on a source without records the first `popAsync`
returns the empty marker; when it settles the marker is put into the buffer
in a wrapper and `popAsync` is called a second time. -/
theorem marker_is_enqueued :
    (Buffered.outcome Example.drained []).sources.map (fun b => (b.worker, b.calls))
        = [(Worker.pending Outcome.empty false, 1)] ∧
      (Buffered.outcome Example.drained [Buffered.Event.settle 0]).sources.map
          (fun b => (b.buffer.toList, b.worker, b.calls))
        = [([⟨0, none⟩], Worker.pending Outcome.empty true, 2)] := by
  decide!


/-- C9, amended. When a `popAsync` of a source settles with the empty marker,
the marker is put into the buffer of the source in a wrapper; if no error is
recorded and the buffer is below its capacity, `popAsync` is called again on
that source and the read-ahead goes on, otherwise the worker is left `null`;
`pushToHeap` never puts a wrapper that carries the marker into the heap. -/
theorem marker_read_ahead (s t : Buffered.State) (i : Nat) (b : BufferedSource) (d : Bool)
    (hb : s.sources[i]? = some b) (hw : b.worker = Worker.pending Outcome.empty d)
    (hst : Buffered.step s (Buffered.Event.settle i) = some t) :
    (∃ c, t.sources[i]? = some c ∧ c.buffer = b.buffer.enq ⟨i, none⟩ ∧
      (if s.error = none ∧ bufferMaxSize s.liveSourceCount - (b.buffer.size + 1) > 0
        then c.calls = b.calls + 1 ∧ ∃ o, c.worker = Worker.pending o true
        else c.calls = b.calls ∧ c.worker = Worker.idle)) ∧
      ∀ H, Buffered.pushToHeap H (some ⟨i, none⟩) = H := by
  refine ⟨?_, fun H => rfl⟩
  have hlt : i < s.sources.length := Heap.lt_length_of_get hb
  simp only [Buffered.step, Buffered.settle, hb, hw, Option.some.injEq] at hst
  subst hst
  refine ⟨Buffered.onFetched s.error s.liveSourceCount i (Buffered.notify b Outcome.empty) none,
    by simp [hlt], ?_⟩
  have hsz : (Buffered.received i (Buffered.notify b Outcome.empty) none).buffer.size
      = b.buffer.size + 1 := Buffered.size_enq _ _
  unfold Buffered.onFetched
  rw [hsz]
  by_cases hc : s.error = none ∧ bufferMaxSize s.liveSourceCount - (b.buffer.size + 1) > 0
  · have hc2 : s.error.isNone = true ∧ bufferMaxSize s.liveSourceCount - (b.buffer.size + 1) > 0 :=
      ⟨by rw [hc.1]; rfl, hc.2⟩
    rw [if_pos hc2, if_pos hc]
    obtain ⟨e1, _, o, e3⟩ := Buffered.startFetch_fields
      (Buffered.received i (Buffered.notify b Outcome.empty) none) true
    exact ⟨by rw [e1]; rfl, rfl, o, e3⟩
  · have hc2 : ¬ (s.error.isNone = true ∧
        bufferMaxSize s.liveSourceCount - (b.buffer.size + 1) > 0) := by
      intro h
      apply hc
      refine ⟨?_, h.2⟩
      cases he : s.error with
      | none => rfl
      | some e => rw [he] at h; simp at h
    rw [if_neg hc2, if_neg hc]
    exact ⟨rfl, rfl, rfl⟩

/-- The source without records: after the marker has arrived `popAsync` has
been called twice. -/
theorem marker_read_ahead_witness :
    ∃ c, (Buffered.outcome Example.drained [Buffered.Event.settle 0]).sources[0]? = some c ∧
      c.buffer = (Queue.new : Queue Wrapper).enq ⟨0, none⟩ ∧
      (if (Buffered.outcome Example.drained []).error = none ∧
          bufferMaxSize (Buffered.outcome Example.drained []).liveSourceCount
            - ((Queue.new : Queue Wrapper).size + 1) > 0
        then c.calls = 0 + 1 + 1 ∧ ∃ o, c.worker = Worker.pending o true
        else c.calls = 0 + 1 ∧ c.worker = Worker.idle) :=
  (marker_read_ahead (Buffered.outcome Example.drained [])
    (Buffered.outcome Example.drained [Buffered.Event.settle 0]) 0
    (Buffered.next { logSource := { logs := [] } }) false (by decide!) (by decide!)
    (by decide!)).1


/-- C10, as stated, fails: after five events of the run on a source without
records and a source with two records, the first source has returned the empty
marker, one source is left, the variable `liveSourceCount` still holds 2, and
the next event, a fetch of source 1 settling, takes a capacity decision. -/
theorem live_count_is_not_updated :
    (Buffered.outcome Example.withEmpty (Example.withEmptySchedule.take 5)).liveSourceCount = 2 ∧
      Buffered.live (Buffered.outcome Example.withEmpty (Example.withEmptySchedule.take 5)) = 1 ∧
      (Buffered.step (Buffered.outcome Example.withEmpty (Example.withEmptySchedule.take 5))
        (Buffered.Event.settle 1)).isSome = true := by
  decide!


/-- C10, amended. The variable `liveSourceCount` is assigned once, the number
of sources given to the merge, and no event changes it: in every state of every
run it holds that number, and the callback of `prefetch` takes its capacity
decision with `bufferMaxSize` evaluated at that number, however many sources
have drained. -/
theorem live_count_is_constant (logSources : List LogSource) (evs : List Buffered.Event)
    (s : Buffered.State) (hr : Buffered.run (Buffered.init logSources) evs = some s) :
    s.liveSourceCount = logSources.length ∧
      ∀ i b l d, s.sources[i]? = some b → b.worker = Worker.pending (Outcome.log l) d →
        Buffered.step s (Buffered.Event.settle i)
          = some { s with
              sources := s.sources.set i
                (Buffered.onFetched s.error logSources.length i
                  (Buffered.notify b (Outcome.log l)) (some l)) } := by
  have h1 : s.liveSourceCount = logSources.length :=
    Buffered.liveSourceCount_run evs _ s (Buffered.sane_init logSources) hr
  refine ⟨h1, ?_⟩
  intro i b l d hb hw
  simp only [Buffered.step, Buffered.settle, hb, hw, h1]

/-- The run on a source without records and a source with two records: the
count stays 2. -/
theorem live_count_is_constant_witness :
    (Buffered.outcome Example.withEmpty Example.withEmptySchedule).liveSourceCount
      = Example.withEmpty.length :=
  (live_count_is_constant Example.withEmpty Example.withEmptySchedule _
    (Buffered.run_outcome _ _ (by decide!))).1


/-- C11. Buffered merge, every state of every run (any sources, any order of
fetch completions and of continuations): the variable `size` of the buffer of
each source, which is the number of entries in the buffer, is at most
`bufferMaxSize()` evaluated in that state. -/
theorem buffer_within_capacity (logSources : List LogSource) (evs : List Buffered.Event)
    (s : Buffered.State) (hr : Buffered.run (Buffered.init logSources) evs = some s) :
    ∀ b ∈ s.sources, b.buffer.size ≤ bufferMaxSize s.liveSourceCount ∧
      (b.buffer.toList.length : Int) ≤ bufferMaxSize s.liveSourceCount := by
  intro b hb
  have hsane := Buffered.sane_run evs _ s (Buffered.sane_init logSources) hr
  have hw := Buffered.within_run evs _ s (Buffered.sane_init logSources)
    (Buffered.within_init logSources) hr b hb
  refine ⟨hw.1, ?_⟩
  rw [← Queue.size_eq _ (hsane b hb).1]
  exact hw.1

/-- The run on the sources 1, 4, 7 and 2, 5, 8 and 3, 6, 9 after its first
event, the first fetch of source 0 settling: the buffer of source 0 holds one
entry, within the capacity 100. -/
theorem buffer_within_capacity_witness :
    (Buffered.outcome Example.three (Example.threeSchedule.take 1)).sources.map
        (fun b => b.buffer.size) = [1, 0, 0] ∧
      bufferMaxSize (Buffered.outcome Example.three (Example.threeSchedule.take 1)).liveSourceCount
        = 100 ∧
      ∀ b ∈ (Buffered.outcome Example.three (Example.threeSchedule.take 1)).sources,
        b.buffer.size ≤ bufferMaxSize
          (Buffered.outcome Example.three (Example.threeSchedule.take 1)).liveSourceCount :=
  ⟨by decide!, by decide!,
    fun b hb => (buffer_within_capacity Example.three (Example.threeSchedule.take 1) _
      (Buffered.run_outcome _ _ (by decide!)) b hb).1⟩


/-- C12. Buffered merge, every state of every run and every source: the
number of calls of `popAsync` made on the source is the number of its fetches
that have completed plus one if its worker has not settled and plus nothing
otherwise, so at most one call is outstanding; and while the worker has not
settled, `prefetch` returns it and `next` leaves the worker, the source and the
number of calls as they are. -/
theorem one_fetch_in_flight (logSources : List LogSource) (evs : List Buffered.Event)
    (s : Buffered.State) (hr : Buffered.run (Buffered.init logSources) evs = some s)
    (i : Nat) (hi : i < logSources.length) :
    ∃ b, s.sources[i]? = some b ∧
      b.calls = Buffered.completed evs i + Buffered.busy b.worker ∧
      b.calls - Buffered.completed evs i ≤ 1 ∧
      ∀ o d, b.worker = Worker.pending o d →
        Buffered.prefetch b = b ∧ (Buffered.next b).calls = b.calls ∧
          (Buffered.next b).worker = b.worker ∧ (Buffered.next b).logSource = b.logSource := by
  have h0 : (Buffered.init logSources).sources[i]?
      = some (Buffered.next { logSource := logSources[i] }) := by
    simp [Buffered.init, hi]
  obtain ⟨c, h1, h2⟩ := Buffered.calls_run evs _ s hr i _ h0
  have hfresh := Buffered.calls_next { logSource := logSources[i] }
  have hbusy0 : Buffered.busy (Buffered.next { logSource := logSources[i] }).worker = 1 := by
    rw [Buffered.next_fresh]
    obtain ⟨_, _, o, e3⟩ := Buffered.startFetch_fields { logSource := logSources[i] } false
    show Buffered.busy (Buffered.startFetch { logSource := logSources[i] } false).worker = 1
    rw [e3]
    rfl
  have hidle : Buffered.busy ({ logSource := logSources[i] } : BufferedSource).worker = 0 := rfl
  have hzero : ({ logSource := logSources[i] } : BufferedSource).calls = 0 := rfl
  rw [hbusy0, hidle, hzero] at hfresh
  rw [hbusy0] at h2
  have hle := Buffered.busy_le_one c.worker
  refine ⟨c, h1, by omega, by omega, ?_⟩
  intro o d hw
  have hp : Buffered.prefetch c = c := by simp [Buffered.prefetch, hw]
  refine ⟨hp, ?_⟩
  rcases Buffered.next_cases c with ⟨_, e⟩ | ⟨_, hw2, _⟩ | ⟨_, _, e⟩ | ⟨_, er, hw2, _⟩
  · rw [e]; exact ⟨rfl, rfl, rfl⟩
  · rw [hw] at hw2; simp at hw2
  · rw [e]; exact ⟨rfl, rfl, rfl⟩
  · rw [hw] at hw2; simp at hw2

/-- The run on the sources 1, 4, 7 and 2, 5, 8 and 3, 6, 9: on source 0
`popAsync` has been called 5 times, 4 fetches have completed and one is
outstanding. -/
theorem one_fetch_in_flight_witness :
    Buffered.completed Example.threeSchedule 0 = 4 ∧
      ∃ b, (Buffered.outcome Example.three Example.threeSchedule).sources[0]? = some b ∧
        b.calls = Buffered.completed Example.threeSchedule 0 + Buffered.busy b.worker ∧
        b.calls - Buffered.completed Example.threeSchedule 0 ≤ 1 :=
  ⟨by decide,
    (one_fetch_in_flight Example.three Example.threeSchedule _
      (Buffered.run_outcome _ _ (by decide!)) 0 (by decide)).imp
      (fun _ h => ⟨h.1, h.2.1, h.2.2.1⟩)⟩


/-- C13. For every live-source count `n ≥ 1`, `bufferMaxSize` evaluates to
`ceil(min(1000000 / n, 100))` in exact rational arithmetic, which is
`min(ceil(1000000 / n), 100)` and, in whole numbers, the smaller of
`(1000000 + n - 1) / n` (rounded down) and 100; it is 100 for every
`n ≤ 10000`; and the formula with the budget 1000 and the depth 100 gives 50
for 20 sources and 100 for 5. -/
theorem capacity_formula (n : Nat) (hn : 1 ≤ n) :
    bufferMaxSize n = Int.ceil (min ((1000000 : ℚ) / (n : ℚ)) 100) ∧
      bufferMaxSize n = min (Int.ceil ((1000000 : ℚ) / (n : ℚ))) 100 ∧
      bufferMaxSize n = ((min ((1000000 + n - 1) / n) 100 : Nat) : Int) ∧
      (n ≤ 10000 → bufferMaxSize n = 100) ∧
      capacity 1000 100 20 = 50 ∧ capacity 1000 100 5 = 100 := by
  have h1 : bufferMaxSize n = Int.ceil (min ((1000000 : ℚ) / (n : ℚ)) 100) := by
    unfold bufferMaxSize
    rw [if_neg (by omega)]
    simp [MAX_PREFETCH_SPACE, MAX_PREFETCH_DEPTH]
  have h3 : bufferMaxSize n = ((min ((1000000 + n - 1) / n) 100 : Nat) : Int) := by
    rw [bufferMaxSize_eq_capacity, capacity_eq _ _ n (by omega)]
    rfl
  refine ⟨h1, ?_, h3, ?_, ?_, ?_⟩
  · rw [h1]
    have hmono : Monotone (Int.ceil : ℚ → Int) := Int.ceil_mono
    rw [hmono.map_min]
    have : Int.ceil ((100 : ℚ)) = 100 := by
      exact_mod_cast Int.ceil_natCast 100
    rw [this]
  · intro hle
    rw [h3]
    have : 100 ≤ (1000000 + n - 1) / n := by
      rw [Nat.le_div_iff_mul_le (by omega)]
      omega
    rw [Nat.min_eq_right this]
    rfl
  · rw [capacity_eq _ _ 20 (by omega)]; decide
  · rw [capacity_eq _ _ 5 (by omega)]; decide

/-- With one source the capacity is 100, with 20000 sources it is 50. -/
theorem capacity_formula_witness : bufferMaxSize 1 = 100 ∧ bufferMaxSize 20000 = 50 :=
  ⟨(capacity_formula 1 (by decide)).2.2.2.1 (by decide),
    by rw [(capacity_formula 20000 (by decide)).2.2.1]; decide⟩


/-- C14, as stated, fails: with 10001 sources the capacity is 100 and the
total allowance is 1000100, above `MAX_PREFETCH_SPACE`. -/
theorem allowance_exceeds_space :
    bufferMaxSize 10001 = 100 ∧
      (10001 : Int) * bufferMaxSize 10001 > (MAX_PREFETCH_SPACE : Int) := by
  have h : bufferMaxSize 10001 = 100 := by
    rw [bufferMaxSize_eq_capacity, capacity_eq _ _ 10001 (by omega)]
    decide
  rw [h]
  decide


/-- C14, amended. For every source count `n ≥ 1` the total prefetch allowance
`n * bufferMaxSize()` is below `MAX_PREFETCH_SPACE + n` (the capacity is rounded
up, so the allowance exceeds the budget by less than one entry per source); it
does not exceed `MAX_PREFETCH_SPACE` when `n ≤ 10000` or when `n` divides
`MAX_PREFETCH_SPACE`. -/
theorem allowance_below_space_plus_count (n : Nat) (hn : 1 ≤ n) :
    (n : Int) * bufferMaxSize n < (MAX_PREFETCH_SPACE : Int) + n ∧
      (n ≤ 10000 ∨ n ∣ MAX_PREFETCH_SPACE →
        (n : Int) * bufferMaxSize n ≤ (MAX_PREFETCH_SPACE : Int)) := by
  have h3 : bufferMaxSize n = ((min ((1000000 + n - 1) / n) 100 : Nat) : Int) := by
    rw [bufferMaxSize_eq_capacity, capacity_eq _ _ n (by omega)]
    rfl
  have hq : n * ((1000000 + n - 1) / n) ≤ 1000000 + n - 1 := Nat.mul_div_le _ _
  have hmin : n * min ((1000000 + n - 1) / n) 100 ≤ n * ((1000000 + n - 1) / n) :=
    Nat.mul_le_mul_left _ (Nat.min_le_left _ _)
  rw [h3]
  simp only [MAX_PREFETCH_SPACE]
  constructor
  · have : n * min ((1000000 + n - 1) / n) 100 < 1000000 + n := by omega
    exact_mod_cast this
  · intro h
    have : n * min ((1000000 + n - 1) / n) 100 ≤ 1000000 := by
      rcases h with h | ⟨k, hk⟩
      · have : n * min ((1000000 + n - 1) / n) 100 ≤ n * 100 :=
          Nat.mul_le_mul_left _ (Nat.min_le_right _ _)
        omega
      · have hdiv : (1000000 + n - 1) / n = k := by
          have h1 : 1000000 + n - 1 = k * n + (n - 1) := by rw [hk, Nat.mul_comm]; omega
          rw [h1, Nat.add_comm, Nat.add_mul_div_right _ _ (by omega)]
          rw [Nat.div_eq_of_lt (by omega)]
          omega
        have hqk : n * ((1000000 + n - 1) / n) = 1000000 := by rw [hdiv]; exact hk.symm
        exact le_of_le_of_eq hmin hqk
    exact_mod_cast this

/-- With 10001 sources the allowance, 1000100, is below 1010001. -/
theorem allowance_below_space_plus_count_witness :
    (10001 : Int) * bufferMaxSize 10001 < (MAX_PREFETCH_SPACE : Int) + 10001 :=
  (allowance_below_space_plus_count 10001 (by decide)).1


/-- C15. For every sequence of `enq`, `deq` and `peek` calls on a queue that
starts empty, the values returned by the calls of `queue.js` are the values
returned by the list model (in which `enq` appends at the back, `deq` removes
and returns the front element, or returns `null` and changes nothing when the
list is empty, and `peek` returns the front element, or `null`, and changes
nothing), the contents of the queue are the list of the model, and the values
given to `enq` are, in order, the values returned by `deq` followed by the
contents left: values are dequeued in the order in which they were enqueued. -/
theorem queue_is_fifo {α : Type} (cs : List (Queue.Call α)) :
    ((Queue.new : Queue α).calls cs).1 = (Queue.listCalls [] cs).1 ∧
      ((Queue.new : Queue α).calls cs).2.toList = (Queue.listCalls [] cs).2 ∧
      Queue.enqueued cs
        = Queue.dequeued cs ((Queue.new : Queue α).calls cs).1
          ++ ((Queue.new : Queue α).calls cs).2.toList := by
  obtain ⟨_, h2, h3⟩ := Queue.calls_refine cs (Queue.new : Queue α) Queue.wf_new
  rw [Queue.toList_new] at h2 h3
  refine ⟨h2, h3, ?_⟩
  rw [h2, h3]
  simpa using Queue.listCalls_order cs ([] : List α)


/-- C16. Blocking merge on sources that yield their records in non-decreasing
timestamp order: the records passed to `printer.print` are in non-decreasing
timestamp order; the calls made on the printer are the calls of `print`
followed by exactly one call of `done`; and the `while` loop ends, with an
empty heap, within the number of iterations given by the records and heap
entries left after priming (more iterations change nothing). -/
theorem sync_prints_in_order (logSources : List LogSource)
    (hs : ∀ ls ∈ logSources, Ordered ls.logs) :
    Ordered (printed (Sync.syncSortedMerge logSources)) ∧
      doneCalls (Sync.syncSortedMerge logSources) = 1 ∧
      Sync.syncSortedMerge logSources
        = (printed (Sync.syncSortedMerge logSources)).map PrinterCall.print
          ++ [PrinterCall.done] ∧
      (Sync.loop (Sync.fuelFor (Sync.prime logSources)) (Sync.prime logSources)).logheap = [] ∧
      ∀ fuel, Sync.fuelFor (Sync.prime logSources) ≤ fuel →
        Sync.loop fuel (Sync.prime logSources)
          = Sync.loop (Sync.fuelFor (Sync.prime logSources)) (Sync.prime logSources) := by
  obtain ⟨hinv, _⟩ := Sync.inv_prime logSources hs
  obtain ⟨l1, _, l3⟩ := Sync.loop_spec _ (Sync.prime logSources) (Nat.le_refl _)
  have hfin := l3 hinv
  have hpr : printed (Sync.syncSortedMerge logSources)
      = printed (Sync.loop (Sync.fuelFor (Sync.prime logSources)) (Sync.prime logSources)).printer := by
    unfold Sync.syncSortedMerge
    dsimp only
    rw [Buffered.printed_append]
    simp [printed]
  have hcalls : Sync.syncSortedMerge logSources
      = (printed (Sync.syncSortedMerge logSources)).map PrinterCall.print
        ++ [PrinterCall.done] := by
    rw [hpr, ← hfin.calls]
    rfl
  refine ⟨by rw [hpr]; exact hfin.sorted, ?_, hcalls, l1, ?_⟩
  · rw [hcalls]
    simp [doneCalls, List.count_append, List.count_eq_zero]
  · intro fuel hf
    exact (Sync.loop_spec fuel (Sync.prime logSources) hf).2.1

/-- The sources 1, 4, 7 and 2, 5, 8 and 3, 6, 9 are printed as 1, 2, ..., 9 by
the blocking merge. -/
theorem sync_prints_in_order_witness :
    (printed (Sync.syncSortedMerge Example.three)).map (fun l => l.date)
        = [1, 2, 3, 4, 5, 6, 7, 8, 9] ∧
      Ordered (printed (Sync.syncSortedMerge Example.three)) :=
  ⟨by decide, (sync_prints_in_order Example.three (by decide)).1⟩


/-- C17. One buffered source over a log source without a failing fetch, with
`next()` called only when the call before it has resolved, and any order of
fetch completions (whatever `error` and `liveSourceCount` hold when they
happen): the call number `j` (from 0) that has resolved has resolved to the
wrapper of this source with the record number `j` of the log source, or with
the marker once the records are used up; `pushToHeap` pushes the former and
leaves the heap as it is for the latter; a call that is outstanding can
resolve within two events, and when none is outstanding `next()` can be
called. -/
theorem next_yields_the_records (ls : LogSource) (hf : ls.fault = none) (index : Nat)
    (as : List Buffered.Act) (b : BufferedSource) (r : List (Option Wrapper))
    (hr : Buffered.acts index { logSource := ls } as = some (b, r)) :
    (∀ (j : Nat), j < r.length → r[j]? = some (some ⟨index, ls.logs[j]?⟩)) ∧
      (∀ (j : Nat) (l : Log) (H : List Entry), ls.logs[j]? = some l →
        Buffered.pushToHeap H (some ⟨index, ls.logs[j]?⟩)
          = Heap.push cmpDate H ⟨index, l⟩) ∧
      (∀ (j : Nat) (H : List Entry), ls.logs.length ≤ j →
        Buffered.pushToHeap H (some ⟨index, ls.logs[j]?⟩) = H) ∧
      (b.caller = Caller.idle →
        Buffered.act index b Buffered.Act.call = some (Buffered.next b, [])) ∧
      (b.caller ≠ Caller.idle →
        ∃ as2 c w, as2.length ≤ 2 ∧ Buffered.acts index b as2 = some (c, [w]) ∧
          c.caller = Caller.idle) := by
  obtain ⟨h1, h2⟩ := Buffered.feeds_acts ls index as 0 _ b r
    (Buffered.feeds_fresh ls index hf) hr
  refine ⟨?_, ?_, ?_, ?_, ?_⟩
  · intro j hj
    have := h2 j hj
    simpa using this
  · intro j l H hl
    rw [hl]
    rfl
  · intro j H hj
    rw [List.getElem?_eq_none hj]
    rfl
  · intro hc
    simp [Buffered.act, hc]
  · intro hc
    exact Buffered.can_resolve ls index _ b h1 hc

/-- Three calls of `next` on the source with the timestamps 1 and 4: they
resolve to the record 1, the record 4 and the marker. -/
theorem next_yields_the_records_witness :
    (Buffered.acts 0 { logSource := Example.pair } Example.pairActs).map (fun p => p.2)
        = some [some ⟨0, some ⟨1, 0⟩⟩, some ⟨0, some ⟨4, 0⟩⟩, some ⟨0, none⟩] ∧
      ∀ (j : Nat), j < 3 →
        [some (⟨0, some ⟨1, 0⟩⟩ : Wrapper), some ⟨0, some ⟨4, 0⟩⟩, some ⟨0, none⟩][j]?
          = some (some ⟨0, Example.pair.logs[j]?⟩) :=
  ⟨by decide!,
    (next_yields_the_records Example.pair (by decide) 0 Example.pairActs
      ((Buffered.acts 0 { logSource := Example.pair } Example.pairActs).getD
        ({ logSource := Example.pair }, [])).1
      [some ⟨0, some ⟨1, 0⟩⟩, some ⟨0, some ⟨4, 0⟩⟩, some ⟨0, none⟩] (by decide!)).1⟩


/-- C18, at the failing input: on one source with two records of timestamp 1
the heap holds, at the start of the second iteration of the loop of the
blocking merge, the record of message 0, which has been printed, and the
oldest record not yet printed, of message 1, is neither in the heap nor left
in the source (the defect of C3: `pushpop` has left the heap as it was). -/
theorem sync_heap_holds_printed_record :
    Heap.peek (Sync.prime Example.twins).logheap = some ⟨0, ⟨1, 0⟩⟩ ∧
      (Sync.iteration (Sync.prime Example.twins) ⟨0, ⟨1, 0⟩⟩).logheap = [⟨0, ⟨1, 0⟩⟩] ∧
      printed (Sync.iteration (Sync.prime Example.twins) ⟨0, ⟨1, 0⟩⟩).printer = [⟨1, 0⟩] ∧
      (Sync.iteration (Sync.prime Example.twins) ⟨0, ⟨1, 0⟩⟩).logSources.map (fun src => src.logs)
        = [[]] := by
  decide


/-- C19. After every sequence of `enq`, `deq` (and `peek`) calls on a queue
that starts empty, `size()` is the number of `enq` calls minus the number of
`deq` calls that returned an element, it is not negative, and `isEmpty()` is
true exactly when `size()` is 0; a `deq` on a queue that is empty returns
`null` and leaves the queue, and so `size()`, as it is; and a queue that is
empty again returns the values of later `enq` calls in their order and is
empty after them. -/
theorem queue_size_consistent {α : Type} (cs : List (Queue.Call α)) :
    ((Queue.new : Queue α).calls cs).2.size
        = ((Queue.enqueued cs).length : Int)
          - ((Queue.dequeued cs ((Queue.new : Queue α).calls cs).1).length : Int) ∧
      0 ≤ ((Queue.new : Queue α).calls cs).2.size ∧
      (((Queue.new : Queue α).calls cs).2.isEmpty = true
        ↔ ((Queue.new : Queue α).calls cs).2.size = 0) ∧
      (((Queue.new : Queue α).calls cs).2.isEmpty = true →
        ((Queue.new : Queue α).calls cs).2.deq = (none, ((Queue.new : Queue α).calls cs).2) ∧
        ∀ xs : List α,
          ((((Queue.new : Queue α).calls cs).2.calls
              (xs.map Queue.Call.enq ++ List.replicate xs.length Queue.Call.deq)).1
            = List.replicate xs.length none ++ xs.map some) ∧
          (((Queue.new : Queue α).calls cs).2.calls
              (xs.map Queue.Call.enq ++ List.replicate xs.length Queue.Call.deq)).2.isEmpty
            = true) := by
  obtain ⟨h1, h2, h3⟩ := Queue.calls_refine cs (Queue.new : Queue α) Queue.wf_new
  rw [Queue.toList_new] at h2 h3
  have hord := Queue.listCalls_order cs ([] : List α)
  rw [← h2, ← h3] at hord
  have hsize := Queue.size_eq _ h1
  have hempty := Queue.isEmpty_iff _ h1
  have hlen : (Queue.enqueued cs).length
      = (Queue.dequeued cs ((Queue.new : Queue α).calls cs).1).length
        + ((Queue.new : Queue α).calls cs).2.toList.length := by
    have := congrArg List.length hord
    simpa using this
  refine ⟨by rw [hsize]; omega, by rw [hsize]; omega, ?_, ?_⟩
  · rw [hempty, hsize]
    constructor
    · intro h; rw [h]; rfl
    · intro h
      exact List.length_eq_zero.mp (by exact_mod_cast h)
  · intro he
    refine ⟨Queue.deq_of_isEmpty _ he, ?_⟩
    intro xs
    have hnil := hempty.mp he
    obtain ⟨r1, r2, r3⟩ := Queue.calls_refine
      (xs.map Queue.Call.enq ++ List.replicate xs.length Queue.Call.deq) _ h1
    rw [hnil, Queue.listCalls_append, Queue.listCalls_enqs] at r2 r3
    simp only [List.nil_append] at r2 r3
    rw [Queue.listCalls_deqs] at r2 r3
    refine ⟨r2, ?_⟩
    rw [Queue.isEmpty_iff _ r1]
    exact r3


/-- C20. For source counts `1 ≤ m ≤ n < 1000000`, `bufferMaxSize` with the
count `m` is at least `bufferMaxSize` with the count `n`, and the value lies
between 2 and 100; so an empty buffer is below the capacity, and the callback
of `prefetch`, run on a source whose buffer was empty while no error is
recorded, starts the next fetch. -/
theorem capacity_antitone_and_bounded (m n : Nat) (hm : 1 ≤ m) (hmn : m ≤ n)
    (hn : n < 1000000) :
    bufferMaxSize n ≤ bufferMaxSize m ∧ 2 ≤ bufferMaxSize n ∧ bufferMaxSize n ≤ 100 ∧
      bufferMaxSize n - (Queue.new : Queue Wrapper).size > 0 ∧
      ∀ (index : Nat) (b : BufferedSource) (log : Option Log), b.buffer.size = 0 →
        Buffered.onFetched none n index b log
          = Buffered.startFetch (Buffered.received index b log) true := by
  have hcap : ∀ k, 1 ≤ k →
      bufferMaxSize k = ((min ((1000000 + k - 1) / k) 100 : Nat) : Int) := by
    intro k hk
    rw [bufferMaxSize_eq_capacity, capacity_eq _ _ k (by omega)]
    rfl
  have hmono : (1000000 + n - 1) / n ≤ (1000000 + m - 1) / m := by
    rw [Nat.le_div_iff_mul_le (by omega)]
    have h1 : (1000000 + n - 1) / n * n ≤ 1000000 + n - 1 := Nat.div_mul_le_self _ _
    have h2 : (1000000 + n - 1) / n * m ≤ (1000000 + n - 1) / n * n :=
      Nat.mul_le_mul_left _ hmn
    by_contra hc
    push_neg at hc
    have h3 : 1000000 + m ≤ (1000000 + n - 1) / n * m := by omega
    have h4 : ((1000000 + n - 1) / n - 1) * m ≥ 1000000 := by
      have : ((1000000 + n - 1) / n - 1) * m = (1000000 + n - 1) / n * m - m := by
        rw [Nat.sub_mul, Nat.one_mul]
      omega
    have h5 : ((1000000 + n - 1) / n - 1) * n ≥ ((1000000 + n - 1) / n - 1) * m :=
      Nat.mul_le_mul_left _ hmn
    have h6 : ((1000000 + n - 1) / n - 1) * n = (1000000 + n - 1) / n * n - n := by
      rw [Nat.sub_mul, Nat.one_mul]
    omega
  have htwo : 2 ≤ (1000000 + n - 1) / n := by
    rw [Nat.le_div_iff_mul_le (by omega)]
    omega
  have h2 : (2 : Int) ≤ bufferMaxSize n := by
    rw [hcap n (by omega)]
    have : 2 ≤ min ((1000000 + n - 1) / n) 100 := by
      rw [Nat.le_min]; exact ⟨htwo, by decide⟩
    exact_mod_cast this
  refine ⟨?_, h2, ?_, ?_, ?_⟩
  · rw [hcap n (by omega), hcap m hm]
    have : min ((1000000 + n - 1) / n) 100 ≤ min ((1000000 + m - 1) / m) 100 :=
      min_le_min hmono (le_refl _)
    exact_mod_cast this
  · rw [hcap n (by omega)]
    have : min ((1000000 + n - 1) / n) 100 ≤ 100 := Nat.min_le_right _ _
    exact_mod_cast this
  · have : (Queue.new : Queue Wrapper).size = 0 := rfl
    rw [this]
    omega
  · intro index b log hb
    have hs : (Buffered.received index b log).buffer.size = 1 := by
      have := Buffered.size_enq b.buffer ⟨index, log⟩
      rw [hb] at this
      exact this
    unfold Buffered.onFetched
    rw [hs, if_pos]
    exact ⟨rfl, by omega⟩

/-- The counts 2 and 999999: the capacities are 100 and 2. -/
theorem capacity_antitone_and_bounded_witness :
    bufferMaxSize 999999 ≤ bufferMaxSize 2 ∧ 2 ≤ bufferMaxSize 999999 :=
  ⟨(capacity_antitone_and_bounded 2 999999 (by decide) (by decide) (by decide)).1,
    (capacity_antitone_and_bounded 2 999999 (by decide) (by decide) (by decide)).2.1⟩

end Sawmill
